import Mathlib

/-!
# JVMCI compiler-to-VM bridge (jvmciCompilerToVM.cpp)

A shallow embedding of the native entry points of `CompilerToVM` and the
properties of their specification.  Java objects that cross the boundary are
records, the part of the VM an entry point touches is passed in and returned,
and an entry point that can throw returns an `Except Throwable`.
-/

namespace JVMCI

/-! ## Machine integers and byte order -/

/-- Value of the low `bits` bits of `x` read as a two's-complement number: the
result of a C conversion to a signed integer type of that width. -/
def wrapSigned (bits : Nat) (x : Int) : Int :=
  (x + 2 ^ (bits - 1)) % 2 ^ bits - 2 ^ (bits - 1)

/-- Value of the low `bits` bits of `x` read as an unsigned number. -/
def wrapUnsigned (bits : Nat) (x : Int) : Int :=
  x % 2 ^ bits

/-- Byte order of the host (`Bytes::get_native_*` follows it). -/
inductive Endian
  | little
  | big
deriving DecidableEq, Repr

/-- The `n` low bytes of `x`, least significant first. -/
def leBytes : Nat → Nat → List Nat
  | 0, _ => []
  | n + 1, x => x % 256 :: leBytes n (x / 256)

/-- Number whose bytes, least significant first, are `bs`. -/
def leVal : List Nat → Nat
  | [] => 0
  | b :: bs => b + 256 * leVal bs

/-- The `n` low bytes of `x`, most significant first (Java class-file order). -/
def beBytes (n x : Nat) : List Nat := (leBytes n x).reverse

/-- Number whose bytes, most significant first, are `bs`. -/
def beVal (bs : List Nat) : Nat := leVal bs.reverse

/-- The `n` low bytes of `x` in the byte order of the host. -/
def nativeBytes (e : Endian) (n x : Nat) : List Nat :=
  match e with
  | .little => leBytes n x
  | .big => beBytes n x

/-- Number stored in `bs` in the byte order of the host. -/
def nativeVal (e : Endian) (bs : List Nat) : Nat :=
  match e with
  | .little => leVal bs
  | .big => beVal bs

/-- Store the bytes `src` into `dst` from index `pos` on; a byte that would fall
behind the end of `dst` is dropped (the array keeps its length). -/
def writeBytes (dst : List Nat) (pos : Nat) : List Nat → List Nat
  | [] => dst
  | b :: bs => writeBytes (dst.set pos b) (pos + 1) bs

/-- The `n` bytes of `src` from index `pos` on (fewer at the end of `src`). -/
def readBytes (src : List Nat) (pos n : Nat) : List Nat :=
  (src.drop pos).take n

/-! ## Java-side objects -/

/-- The exceptions the entry points raise themselves, and `raised` for one that
comes out of called Java code or of an allocation. -/
inductive Throwable
  | InvalidInstalledCodeException
  | IllegalArgumentException (msg : String)
  | IllegalStateException (msg : String)
  | NullPointerException
  | InternalError (msg : String)
  | raised (id : Nat)
deriving DecidableEq, Repr

/-- `BasicType` of globalDefinitions.hpp, the Java types only. -/
inductive BasicType
  | T_BOOLEAN
  | T_CHAR
  | T_FLOAT
  | T_DOUBLE
  | T_BYTE
  | T_SHORT
  | T_INT
  | T_LONG
  | T_OBJECT
  | T_ARRAY
  | T_VOID
deriving DecidableEq, Repr

/-- A reference handed back to Java: a plain object, a box created by
`java_lang_boxing_object::create` holding a primitive of type `t`, or a string
created by `java_lang_String::create_from_symbol`. -/
inductive Oop
  | ref (handle : Nat)
  | box (t : BasicType) (value : Int)
  | string (value : String)
deriving DecidableEq, Repr

/-- Fields `HotSpotInstalledCode` adds to `InstalledCode`. -/
structure HotSpotInstalledCode where
  size : Int
  codeStart : Int
  codeSize : Int
deriving DecidableEq, Repr

/-- An installed-code wrapper: the fields of `InstalledCode`, and those of
`HotSpotInstalledCode` when the object is an instance of that subclass. -/
structure InstalledCode where
  address : Int
  version : Int
  hotspot : Option HotSpotInstalledCode
deriving DecidableEq, Repr

/-- Java type of the field `InstalledCode.version`.  The field declarations
(jvmciJavaClasses.hpp) are not part of the sources, so the width of the
counter is a parameter: a Java `int` or a Java `long`. -/
inductive VersionType
  | jint
  | jlong
deriving DecidableEq, Repr

/-- Width in bits of the version counter. -/
def VersionType.bits : VersionType → Nat
  | .jint => 32
  | .jlong => 64

/-- Largest value the version counter can hold. -/
def VersionType.maxValue (vt : VersionType) : Int := 2 ^ (vt.bits - 1) - 1

/-! ## Code cache -/

/-- A code blob as `installCodeImpl` reads it: a non-null address, `size()`,
`code_begin()` and `code_size()`. -/
structure CodeBlob where
  addr : Int
  size : Int
  code_begin : Int
  code_size : Int
deriving DecidableEq, Repr

/-- Modelled from the spec: the state of an nmethod (nmethod.hpp is not part of
the sources).  The spec gives installed code "a live/not-entrant flag";
`marked_for_deoptimization` is the mark `mark_for_deoptimization()` sets, and
`ret_type` what `executeInstalledCode` reads of the method of the nmethod. -/
structure nmethod where
  not_entrant : Bool
  marked_for_deoptimization : Bool
  /-- Return type of the signature of `method()`. -/
  ret_type : BasicType
deriving DecidableEq, Repr

/-- Effects on the deoptimization coordinator, in the order they happen. -/
inductive Event
  | mark_for_deoptimization (m : Int)
  | VM_Deoptimize
deriving DecidableEq, Repr

/-- The part of the VM the code entry points share: the nmethod found at each
address of the code cache, and the trace of deoptimization effects. -/
structure VM where
  code : Int → nmethod
  events : List Event

/-- Modelled from the spec: `nmethod::is_not_entrant()` (nmethod.hpp is not
part of the sources) reads the live/not-entrant flag. -/
def nmethod.is_not_entrant (m : nmethod) : Bool := m.not_entrant

/-- Modelled from the spec: `nmethod::mark_for_deoptimization()` (nmethod.hpp is
not part of the sources) marks the nmethod at `m` for the next deoptimization
operation. -/
def VM.mark_for_deoptimization (vm : VM) (m : Int) : VM :=
  { code := fun a => if a = m then { vm.code a with marked_for_deoptimization := true } else vm.code a
    events := vm.events ++ [Event.mark_for_deoptimization m] }

/-- Modelled from the spec: `VMThread::execute` of a `VM_Deoptimize` operation
(vm_operations.cpp is not part of the sources).  The spec: invalidation "marks
it not-entrant and triggers a global deoptimization safepoint so that no thread
is left executing (or about to execute) the revoked code": every nmethod marked
for deoptimization is not-entrant when the operation returns. -/
def VM.VM_Deoptimize (vm : VM) : VM :=
  { code := fun a => if (vm.code a).marked_for_deoptimization then { vm.code a with not_entrant := true } else vm.code a
    events := vm.events ++ [Event.VM_Deoptimize] }

/-! ## installCodeImpl -/

/-- Modelled from the spec: `JVMCIEnv::CodeInstallResult` (jvmciEnv.hpp is not
part of the sources): a result code from the set ok, dependency-failed,
cache-full, code-too-large, illegal-state, bailout. -/
inductive CodeInstallResult
  | ok
  | dependency_failed
  | cache_full
  | code_too_large
  | illegal_state
  | bailout
deriving DecidableEq, Repr

/-- Modelled from the spec: `CodeInstaller::install` (jvmciCodeInstaller.cpp is
not part of the sources).  The emission and linking subsystem is "an opaque
artifact producer": `outcome` is the result code it reaches for the artifact
and `blob` the blob it builds for it.  "On failure, guarantees no blob was
created": the out-parameter `cb` is set only when the outcome is `ok`. -/
def CodeInstaller.install (outcome : CodeInstallResult) (blob : CodeBlob) :
    CodeInstallResult × Option CodeBlob :=
  match outcome with
  | .ok => (.ok, some blob)
  | r => (r, none)

/-- What `installCodeImpl` leaves behind: the returned result code, the local
`cb`, and the installed-code wrapper (`none` for a null handle). -/
structure InstallReturn where
  result : CodeInstallResult
  cb : Option CodeBlob
  installed_code : Option InstalledCode
deriving DecidableEq, Repr

/-- Lines 606-627 of jvmciCompilerToVM.cpp, for the `result` and `cb` the
installer produced.  `none` is the null dereference of a result `ok` without a
blob and with a wrapper: `cb->size()` of line 614, or
`cb->as_nmethod_or_null()` of line 618 for a wrapper that is no
`HotSpotInstalledCode`.  The assertions are debug-only and not modelled, and
the printing of the code cache summary (lines 595-604) touches none of the
values below. -/
def installCodeImpl.finish (vt : VersionType) (result : CodeInstallResult) (cb : Option CodeBlob)
    (installed_code : Option InstalledCode) : Option InstallReturn :=
  if result ≠ .ok then
    some { result := result, cb := cb, installed_code := installed_code }
  else
    match installed_code with
    | none => some { result := result, cb := cb, installed_code := none }
    | some h =>
      -- InstalledCode::set_address(installed_code_handle, (jlong) cb);
      let h1 := { h with address := match cb with | some b => b.addr | none => 0 }
      -- InstalledCode::set_version(installed_code_handle, InstalledCode::version(installed_code_handle) + 1);
      let h2 := { h1 with version := wrapSigned vt.bits (h1.version + 1) }
      match h2.hotspot with
      | none =>
        -- nmethod* nm = cb->as_nmethod_or_null();
        match cb with
        | none => none
        | some _ => some { result := result, cb := cb, installed_code := some h2 }
      | some _ =>
        match cb with
        | none => none
        | some b =>
          let hs : HotSpotInstalledCode :=
            { size := b.size, codeStart := b.code_begin, codeSize := b.code_size }
          some { result := result, cb := cb, installed_code := some { h2 with hotspot := some hs } }

/-- Entry point `installCodeImpl`: runs the installer, then updates the wrapper. -/
def installCodeImpl (vt : VersionType) (outcome : CodeInstallResult) (blob : CodeBlob)
    (installed_code : Option InstalledCode) : Option InstallReturn :=
  let r := CodeInstaller.install outcome blob
  installCodeImpl.finish vt r.1 r.2 installed_code

/-! ## invalidateInstalledCodeImpl -/

/-- Entry point `invalidateInstalledCodeImpl` (lines 813-822). -/
def invalidateInstalledCodeImpl (vm : VM) (hotspotInstalledCode : InstalledCode) :
    VM × InstalledCode :=
  let nativeMethod := hotspotInstalledCode.address
  let vm1 :=
    if nativeMethod ≠ 0 ∧ (vm.code nativeMethod).is_not_entrant = false then
      (vm.mark_for_deoptimization nativeMethod).VM_Deoptimize
    else vm
  (vm1, { hotspotInstalledCode with address := 0 })

/-! ## executeInstalledCode -/

/-- A `jvalue`: the bytes of the union (eight of them).  Every member starts at
offset 0 and is read and written in the byte order of the host. -/
structure jvalue where
  bytes : List Nat
deriving DecidableEq, Repr

/-- Store the low `n` bytes of `x` as the member of that size: the first `n`
bytes of the union are replaced. -/
def jvalue.store (e : Endian) (n : Nat) (v : jvalue) (x : Int) : jvalue :=
  { bytes := nativeBytes e n (x % 2 ^ (8 * n)).toNat ++ v.bytes.drop n }

/-- Member `z`, a `jboolean` (unsigned, 8 bits). -/
def jvalue.z (e : Endian) (v : jvalue) : Int := nativeVal e (readBytes v.bytes 0 1)

/-- Member `b`, a `jbyte` (signed, 8 bits). -/
def jvalue.b (e : Endian) (v : jvalue) : Int := wrapSigned 8 (nativeVal e (readBytes v.bytes 0 1))

/-- Member `c`, a `jchar` (unsigned, 16 bits). -/
def jvalue.c (e : Endian) (v : jvalue) : Int := nativeVal e (readBytes v.bytes 0 2)

/-- Member `s`, a `jshort` (signed, 16 bits). -/
def jvalue.s (e : Endian) (v : jvalue) : Int := wrapSigned 16 (nativeVal e (readBytes v.bytes 0 2))

/-- Member `i`, a `jint` (signed, 32 bits). -/
def jvalue.i (e : Endian) (v : jvalue) : Int := wrapSigned 32 (nativeVal e (readBytes v.bytes 0 4))

/-- Member `j`, a `jlong` (signed, 64 bits). -/
def jvalue.j (e : Endian) (v : jvalue) : Int := wrapSigned 64 (nativeVal e (readBytes v.bytes 0 8))

/-- Member `f`, a `jfloat`, as its 32 raw bits. -/
def jvalue.f (e : Endian) (v : jvalue) : Int := nativeVal e (readBytes v.bytes 0 4)

/-- Member `d`, a `jdouble`, as its 64 raw bits. -/
def jvalue.d (e : Endian) (v : jvalue) : Int := nativeVal e (readBytes v.bytes 0 8)

/-- Member `l`, a reference: the raw pointer, 0 for null. -/
def jvalue.l (e : Endian) (v : jvalue) : Nat := nativeVal e (readBytes v.bytes 0 8)

/-- Modelled from the spec: `java_lang_boxing_object::create` (javaClasses.cpp
is not part of the sources), which "boxes the primitive ... result according to
the method's declared return type": the box of type `t` holds the member of the
union that has this type.  `oom` is the exception of a failed allocation, and
`none` the null result for a type that has no box. -/
def java_lang_boxing_object.create (oom : Option Throwable) (e : Endian) (t : BasicType)
    (value : jvalue) : Except Throwable (Option Oop) :=
  match oom with
  | some ex => .error ex
  | none =>
    match t with
    | .T_BOOLEAN => .ok (some (.box t (value.z e)))
    | .T_BYTE => .ok (some (.box t (value.b e)))
    | .T_CHAR => .ok (some (.box t (value.c e)))
    | .T_SHORT => .ok (some (.box t (value.s e)))
    | .T_INT => .ok (some (.box t (value.i e)))
    | .T_LONG => .ok (some (.box t (value.j e)))
    | .T_FLOAT => .ok (some (.box t (value.f e)))
    | .T_DOUBLE => .ok (some (.box t (value.d e)))
    | _ => .ok none

/-- `JavaCalls::call` with the nmethod at the given address as alternative
target (javaCalls.cpp is not part of the sources, the call is a parameter): for
the VM state, the nmethod and the argument array, the exception the call ends
with or the `JavaValue` it fills, and the VM state it leaves.  The unboxing of
the argument array by `JavaArgumentUnboxer` (jvmciCompilerToVM.hpp, not part of
the sources either) is part of the parameter. -/
abbrev JavaCall := VM → Int → List Oop → Except Throwable jvalue × VM

/-- The switch of lines 728-741: narrow the `jint` the call left in the union to
the member of the return type. -/
def executeInstalledCode.narrow (e : Endian) (ret_type : BasicType) (value : jvalue) : jvalue :=
  match ret_type with
  | .T_BOOLEAN => value.store e 1 (wrapUnsigned 8 (value.i e))
  | .T_BYTE => value.store e 1 (wrapSigned 8 (value.i e))
  | .T_CHAR => value.store e 2 (wrapUnsigned 16 (value.i e))
  | .T_SHORT => value.store e 2 (wrapSigned 16 (value.i e))
  | _ => value

/-- Entry point `executeInstalledCode` (lines 703-745).  `JNIHandles::make_local`
of a null reference is null (`none`). -/
def executeInstalledCode (e : Endian) (call : JavaCall) (oom : Option Throwable) (vm : VM)
    (args : List Oop) (hotspotInstalledCode : InstalledCode) : Except Throwable (Option Oop) × VM :=
  let nmethodValue := hotspotInstalledCode.address
  if nmethodValue = 0 then
    (.error .InvalidInstalledCodeException, vm)
  else
    let ret_type := (vm.code nmethodValue).ret_type
    match call vm nmethodValue args with
    | (.error ex, vm1) => (.error ex, vm1)
    | (.ok result, vm1) =>
      if ret_type = .T_VOID then
        (.ok none, vm1)
      else if ret_type = .T_OBJECT ∨ ret_type = .T_ARRAY then
        (.ok (if result.l e = 0 then none else some (.ref (result.l e))), vm1)
      else
        let value := executeInstalledCode.narrow e ret_type result
        (java_lang_boxing_object.create oom e ret_type value, vm1)

/-! ## getBytecode -/

/-- Opcode `ldc` of the Java virtual machine. -/
def Bytecodes._ldc : Nat := 18
/-- Opcode `ldc_w`. -/
def Bytecodes._ldc_w : Nat := 19
/-- Opcode `getstatic`. -/
def Bytecodes._getstatic : Nat := 178
/-- Opcode `putstatic`. -/
def Bytecodes._putstatic : Nat := 179
/-- Opcode `getfield`. -/
def Bytecodes._getfield : Nat := 180
/-- Opcode `putfield`. -/
def Bytecodes._putfield : Nat := 181
/-- Opcode `invokevirtual`. -/
def Bytecodes._invokevirtual : Nat := 182
/-- Opcode `invokespecial`. -/
def Bytecodes._invokespecial : Nat := 183
/-- Opcode `invokestatic`. -/
def Bytecodes._invokestatic : Nat := 184
/-- Opcode `invokeinterface`. -/
def Bytecodes._invokeinterface : Nat := 185
/-- Opcode `invokedynamic`. -/
def Bytecodes._invokedynamic : Nat := 186
/-- Opcode `wide`, the prefix of a wide instruction. -/
def Bytecodes._wide : Nat := 196
/-- Number of opcodes that are Java bytecodes (`breakpoint`, 202, is the last):
the codes from this number on are the ones the rewriter and the interpreter
introduce. -/
def Bytecodes.number_of_java_codes : Nat := 203

/-- `Bytecodes::is_java_code`. -/
def Bytecodes.is_java_code (code : Nat) : Bool := decide (code < Bytecodes.number_of_java_codes)

/-- The constant pool of a method as `getBytecode` uses it. -/
structure ConstantPool where
  /-- Length of the pool. -/
  length : Nat
  /-- `ConstantPool::object_to_cp_index`: pool index of a resolved-references index. -/
  object_to_cp_index : Nat → Nat

/-- A method as `getBytecode` reads it. -/
structure Method where
  /-- The bytes of the internal (rewritten) bytecode; `code_size()` is their number. -/
  code : List Nat
  /-- Result of `method_holder()->is_rewritten()`. -/
  is_rewritten : Bool
  /-- The pool `constants()`. -/
  constants : ConstantPool

/-- `Method::code_size`. -/
def Method.code_size (m : Method) : Nat := m.code.length

/-- What a `BytecodeStream` holds after a call of `next()` that found an
instruction: `bci()`, the position of the next instruction, `code()`,
`raw_code()` and `is_wide()`. -/
structure BytecodeStream where
  bci : Nat
  next_bci : Nat
  code : Nat
  raw_code : Nat
  is_wide : Bool
deriving DecidableEq, Repr

/-- `BytecodeStream::instruction_size`. -/
def BytecodeStream.instruction_size (s : BytecodeStream) : Nat := s.next_bci - s.bci

/-- The bytecode iteration and the internal opcodes (bytecodeStream.hpp,
bytecodes.hpp and bytecodes.cpp are not part of the sources), as parameters. -/
structure Bytecodes where
  /-- `BytecodeStream::next` for a stream over the whole method that stands at
  the given position: the state of the stream at the instruction found there,
  `none` for the result `_illegal` that ends the iteration. -/
  next : Method → Nat → Option BytecodeStream
  /-- Internal opcode `_fast_aldc`. -/
  _fast_aldc : Nat
  /-- Internal opcode `_fast_aldc_w`. -/
  _fast_aldc_w : Nat
  /-- Internal opcode `_invokehandle`. -/
  _invokehandle : Nat

/-- The bcis the stream stops at from `next_bci` on, for at most `fuel`
instructions. -/
def BytecodeStream.bcis (B : Bytecodes) (m : Method) : Nat → Nat → List Nat
  | 0, _ => []
  | fuel + 1, next_bci =>
    match B.next m next_bci with
    | none => []
    | some s => s.bci :: BytecodeStream.bcis B m fuel s.next_bci

/-- Body of the loop of `getBytecode` (lines 96-149) for the instruction `s`;
`rc` is `reconstituted_code`, as unsigned bytes. -/
def getBytecode.body (B : Bytecodes) (e : Endian) (m : Method) (s : BytecodeStream)
    (rc : List Nat) : List Nat :=
  let code := s.code
  let raw_code := s.raw_code
  let bci := s.bci
  let len := s.instruction_size
  -- Restore original byte code.
  let rc := rc.set bci ((if s.is_wide then Bytecodes._wide else code) % 256)
  let rc := if len > 1 then writeBytes rc (bci + 1) (readBytes m.code (bci + 1) (len - 1)) else rc
  if len > 1 then
    -- Restore the big-endian constant pool indexes.
    let rc :=
      if code = Bytecodes._getstatic ∨ code = Bytecodes._putstatic ∨ code = Bytecodes._getfield
          ∨ code = Bytecodes._putfield ∨ code = Bytecodes._invokevirtual
          ∨ code = Bytecodes._invokespecial ∨ code = Bytecodes._invokestatic
          ∨ code = Bytecodes._invokeinterface ∨ code = B._invokehandle then
        let cp_index := nativeVal e (readBytes rc (bci + 1) 2)
        writeBytes rc (bci + 1) (beBytes 2 cp_index)
      else if code = Bytecodes._invokedynamic then
        let cp_index := nativeVal e (readBytes rc (bci + 1) 4)
        writeBytes rc (bci + 1) (beBytes 4 cp_index)
      else rc
    -- Not all ldc byte code are rewritten.
    if raw_code = B._fast_aldc then
      let cpc_index := rc.getD (bci + 1) 0 % 256
      let cp_index := m.constants.object_to_cp_index cpc_index
      rc.set (bci + 1) (cp_index % 256)
    else if raw_code = B._fast_aldc_w then
      let cpc_index := nativeVal e (readBytes rc (bci + 1) 2)
      let cp_index := m.constants.object_to_cp_index cpc_index
      writeBytes rc (bci + 1) (beBytes 2 cp_index)
    else rc
  else rc

/-- The loop of `getBytecode` (line 95) from the stream position `next_bci` on.
`none`: the loop is still running after `fuel` instructions. -/
def getBytecode.loop (B : Bytecodes) (e : Endian) (m : Method) :
    Nat → Nat → List Nat → Option (List Nat)
  | 0, next_bci, rc =>
    match B.next m next_bci with
    | none => some rc
    | some _ => none
  | fuel + 1, next_bci, rc =>
    match B.next m next_bci with
    | none => some rc
    | some s => getBytecode.loop B e m fuel s.next_bci (getBytecode.body B e m s rc)

/-- Entry point `getBytecode` (lines 85-153), run for at most `fuel`
instructions.  `oom` is the exception of a failed allocation of the result
array.  `none`: no result, because the `guarantee` stops the VM or because the
loop is still running after `fuel` instructions. -/
def getBytecode (B : Bytecodes) (e : Endian) (oom : Option Throwable) (m : Method) (fuel : Nat) :
    Option (Except Throwable (List Nat)) :=
  let code_size := m.code_size
  match oom with
  | some ex => some (.error ex)
  | none =>
    let reconstituted_code := List.replicate code_size 0
    if m.is_rewritten = false then none
    else (getBytecode.loop B e m fuel 0 reconstituted_code).map Except.ok

/-- Java opcode of an opcode, for the sample tables: `_fast_aldc` (229) is
`ldc`, `_fast_aldc_w` (230) is `ldc_w`, `_invokehandle` (232) is
`invokevirtual`, and the fast field loads the interpreter patches in
(`_fast_agetfield` = 203 up to `_fast_sgetfield` = 210) are `getfield`. -/
def Bytecodes.sample_java_code (c : Nat) : Nat :=
  if c = 229 then 18 else if c = 230 then 19 else if c = 232 then 182
  else if 203 ≤ c ∧ c ≤ 210 then 180 else c

/-- Length of the instruction at `bci`, for the sample tables: `ldc` 2, `ldc_w`
and the field and invoke instructions 3, `invokeinterface` and `invokedynamic`
5, `wide iinc` 6 and the other wide instructions 4, every other opcode 1. -/
def Bytecodes.sample_length (m : Method) (bci : Nat) : Nat :=
  let c := Bytecodes.sample_java_code (m.code.getD bci 0)
  if c = 18 then 2 else if c = 19 then 3 else if 178 ≤ c ∧ c ≤ 184 then 3
  else if c = 185 ∨ c = 186 then 5
  else if c = 196 then (if m.code.getD (bci + 1) 0 = 132 then 6 else 4)
  else 1

/-- The iteration of HotSpot over the sample tables: the end of the stream
behind the code, otherwise the Java opcode of the opcode at the position, and
for `wide` the opcode that follows it. -/
def Bytecodes.sample_next (m : Method) (next_bci : Nat) : Option BytecodeStream :=
  let bci := next_bci
  if bci ≥ m.code_size then none
  else
    let raw_code := m.code.getD bci 0
    let code := Bytecodes.sample_java_code raw_code
    let l := Bytecodes.sample_length m bci
    if code = Bytecodes._wide then
      let raw := m.code.getD (bci + 1) 0
      some { bci := bci, next_bci := bci + l, code := raw, raw_code := raw, is_wide := true }
    else
      some { bci := bci, next_bci := bci + l, code := code, raw_code := raw_code, is_wide := false }

/-- A small excerpt of what HotSpot has for the parameters. -/
def Bytecodes.sample : Bytecodes where
  next := Bytecodes.sample_next
  _fast_aldc := 229
  _fast_aldc_w := 230
  _invokehandle := 232

/-- A rewritten method: `fast_aldc 1`, `getfield` with the index bytes 2 1,
`wide iload 3`, `return`. -/
def Method.sample : Method where
  code := [229, 1, 180, 2, 1, 196, 21, 0, 3, 177]
  is_rewritten := true
  constants := { length := 16, object_to_cp_index := fun i => i + 5 }

/-- The opcodes of the first case group of the switch of line 110: their
operand is a 16-bit constant pool index. -/
def getBytecode.has_u2_index (B : Bytecodes) (code : Nat) : Prop :=
  code = Bytecodes._getstatic ∨ code = Bytecodes._putstatic ∨ code = Bytecodes._getfield
    ∨ code = Bytecodes._putfield ∨ code = Bytecodes._invokevirtual
    ∨ code = Bytecodes._invokespecial ∨ code = Bytecodes._invokestatic
    ∨ code = Bytecodes._invokeinterface ∨ code = B._invokehandle

instance getBytecode.has_u2_index_decidable (B : Bytecodes) (code : Nat) :
    Decidable (getBytecode.has_u2_index B code) := by
  unfold getBytecode.has_u2_index
  infer_instance

/-- A rewritten method with two `getfield` instructions on the same field, the
first one patched by the interpreter to `_fast_agetfield` (203), then `return`. -/
def Method.quickened_first : Method where
  code := [203, 0, 1, 180, 0, 1, 177]
  is_rewritten := true
  constants := { length := 16, object_to_cp_index := fun i => i + 5 }

/-- The same method with the second `getfield` patched instead of the first. -/
def Method.quickened_second : Method where
  code := [180, 0, 1, 203, 0, 1, 177]
  is_rewritten := true
  constants := { length := 16, object_to_cp_index := fun i => i + 5 }

/-- The bci `b` is reached by a stream that stands at `a`. -/
inductive BytecodeStream.Reaches (B : Bytecodes) (m : Method) : Nat → Nat → Prop
  | here (a : Nat) : BytecodeStream.Reaches B m a a
  | step (a b : Nat) (s : BytecodeStream) :
      B.next m a = some s → BytecodeStream.Reaches B m s.next_bci b →
      BytecodeStream.Reaches B m a b

/-- Two byte arrays of the same length that agree at every index below `k`. -/
def AgreesBelow (k : Nat) (a b : List Nat) : Prop :=
  a.length = b.length ∧ ∀ j, j < k → a[j]? = b[j]?

/-! ## Metaspace handle resolver -/

/-- A Java object as the resolver entry points read it: its class, the results
of the `is_a` tests against the well-known classes, and the fields the entry
points take addresses from. -/
structure JavaObject where
  /-- Address of `klass()`. -/
  klass : Int
  /-- Result of `klass()->external_name()`. -/
  external_name : String
  /-- Result of `is_a(SystemDictionary::MemberName_klass())`. -/
  is_MemberName : Bool
  /-- Result of `is_a(SystemDictionary::HotSpotResolvedJavaMethodImpl_klass())`. -/
  is_HotSpotResolvedJavaMethodImpl : Bool
  /-- Result of `is_a(SystemDictionary::HotSpotConstantPool_klass())`. -/
  is_HotSpotConstantPool : Bool
  /-- Result of `is_a(SystemDictionary::HotSpotResolvedObjectTypeImpl_klass())`. -/
  is_HotSpotResolvedObjectTypeImpl : Bool
  /-- Result of `is_a(SystemDictionary::Class_klass())`. -/
  is_Class : Bool
  /-- Result of `long_field(offset)`. -/
  long_field : Int → Int
  /-- Result of `HotSpotResolvedJavaMethodImpl::metaspaceMethod(base_object)`. -/
  metaspaceMethod : Int
  /-- Result of `HotSpotConstantPool::metaspaceConstantPool(base_object)`. -/
  metaspaceConstantPool : Int
  /-- Result of `CompilerToVM::asKlass(base_object)`. -/
  asKlass : Int
  /-- Address of the object itself. -/
  address : Int

/-- The kind of metaspace entity a wrapper is made for. -/
inductive MetaspaceKind
  | method
  | constantPool
  | klass
deriving DecidableEq, Repr

/-- What a resolver entry point does to its surroundings, in order: a read of a
pointer in metadata, a read of a long field of the base object, a call of the
Java method `fromMetaspace` that constructs the wrapper of the result. -/
inductive ResolverEffect
  | read (address : Int)
  | long_field (offset : Int)
  | fromMetaspace (kind : MetaspaceKind) (metaspace : Int)
deriving DecidableEq, Repr

/-- What surrounds a resolver entry point: the pointer stored at each address,
and the outcome of the Java call `fromMetaspace` for each entity (javaCalls.cpp
and the Java classes are not part of the sources, the call is a parameter). -/
structure ResolverEnv where
  mem : Int → Int
  fromMetaspace : MetaspaceKind → Int → Except Throwable (Option Oop)

/-- What a resolver entry point returns, and its effects. -/
structure ResolverReturn where
  result : Except Throwable (Option Oop)
  effects : List ResolverEffect

/-- Modelled from the spec: the message `err_msg("Unexpected type: %s", ...)`
(utilities/debug.hpp is not part of the sources): the failure is "carrying the
rejected object's type name". -/
def err_msg_unexpected_type (external_name : String) : String :=
  "Unexpected type: " ++ external_name

/-- Modelled from the spec: the message `err_msg("Unexpected arguments: %s "
JLONG_FORMAT " %s", ...)` (utilities/debug.hpp is not part of the sources): "a
descriptive message" with the type name, the offset and the flag. -/
def err_msg_unexpected_arguments (external_name : String) (offset : Int) (compressed : Bool) :
    String :=
  "Unexpected arguments: " ++ external_name ++ " " ++ toString offset ++ " "
    ++ (if compressed then "true" else "false")

/-- The message `msg` contains the name `name`. -/
def MessageNames (msg name : String) : Prop :=
  ∃ before after : String, msg = before ++ name ++ after

/-- The wrapper of a metaspace entity: the Java call of `get_jvmci_method` (lines
57-67), of `get_jvmci_type` (lines 69-79) and of `getConstantPool` (lines
230-234), made when the entity is not null. -/
def CompilerToVM.get_jvmci (env : ResolverEnv) (kind : MetaspaceKind) (metaspace : Int)
    (effects : List ResolverEffect) : ResolverReturn :=
  if metaspace ≠ 0 then
    { result := env.fromMetaspace kind metaspace
      effects := effects ++ [ResolverEffect.fromMetaspace kind metaspace] }
  else
    { result := .ok none, effects := effects }

/-- Entry point `getResolvedJavaMethod` (lines 194-210).  Addresses are 64-bit
values. -/
def getResolvedJavaMethod (env : ResolverEnv) (base : Option JavaObject) (offset : Int) :
    ResolverReturn :=
  match base with
  | none =>
    CompilerToVM.get_jvmci env .method (env.mem offset) [ResolverEffect.read offset]
  | some base_object =>
    if base_object.is_MemberName then
      CompilerToVM.get_jvmci env .method (base_object.long_field offset)
        [ResolverEffect.long_field offset]
    else if base_object.is_HotSpotResolvedJavaMethodImpl then
      let address := wrapSigned 64 (base_object.metaspaceMethod + offset)
      CompilerToVM.get_jvmci env .method (env.mem address) [ResolverEffect.read address]
    else
      { result := .error (.IllegalArgumentException
          (err_msg_unexpected_type base_object.external_name))
        effects := [] }

/-- Entry point `getConstantPool` (lines 212-237). -/
def getConstantPool (env : ResolverEnv) (base : Option JavaObject) (offset : Int) :
    ResolverReturn :=
  let base_address : Except Throwable Int :=
    match base with
    | none => .ok 0
    | some base_object =>
      if base_object.is_HotSpotResolvedJavaMethodImpl then .ok base_object.metaspaceMethod
      else if base_object.is_HotSpotConstantPool then .ok base_object.metaspaceConstantPool
      else if base_object.is_HotSpotResolvedObjectTypeImpl then .ok base_object.asKlass
      else .error (.IllegalArgumentException (err_msg_unexpected_type base_object.external_name))
  match base_address with
  | .error ex => { result := .error ex, effects := [] }
  | .ok base_address =>
    let address := wrapSigned 64 (base_address + offset)
    CompilerToVM.get_jvmci env .constantPool (env.mem address) [ResolverEffect.read address]

/-- Entry point `getResolvedJavaType` (lines 239-268); `klass_offset` is
`oopDesc::klass_offset_in_bytes()`.  `none`: the VM stops at the dereference
`base_object->klass()` of a null `base_object` in line 263. -/
def getResolvedJavaType (klass_offset : Int) (env : ResolverEnv) (base : Option JavaObject)
    (offset : Int) (compressed : Bool) : Option ResolverReturn :=
  if base.isSome ∧ offset = klass_offset then
    match base with
    | some base_object => some (CompilerToVM.get_jvmci env .klass base_object.klass [])
    | none => none
  else if compressed = false then
    let base_address : Except Throwable Int :=
      match base with
      | none => .ok 0
      | some base_object =>
        if base_object.is_HotSpotResolvedJavaMethodImpl then .ok base_object.metaspaceMethod
        else if base_object.is_HotSpotConstantPool then .ok base_object.metaspaceConstantPool
        else if base_object.is_HotSpotResolvedObjectTypeImpl then .ok base_object.asKlass
        else if base_object.is_Class then .ok base_object.address
        else .error (.IllegalArgumentException
          (err_msg_unexpected_arguments base_object.external_name offset compressed))
    match base_address with
    | .error ex => some { result := .error ex, effects := [] }
    | .ok base_address =>
      let address := wrapSigned 64 (base_address + offset)
      some (CompilerToVM.get_jvmci env .klass (env.mem address) [ResolverEffect.read address])
  else
    match base with
    | none => none
    | some base_object =>
      some { result := .error (.IllegalArgumentException
               (err_msg_unexpected_arguments base_object.external_name offset compressed))
             effects := [] }

/-! ## Constant pool resolution -/

/-- A slot of a constant pool as `lookupKlassInPool` reads it: the tag and what
the slot holds. -/
inductive Slot
  /-- Tag `is_klass()`: resolved, holding the class. -/
  | klass (k : Int)
  /-- Tag `is_symbol()`: holding a name. -/
  | symbol (name : String)
  /-- Tag `is_unresolved_klass()`: holding the symbolic class name. -/
  | unresolved_klass (name : String)
  /-- Any other tag. -/
  | other
deriving DecidableEq, Repr

/-- Modelled from the spec: `JVMCIEnv::get_klass_by_index` (jvmciEnv.cpp is not
part of the sources), the first read of `lookupKlassInPool`: it "first attempts
a lock-free read of an already-resolved slot" and "never allocates or triggers
classloading".  The class of the slot when the slot is resolved, null
otherwise. -/
def JVMCIEnv.get_klass_by_index (cp : Int → Slot) (index : Int) : Option Int :=
  match cp index with
  | .klass k => some k
  | _ => none

/-- Modelled from the spec: `java_lang_String::create_from_symbol`
(javaClasses.cpp is not part of the sources): the "symbolic name" as a string;
`oom` is the exception of a failed allocation. -/
def java_lang_String.create_from_symbol (oom : Option Throwable) (symbol : String) :
    Except Throwable (Option Oop) :=
  match oom with
  | some ex => .error ex
  | none => .ok (some (.string symbol))

/-- What `lookupKlassInPool` returns, and the slots of the pool when it returns. -/
structure LookupReturn where
  result : Except Throwable (Option Oop)
  pool : Int → Slot

/-- Entry point `lookupKlassInPool` (lines 405-434).  `cp` holds the slots at
the first read, `racing` is what other threads do to them before this thread
holds the lock of the pool, `fromMetaspace` the Java call of `get_jvmci_type`
for a class.  `none`: the tag of the slot is none of the three the code
expects (line 423 asserts it) and what it reads as a symbol is undefined. -/
def lookupKlassInPool (fromMetaspace : Int → Except Throwable (Option Oop))
    (oom : Option Throwable) (cp : Int → Slot) (racing : (Int → Slot) → (Int → Slot))
    (index : Int) : Option LookupReturn :=
  match JVMCIEnv.get_klass_by_index cp index with
  | some klass => some { result := fromMetaspace klass, pool := cp }
  | none =>
    -- We have to lock the cpool to keep the oop from being resolved
    -- while we are accessing it.
    let locked := racing cp
    match locked index with
    | .klass klass => some { result := fromMetaspace klass, pool := locked }
    | .symbol symbol =>
      some { result := java_lang_String.create_from_symbol oom symbol, pool := locked }
    | .unresolved_klass symbol =>
      some { result := java_lang_String.create_from_symbol oom symbol, pool := locked }
    | .other => none

/-- The cache entries of the call sites of a constant pool, and the linkages
run on the pool so far, in order, by the index they were run for. -/
structure CallSitePool where
  /-- The binding the cache entry of the call site at an index holds, if any. -/
  entry : Int → Option Nat
  linkages : List Int

/-- Modelled from the spec: `LinkResolver::resolve_invokedynamic` (linkResolver.cpp
is not part of the sources), which "invokes the call-site linkage algorithm":
`link` is the outcome of that algorithm for an index.  The spec has "never
resolve twice" and, for a second call, "the identical cached binding object, no
second linkage performed": a call site whose cache entry holds a binding is
answered from the entry. -/
def LinkResolver.resolve_invokedynamic (link : Int → Except Throwable Nat) (cp : CallSitePool)
    (index : Int) : Except Throwable Nat × CallSitePool :=
  match cp.entry index with
  | some binding => (.ok binding, cp)
  | none => (link index, { cp with linkages := cp.linkages ++ [index] })

/-- Modelled from the spec: `ConstantPoolCacheEntry::set_dynamic_call`
(cpCache.cpp is not part of the sources), which "publishes the resulting
call-site binding into the pool's per-entry cache"; "no slot is ever re-resolved
to a different value": an entry that holds a binding keeps it. -/
def ConstantPoolCacheEntry.set_dynamic_call (cp : CallSitePool) (index : Int) (callInfo : Nat) :
    CallSitePool :=
  match cp.entry index with
  | some _ => cp
  | none => { cp with entry := fun i => if i = index then some callInfo else cp.entry i }

/-- Entry point `resolveInvokeDynamicInPool` (lines 1005-1011). -/
def resolveInvokeDynamicInPool (link : Int → Except Throwable Nat) (cp : CallSitePool)
    (index : Int) : Except Throwable Unit × CallSitePool :=
  match LinkResolver.resolve_invokedynamic link cp index with
  | (.error ex, cp1) => (.error ex, cp1)
  | (.ok callInfo, cp1) => (.ok (), ConstantPoolCacheEntry.set_dynamic_call cp1 index callInfo)

/-! ## Stack introspection -/

/-- A scope value of the debug information of a compiled frame; `is_object()`
holds for an escape-analyzed object, and `id` tells the scope values of one
physical frame apart. -/
structure ScopeValue where
  is_object : Bool
  id : Nat
deriving DecidableEq, Repr

/-- A `StackValue` of the locals of a logical frame: `type()` and `get_obj()`. -/
structure StackValue where
  type : BasicType
  obj : Option Oop
deriving DecidableEq, Repr

/-- Modelled from the spec: a logical frame (`vframe`; vframe.hpp and
vframe_hp.hpp are not part of the sources), "one logical frame (stack pointer,
inlining depth / frame number, originating method, bytecode index, local
variable values, a per-local flag marking values that are still virtual)":
`method()`, `bci()`, `locals()` (a collection, not null), and for a compiled
frame `scope()->objects()` (`none` for null) and `scope()->locals()`. -/
structure VFrame where
  method : Int
  bci : Int
  locals : List StackValue
  scope_objects : Option (List ScopeValue)
  scope_locals : List ScopeValue
deriving DecidableEq, Repr

/-- What kind of logical frames a physical frame hosts: compiled ones
(`is_compiled_frame()`), an interpreted one (`is_interpreted_frame()`), or one
that is neither. -/
inductive FrameKind
  | compiled
  | interpreted
  | other
deriving DecidableEq, Repr

/-- Modelled from the spec: a physical frame (`frame`; frame.hpp is not part of
the sources): "each physical frame may host one or more logical frames
(inlining)".  `first` is the logical frame `vframe::new_vframe` gives for the
physical frame, the innermost one, and `senders` are its callers within the
physical frame in the order `sender()` reaches them; the last of them is the
one for which `is_top()` holds.  `cb_is_nmethod` is `cb()->is_nmethod()`. -/
structure Frame where
  sp : Int
  kind : FrameKind
  first : VFrame
  senders : List VFrame
  cb_is_nmethod : Bool
deriving DecidableEq, Repr

/-- An element of the filter array `methods`: a `HotSpotResolvedJavaMethodImpl`
with the method it wraps, an object of another class, or null. -/
inductive MethodsEntry
  | method (metaspace : Int)
  | other
  | null
deriving DecidableEq, Repr

/-- The object `HotSpotStackFrameReference`. -/
structure HotSpotStackFrameReference where
  compilerToVM : Option Oop
  stackPointer : Int
  frameNumber : Int
  bci : Int
  method : Option Oop
  locals : List (Option Oop)
  localIsVirtual : Option (List Bool)
deriving DecidableEq, Repr

/-- The function `matches` (lines 858-868).  `none`: the loop reaches an
element that is null, and line 863 asks it for its class. -/
def CompilerToVM.matches : List MethodsEntry → Int → Option Bool
  | [], _ => some false
  | .method metaspace :: rest, method =>
    if metaspace = method then some true else CompilerToVM.matches rest method
  | .other :: rest, method => CompilerToVM.matches rest method
  | .null :: _, _ => none

/-- The test `methods == NULL || matches(methods, method)` of lines 922 and 954. -/
def getNextStackFrameImpl.selected (methods : Option (List MethodsEntry)) (method : Int) :
    Option Bool :=
  match methods with
  | none => some true
  | some ms => CompilerToVM.matches ms method

/-- `CompilerToVM::get_jvmci_method` (lines 57-67): the wrapper of a method that
is not null, by the Java call `fromMetaspace` (a parameter). -/
def CompilerToVM.get_jvmci_method (fromMetaspace : Int → Except Throwable (Option Oop))
    (method : Int) : Except Throwable (Option Oop) :=
  if method ≠ 0 then fromMetaspace method else .ok none

/-- How one round of the loops of `getNextStackFrameImpl` ends: the entry point
returns, the walk goes on with what is left of `initialSkip`, or the VM stops
in `matches`. -/
inductive WalkExit
  | returned (result : Except Throwable (Option HotSpotStackFrameReference))
  | next (initialSkip : Int)
  | stopped

/-- The frame reference filled in for a matching logical frame (lines 945-948
or 958-962, then 968-983): bci and method, then the fields of lines 969-971
and the locals array, which holds the object of every local of type `T_OBJECT`
and null for the others. -/
def getNextStackFrameImpl.found (fromMetaspace : Int → Except Throwable (Option Oop))
    (compilerToVM : Option Oop) (fr : Frame) (vf : VFrame) (frame_number : Int)
    (localIsVirtual : Option (List Bool)) : WalkExit :=
  match CompilerToVM.get_jvmci_method fromMetaspace vf.method with
  | .error ex => .returned (.error ex)
  | .ok method =>
    .returned (.ok (some
      { compilerToVM := compilerToVM
        stackPointer := fr.sp
        frameNumber := frame_number
        bci := vf.bci
        method := method
        locals := vf.locals.map fun var => if var.type = .T_OBJECT then var.obj else none
        localIsVirtual := localIsVirtual }))

/-- One round of the inner loop up to line 984, for the logical frame `vf` of
the physical frame `fr`.  For a compiled frame whose scope records objects the
virtual flags are taken before the objects are reallocated and `locals()` is the
collection after that. -/
def getNextStackFrameImpl.visit (fromMetaspace : Int → Except Throwable (Option Oop))
    (compilerToVM : Option Oop) (methods : Option (List MethodsEntry)) (fr : Frame) (vf : VFrame)
    (frame_number : Int) (initialSkip : Int) : WalkExit :=
  match fr.kind with
  | .compiled =>
    match getNextStackFrameImpl.selected methods vf.method with
    | none => .stopped
    | some true =>
      if initialSkip > 0 then .next (initialSkip - 1)
      else
        let localIsVirtual :=
          match vf.scope_objects with
          | some _ => some (vf.scope_locals.map fun value => value.is_object)
          | none => none
        getNextStackFrameImpl.found fromMetaspace compilerToVM fr vf frame_number localIsVirtual
    | some false => .next initialSkip
  | .interpreted =>
    match getNextStackFrameImpl.selected methods vf.method with
    | none => .stopped
    | some true =>
      if initialSkip > 0 then .next (initialSkip - 1)
      else getNextStackFrameImpl.found fromMetaspace compilerToVM fr vf frame_number none
    | some false => .next initialSkip
  | .other => .next initialSkip

/-- The inner loop (lines 917-991) from the logical frame `vf` on, whose senders
within the physical frame are `senders`. -/
def getNextStackFrameImpl.vframes (fromMetaspace : Int → Except Throwable (Option Oop))
    (compilerToVM : Option Oop) (methods : Option (List MethodsEntry)) (fr : Frame) :
    VFrame → List VFrame → Int → Int → WalkExit
  | vf, [], frame_number, initialSkip =>
    getNextStackFrameImpl.visit fromMetaspace compilerToVM methods fr vf frame_number initialSkip
  | vf, sender :: rest, frame_number, initialSkip =>
    match getNextStackFrameImpl.visit fromMetaspace compilerToVM methods fr vf frame_number
        initialSkip with
    | .returned result => .returned result
    | .stopped => .stopped
    | .next skip =>
      getNextStackFrameImpl.vframes fromMetaspace compilerToVM methods fr sender rest
        (frame_number + 1) skip

/-- The outer loop (lines 915-999): the stream stands at the physical frame
`cur`, the frames `callers` are still to come, and the inner loop starts at the
logical frame `vf`.  `none`: the VM stops. -/
def getNextStackFrameImpl.frames (fromMetaspace : Int → Except Throwable (Option Oop))
    (compilerToVM : Option Oop) (methods : Option (List MethodsEntry)) :
    Frame → List Frame → VFrame → List VFrame → Int → Int →
      Option (Except Throwable (Option HotSpotStackFrameReference))
  | cur, [], vf, senders, frame_number, initialSkip =>
    match getNextStackFrameImpl.vframes fromMetaspace compilerToVM methods cur vf senders
        frame_number initialSkip with
    | .returned result => some result
    | .stopped => none
    | .next _ => some (.ok none)
  | cur, f :: rest, vf, senders, frame_number, initialSkip =>
    match getNextStackFrameImpl.vframes fromMetaspace compilerToVM methods cur vf senders
        frame_number initialSkip with
    | .returned result => some result
    | .stopped => none
    | .next skip =>
      getNextStackFrameImpl.frames fromMetaspace compilerToVM methods f rest f.first f.senders 0
        skip

/-- The loop of lines 881-883: the stream moves on until it stands at a frame
with the stack pointer looked for, or at the last frame. -/
def getNextStackFrameImpl.find (stack_pointer : Int) : Frame → List Frame → Frame × List Frame
  | cur, [] => (cur, [])
  | cur, f :: rest =>
    if cur.sp ≠ stack_pointer then getNextStackFrameImpl.find stack_pointer f rest
    else (cur, f :: rest)

/-- The loop of lines 894-900, for the number of rounds it has to make: `none`
when a round finds that `is_top()` holds. -/
def getNextStackFrameImpl.climb : Nat → VFrame → List VFrame → Int →
    Option (VFrame × List VFrame × Int)
  | 0, vf, senders, frame_number => some (vf, senders, frame_number)
  | _ + 1, _, [], _ => none
  | k + 1, _, sender :: rest, frame_number =>
    getNextStackFrameImpl.climb k sender rest (frame_number + 1)

/-- Entry point `getNextStackFrameImpl` (lines 870-1003).  Modelled from the
spec: the stack of the thread (thread.hpp and `StackFrameStream` of frame.hpp
are not part of the sources) is "a sequence of physical frames", walked
"outward-to-caller": `stack` lists the physical frames from the top of the
stack on, a thread without Java frame has none, and the stream is done at the
last of them.  The result object and the arrays are taken to be allocated, as
the code takes them to be; `none`: the VM stops in `matches`. -/
def getNextStackFrameImpl (fromMetaspace : Int → Except Throwable (Option Oop))
    (stack : List Frame) (compilerToVM : Option Oop) (hs_frame : Option HotSpotStackFrameReference)
    (methods : Option (List MethodsEntry)) (initialSkip : Int) :
    Option (Except Throwable (Option HotSpotStackFrameReference)) :=
  match stack with
  | [] => some (.ok none)
  | top :: callers =>
    match hs_frame with
    | none =>
      getNextStackFrameImpl.frames fromMetaspace compilerToVM methods top callers top.first
        top.senders 0 initialSkip
    | some hs =>
      -- look for the correct stack frame if one is given
      match getNextStackFrameImpl.find hs.stackPointer top callers with
      | (cur, rest) =>
        if cur.sp ≠ hs.stackPointer then
          some (.error (.IllegalStateException "stack frame not found"))
        else
          -- look for the correct vframe within the stack frame if one is given
          match getNextStackFrameImpl.climb hs.frameNumber.toNat cur.first cur.senders 0 with
          | none => some (.error (.IllegalStateException "invalid frame number"))
          | some (_, [], _) =>
            -- move one frame forward
            match rest with
            | [] => some (.ok none)
            | f :: fs =>
              getNextStackFrameImpl.frames fromMetaspace compilerToVM methods f fs f.first
                f.senders 0 initialSkip
          | some (_, sender :: senders, frame_number) =>
            getNextStackFrameImpl.frames fromMetaspace compilerToVM methods cur rest sender
              senders (frame_number + 1) initialSkip

/-- A logical frame of the stack: the physical frame that hosts it, its number
within that frame, and the frame. -/
structure LogicalFrame where
  frame : Frame
  frame_number : Int
  vf : VFrame
deriving DecidableEq, Repr

/-- The logical frames `vfs` of the physical frame `fr`, numbered from `n` on. -/
def Frame.logicalFrom (fr : Frame) : Int → List VFrame → List LogicalFrame
  | _, [] => []
  | n, vf :: rest => { frame := fr, frame_number := n, vf := vf } :: Frame.logicalFrom fr (n + 1) rest

/-- The logical frames of a physical frame, from the innermost toward the
caller. -/
def Frame.logical (fr : Frame) : List LogicalFrame :=
  Frame.logicalFrom fr 0 (fr.first :: fr.senders)

/-- The logical frames of a stack in walk order: physical frames from the top of
the stack toward the caller, and within each physical frame the logical frames
from the innermost toward the caller. -/
def logicalFrames : List Frame → List LogicalFrame
  | [] => []
  | fr :: rest => fr.logical ++ logicalFrames rest

/-- The logical frames the walk has before it: all of them without a starting
frame reference, and otherwise the ones strictly after the logical frame with
the number of the reference in the first physical frame with its stack pointer.
`none`: the stack has no such logical frame. -/
def framesAfter (stack : List Frame) (hs_frame : Option HotSpotStackFrameReference) :
    Option (List LogicalFrame) :=
  match hs_frame with
  | none => some (logicalFrames stack)
  | some hs =>
    match stack.dropWhile (fun fr => decide (fr.sp ≠ hs.stackPointer)) with
    | [] => none
    | cur :: rest =>
      if 0 ≤ hs.frameNumber ∧ hs.frameNumber.toNat < cur.logical.length then
        some (cur.logical.drop (hs.frameNumber.toNat + 1) ++ logicalFrames rest)
      else none

/-- The method is in the filter set: any method is without a filter, and with
one the method that a `HotSpotResolvedJavaMethodImpl` of the array wraps. -/
def MethodsEntry.inFilter (methods : Option (List MethodsEntry)) (method : Int) : Bool :=
  match methods with
  | none => true
  | some ms => decide (MethodsEntry.method method ∈ ms)

/-- The logical frame is a compiled or interpreted frame whose method is in the
filter set. -/
def LogicalFrame.selected (methods : Option (List MethodsEntry)) (lf : LogicalFrame) : Bool :=
  (decide (lf.frame.kind = .compiled) || decide (lf.frame.kind = .interpreted))
    && MethodsEntry.inFilter methods lf.vf.method

/-- The flags `localIsVirtual` of the reference for a logical frame: one per
scope local for a compiled frame whose scope records objects, null otherwise. -/
def LogicalFrame.localIsVirtual (lf : LogicalFrame) : Option (List Bool) :=
  match lf.frame.kind, lf.vf.scope_objects with
  | .compiled, some _ => some (lf.vf.scope_locals.map fun value => value.is_object)
  | _, _ => none

/-- The rounds of the inner loop over a list of logical frames, one after the
other, across physical frames. -/
def getNextStackFrameImpl.walk (fromMetaspace : Int → Except Throwable (Option Oop))
    (compilerToVM : Option Oop) (methods : Option (List MethodsEntry)) :
    List LogicalFrame → Int → WalkExit
  | [], initialSkip => .next initialSkip
  | lf :: rest, initialSkip =>
    match getNextStackFrameImpl.visit fromMetaspace compilerToVM methods lf.frame lf.vf
        lf.frame_number initialSkip with
    | .returned result => .returned result
    | .stopped => .stopped
    | .next skip => getNextStackFrameImpl.walk fromMetaspace compilerToVM methods rest skip

/-- What the entry point returns when the walk ends: the result of the round
that returned, and null at the end of the stack (line 1002). -/
def WalkExit.finish : WalkExit → Option (Except Throwable (Option HotSpotStackFrameReference))
  | .returned result => some result
  | .next _ => some (.ok none)
  | .stopped => none

/-- A compiled physical frame with one inlined callee: the innermost logical
frame has an object local that is still virtual. -/
def Frame.sample_compiled : Frame :=
  { sp := 1000, kind := .compiled,
    first := { method := 101, bci := 7,
               locals := [⟨.T_OBJECT, some (.ref 1)⟩, ⟨.T_INT, none⟩],
               scope_objects := some [⟨true, 0⟩], scope_locals := [⟨true, 0⟩, ⟨false, 1⟩] },
    senders := [{ method := 102, bci := 9, locals := [], scope_objects := some [⟨true, 0⟩],
                  scope_locals := [] }],
    cb_is_nmethod := true }

/-- An interpreted physical frame. -/
def Frame.sample_interpreted : Frame :=
  { sp := 2000, kind := .interpreted,
    first := { method := 103, bci := 3, locals := [⟨.T_INT, none⟩], scope_objects := none,
               scope_locals := [] },
    senders := [],
    cb_is_nmethod := false }

/-- A physical frame that is neither compiled nor interpreted. -/
def Frame.sample_entry : Frame :=
  { sp := 3000, kind := .other,
    first := { method := 0, bci := 0, locals := [], scope_objects := none, scope_locals := [] },
    senders := [],
    cb_is_nmethod := false }

/-- A stack of three physical frames, from the top of the stack on. -/
def Frame.sample_stack : List Frame :=
  [Frame.sample_compiled, Frame.sample_interpreted, Frame.sample_entry]

/-- A Java call `fromMetaspace` that gives each method a wrapper of its own. -/
def CompilerToVM.sample_fromMetaspace (method : Int) : Except Throwable (Option Oop) :=
  .ok (some (.ref method.toNat))

/-- A starting frame reference with the given stack pointer and frame number. -/
def HotSpotStackFrameReference.start (stackPointer frameNumber : Int) : HotSpotStackFrameReference :=
  { compilerToVM := none, stackPointer := stackPointer, frameNumber := frameNumber, bci := 0,
    method := none, locals := [], localIsVirtual := none }

/-! ## materializeVirtualObjects -/

/-- What `materializeVirtualObjects` does to the code and to the frames, in the
order in which it does it: the calls of lines 1051, 1053, 1084, 1085 and
1099. -/
inductive MaterializeEffect
  | make_not_entrant (sp : Int)
  | deoptimize (sp : Int)
  | realloc_objects (sp : Int) (objects : List ScopeValue)
  | reassign_fields (sp : Int) (objects : List ScopeValue)
  | update_local (sp : Int) (frame_index : Nat) (index : Nat) (value : Option Oop)
deriving DecidableEq, Repr

/-- Modelled from the spec: `Deoptimization::realloc_objects` with
`reassign_fields` (deoptimization.cpp is not part of the sources), "reallocates
all non-escaping objects referenced anywhere among them exactly once each
(preserving identity)": the objects of the list get the heap objects from
`free` on, one each, and the result is the heap object each scope value has
after that, none for a scope value that is not in the list. -/
def Deoptimization.realloc_objects (free : Nat) (objects : List ScopeValue) (value : ScopeValue) :
    Option Oop :=
  if value ∈ objects then some (.ref (free + objects.indexOf value)) else none

/-- The locals of a frame after the reallocation, by the stack values and the
scope values of the locals. -/
def compiledVFrame.locals.values (heap : ScopeValue → Option Oop) :
    List StackValue → List ScopeValue → List StackValue
  | [], _ => []
  | var :: rest, [] => var :: rest
  | var :: rest, value :: values =>
    (if value.is_object then { type := .T_OBJECT, obj := heap value } else var)
      :: compiledVFrame.locals.values heap rest values

/-- Modelled from the spec: `compiledVFrame::locals()` after the reallocation
(vframe_hp.cpp and stackValue.cpp are not part of the sources), "rewrites every
logical frame's locals to reference the newly allocated objects in place of
their decomposed scalar form": a local whose scope value is an object has type
`T_OBJECT` and the heap object of that scope value, and every other local has
its stack value; `update_local` stores the value `locals()` has, so that the
collection is the same after it. -/
def compiledVFrame.locals (heap : ScopeValue → Option Oop) (cvf : VFrame) : List StackValue :=
  compiledVFrame.locals.values heap cvf.locals cvf.scope_locals

/-- The loop of lines 1094-1101 over the locals of one logical frame, from the
local `i2` on.  `none`: `scopeLocals->at(i2)` is asked for a scope value the
frame does not have. -/
def materializeVirtualObjects.update_locals (sp : Int) (frame_index : Nat)
    (scopeLocals : List ScopeValue) : List StackValue → Nat → Option (List MaterializeEffect)
  | [], _ => some []
  | var :: rest, i2 =>
    if var.type = .T_OBJECT then
      match scopeLocals[i2]? with
      | none => none
      | some value =>
        match materializeVirtualObjects.update_locals sp frame_index scopeLocals rest (i2 + 1) with
        | none => none
        | some effects =>
          if value.is_object then some (.update_local sp frame_index i2 var.obj :: effects)
          else some effects
    else materializeVirtualObjects.update_locals sp frame_index scopeLocals rest (i2 + 1)

/-- The loop of lines 1087-1103 over the logical frames of the physical frame,
from the frame `frame_index` on. -/
def materializeVirtualObjects.update_frames (heap : ScopeValue → Option Oop) (sp : Int) :
    List VFrame → Nat → Option (List MaterializeEffect)
  | [], _ => some []
  | cvf :: rest, frame_index =>
    match materializeVirtualObjects.update_locals sp frame_index cvf.scope_locals
        (compiledVFrame.locals heap cvf) 0 with
    | none => none
    | some effects =>
      match materializeVirtualObjects.update_frames heap sp rest (frame_index + 1) with
      | none => none
      | some later => some (effects ++ later)

/-- The loop of lines 1111-1116: the array of the frame reference gets the
object of every local of type `T_OBJECT`, and keeps its other elements.
`none`: a store behind the end of the array. -/
def materializeVirtualObjects.refresh :
    List StackValue → List (Option Oop) → Option (List (Option Oop))
  | [], array => some array
  | var :: rest, [] =>
    if var.type = .T_OBJECT then none else materializeVirtualObjects.refresh rest []
  | var :: rest, element :: array =>
    match materializeVirtualObjects.refresh rest array with
    | none => none
    | some tail => some ((if var.type = .T_OBJECT then var.obj else element) :: tail)

/-- What a call of `materializeVirtualObjects` leaves: how it returned, the
frame reference after it, and what it did to the code and the frames. -/
structure MaterializeReturn where
  result : Except Throwable Unit
  hs_frame : Option HotSpotStackFrameReference
  effects : List MaterializeEffect

/-- Lines 1049-1116 of `materializeVirtualObjects`: what the entry point does
once the stream stands at the physical frame `cur` with the stack pointer of
the frame reference `hs`. -/
def materializeVirtualObjects.located (free : Nat) (cur : Frame) (hs : HotSpotStackFrameReference)
    (invalidate : Bool) : Option MaterializeReturn :=
  if invalidate = true ∧ cur.cb_is_nmethod = false then none
  else
    let deoptimized : List MaterializeEffect :=
      (if invalidate then [.make_not_entrant cur.sp] else []) ++ [.deoptimize cur.sp]
    if cur.kind ≠ .compiled then
      some { result := .error (.IllegalStateException "compiled stack frame expected")
             hs_frame := some hs, effects := deoptimized }
    else
      let virtualFrames := cur.first :: cur.senders
      if hs.frameNumber ≥ virtualFrames.length then
        some { result := .error (.IllegalStateException "invalid frame number")
               hs_frame := some hs, effects := deoptimized }
      else
        match (if hs.frameNumber < 0 then none else virtualFrames[hs.frameNumber.toNat]?) with
        | none => none
        | some target =>
          -- Reallocate the non-escaping objects and restore their fields.
          match target.scope_objects with
          | none =>
            -- no objects to materialize
            some { result := .ok (), hs_frame := some hs, effects := deoptimized }
          | some objects =>
            let heap := Deoptimization.realloc_objects free objects
            match materializeVirtualObjects.update_frames heap cur.sp virtualFrames 0 with
            | none => none
            | some updates =>
              -- all locals are materialized by now; update the locals array
              match materializeVirtualObjects.refresh (compiledVFrame.locals heap target)
                  hs.locals with
              | none => none
              | some array =>
                some { result := .ok ()
                       hs_frame := some { hs with localIsVirtual := none, locals := array }
                       effects := deoptimized
                         ++ [.realloc_objects cur.sp objects, .reassign_fields cur.sp objects]
                         ++ updates }

/-- Entry point `materializeVirtualObjects` (lines 1030-1117) over the stack
of the thread, the physical frames from the top of the stack on; the stream of
line 1040 is built without the test of line 873, and the search of lines
1042-1044 is the one of lines 881-883.  `free` is the next free heap object.
`none`: the VM stops or what it does is undefined, which is so for a thread
without Java frame, for the call of line 1051 on a code blob that is no
nmethod (the assertion of line 1050), for a negative frame number (line 1077),
and for an index behind the end of the scope locals or of the array of the
frame reference. -/
def materializeVirtualObjects (free : Nat) (stack : List Frame)
    (hs_frame : Option HotSpotStackFrameReference) (invalidate : Bool) :
    Option MaterializeReturn :=
  match hs_frame with
  | none => some { result := .error .NullPointerException, hs_frame := none, effects := [] }
  | some hs =>
    match stack with
    | [] => none
    | top :: callers =>
      -- look for the given stack frame
      match getNextStackFrameImpl.find hs.stackPointer top callers with
      | (cur, _) =>
        if cur.sp ≠ hs.stackPointer then
          some { result := .error (.IllegalStateException "stack frame not found")
                 hs_frame := some hs, effects := [] }
        else materializeVirtualObjects.located free cur hs invalidate

/-- A compiled physical frame with two logical frames that share one
escape-analyzed object: it is local 0 of the inner frame and local 1 of its
caller, which has a second object in local 2. -/
def Frame.sample_shared : Frame :=
  { sp := 5000, kind := .compiled,
    first := { method := 201, bci := 4,
               locals := [⟨.T_OBJECT, none⟩, ⟨.T_INT, none⟩],
               scope_objects := some [⟨true, 7⟩, ⟨true, 8⟩],
               scope_locals := [⟨true, 7⟩, ⟨false, 0⟩] },
    senders := [{ method := 202, bci := 11,
                  locals := [⟨.T_OBJECT, some (.ref 3)⟩, ⟨.T_OBJECT, none⟩, ⟨.T_OBJECT, none⟩],
                  scope_objects := some [⟨true, 7⟩, ⟨true, 8⟩],
                  scope_locals := [⟨false, 1⟩, ⟨true, 7⟩, ⟨true, 8⟩] }],
    cb_is_nmethod := true }

/-- A frame reference as `getNextStackFrameImpl` fills it in for the caller of
`Frame.sample_shared`. -/
def HotSpotStackFrameReference.sample_shared : HotSpotStackFrameReference :=
  { compilerToVM := none, stackPointer := 5000, frameNumber := 1, bci := 11,
    method := some (.ref 202), locals := [some (.ref 3), none, none],
    localIsVirtual := some [false, true, true] }

/-- The physical frame `Frame.sample_compiled` later in its method, at a bci
where no escape-analyzed object is live: the scopes record no objects. -/
def Frame.sample_advanced : Frame :=
  { sp := 1000, kind := .compiled,
    first := { method := 101, bci := 12,
               locals := [⟨.T_OBJECT, some (.ref 1)⟩, ⟨.T_INT, none⟩],
               scope_objects := none, scope_locals := [⟨false, 0⟩, ⟨false, 1⟩] },
    senders := [{ method := 102, bci := 9, locals := [], scope_objects := none,
                  scope_locals := [] }],
    cb_is_nmethod := true }

/-- The frame reference `getNextStackFrameImpl` returns for the innermost
logical frame of `Frame.sample_compiled`. -/
def HotSpotStackFrameReference.sample_issued : HotSpotStackFrameReference :=
  { compilerToVM := none, stackPointer := 1000, frameNumber := 0, bci := 7,
    method := some (.ref 101), locals := [some (.ref 1), none],
    localIsVirtual := some [true, false] }

/-- The frame reference `getNextStackFrameImpl` returns for the innermost
logical frame of `Frame.sample_advanced`. -/
def HotSpotStackFrameReference.sample_current : HotSpotStackFrameReference :=
  { compilerToVM := none, stackPointer := 1000, frameNumber := 0, bci := 12,
    method := some (.ref 101), locals := [some (.ref 1), none],
    localIsVirtual := none }

/-- What the call on `HotSpotStackFrameReference.sample_shared` with
invalidate leaves, for the stack of `Frame.sample_entry` and
`Frame.sample_shared` and the next free heap object 100. -/
def MaterializeReturn.sample_shared : MaterializeReturn :=
  { result := .ok ()
    hs_frame := some { HotSpotStackFrameReference.sample_shared with
      localIsVirtual := none
      locals := [some (.ref 3), some (.ref 100), some (.ref 101)] }
    effects := [.make_not_entrant 5000, .deoptimize 5000,
      .realloc_objects 5000 [⟨true, 7⟩, ⟨true, 8⟩],
      .reassign_fields 5000 [⟨true, 7⟩, ⟨true, 8⟩],
      .update_local 5000 0 0 (some (.ref 100)),
      .update_local 5000 1 1 (some (.ref 100)),
      .update_local 5000 1 2 (some (.ref 101))] }

/-! ## getLineNumberTable -/

/-- The loop of lines 754-756 over the pairs of the table: the counter
`num_entries` is a `u2`. -/
def getLineNumberTable.count : List (Int × Int) → Nat → Nat
  | [], num_entries => num_entries
  | _ :: rest, num_entries => getLineNumberTable.count rest ((num_entries + 1) % 2 ^ 16)

/-- The loop of lines 763-769 from the index `i` on.  `none`: a store behind
the end of the array. -/
def getLineNumberTable.fill : List (Int × Int) → Nat → List Int → Option (List Int)
  | [], _, result => some result
  | (bci, line) :: rest, i, result =>
    if i + 1 < result.length then
      getLineNumberTable.fill rest (i + 2) ((result.set i bci).set (i + 1) line)
    else none

/-- Entry point `getLineNumberTable` (lines 747-772).  The line number table
of the method is `none` when `has_linenumber_table()` does not hold, and
otherwise the pairs of bci and line for which `read_pair()` holds, in the order
of the stream (`CompressedLineNumberReadStream` is not part of the sources).
`oom` is the exception of an allocation that fails. -/
def getLineNumberTable (oom : Option Throwable) (linenumber_table : Option (List (Int × Int))) :
    Option (Except Throwable (Option (List Int))) :=
  match linenumber_table with
  | none => some (.ok none)
  | some table =>
    let num_entries := getLineNumberTable.count table 0
    match oom with
    | some ex => some (.error ex)
    | none =>
      match getLineNumberTable.fill table 0 (List.replicate (2 * num_entries) 0) with
      | none => none
      | some result => some (.ok (some result))

/-- The array of a line number table as the specification describes it: bci and
line of the pairs, one pair after the other. -/
def getLineNumberTable.pairs : List (Int × Int) → List Int
  | [] => []
  | (bci, line) :: rest => bci :: line :: getLineNumberTable.pairs rest

/-! ## writeDebugOutputImpl -/

/-- One call `tty->write(start, len)` of line 1122: `start` is the address of
the element `offset` of the array. -/
structure DebugWrite where
  offset : Int
  len : Int
deriving DecidableEq, Repr

/-- Entry point `writeDebugOutputImpl` (lines 1119-1126): the writes of the
loop in the order in which they are made, for at most `fuel` rounds.
`O_BUFLEN` is the constant of ostream.hpp (not part of the sources); `offset`
and `length` are `jint`.  `none`: the rounds are used up. -/
def writeDebugOutputImpl (O_BUFLEN : Int) : Nat → Int → Int → Option (List DebugWrite)
  | 0, _, length => if length > 0 then none else some []
  | fuel + 1, offset, length =>
    if length > 0 then
      match writeDebugOutputImpl O_BUFLEN fuel (wrapSigned 32 (offset + O_BUFLEN))
          (wrapSigned 32 (length - O_BUFLEN)) with
      | none => none
      | some writes => some ({ offset := offset, len := min length O_BUFLEN } :: writes)
    else some []

/-- The bytes a write carries: `len` elements of the array from the element
`offset` on.  `none`: they are not all elements of the array. -/
def DebugWrite.bytes (array : List Int) (w : DebugWrite) : Option (List Int) :=
  if 0 ≤ w.offset ∧ 0 ≤ w.len ∧ w.offset + w.len ≤ array.length then
    some ((array.drop w.offset.toNat).take w.len.toNat)
  else none

/-- The bytes a list of writes carries, in order. -/
def writeDebugOutputImpl.output (array : List Int) : List DebugWrite → Option (List Int)
  | [] => some []
  | w :: rest =>
    match w.bytes array, writeDebugOutputImpl.output array rest with
    | some first, some later => some (first ++ later)
    | _, _ => none

/-! ## getMaxCallTargetOffsetImpl -/

/-- Modelled from the spec: the template `ABS` of globalDefinitions.hpp (not
part of the sources) at `int64_t`, the absolute value "computed in 64-bit
signed arithmetic": the negation of the smallest value wraps to that value. -/
def ABS (x : Int) : Int :=
  if x > 0 then x else wrapSigned 64 (-x)

/-- Modelled from the spec: the template `MAX2` of globalDefinitions.hpp (not
part of the sources), the "max" of two values. -/
def MAX2 (a b : Int) : Int :=
  if a > b then a else b

/-- Entry point `getMaxCallTargetOffsetImpl` (lines 565-573).  `low_bound` and
`high_bound` are `CodeCache::low_bound()` and `CodeCache::high_bound()` as
`int64_t`, addresses have 64 bits and `sizeof(int)` is 4.  The sum with
`sizeof(int)`, a `size_t`, and the difference are unsigned 64-bit values, and
the difference is stored in an `int64_t`. -/
def getMaxCallTargetOffsetImpl (low_bound high_bound : Int) (addr : Int) : Int :=
  if addr ≠ 0 then
    let off_low := wrapSigned 64 (wrapUnsigned 64 (addr - wrapUnsigned 64 (low_bound + 4)))
    let off_high := wrapSigned 64 (wrapUnsigned 64 (addr - wrapUnsigned 64 (high_bound + 4)))
    MAX2 (ABS off_low) (ABS off_high)
  else -1

/-! ## methodDataProfileDataSize -/

/-- A profile entry: its size `size_in_bytes()` and its index
`dp_to_di(dp())`. -/
structure ProfileData where
  di : Int
  size_in_bytes : Int
deriving DecidableEq, Repr

/-- A method data object (methodData.hpp is not part of the sources):
`data_at position` is the entry `data_at(position)` when `is_valid` holds for
it, and `extra_data` are the entries from `extra_data_base()` up to
`extra_data_limit()` in the order in which `next_extra` reaches them. -/
structure MethodData where
  data_at : Int → Option ProfileData
  extra_data : List ProfileData

/-- The loop of lines 1141-1147 over the extra data that is left.  `none`: the
loop goes on behind `extra_data_limit()`, where the assertion of line 1142
fails; it has no other exit than the return of line 1145. -/
def methodDataProfileDataSize.search (position : Int) : List ProfileData → Option Int
  | [] => none
  | profile_data :: rest =>
    if profile_data.di = position then some profile_data.size_in_bytes
    else methodDataProfileDataSize.search position rest

/-- Entry point `methodDataProfileDataSize` (lines 1132-1149).  `none`: the
search has left the extra data.  The throw of line 1148 follows a loop without
exit and is not reached. -/
def methodDataProfileDataSize (mdo : MethodData) (position : Int) :
    Option (Except Throwable Int) :=
  match mdo.data_at position with
  | some profile_data => some (.ok profile_data.size_in_bytes)
  | none =>
    match methodDataProfileDataSize.search position mdo.extra_data with
    | some size => some (.ok size)
    | none => none

/-- A method data object with one regular entry at position 0 and two entries
of extra data. -/
def MethodData.sample : MethodData :=
  { data_at := fun position => if position = 0 then some ⟨0, 16⟩ else none
    extra_data := [⟨40, 8⟩, ⟨48, 24⟩] }

/-! ## Properties of installCodeImpl -/

/-- A conversion to a signed type keeps a value the type can hold. -/
theorem wrapSigned_of_range (vt : VersionType) (x : Int)
    (hlo : -(vt.maxValue) - 1 ≤ x) (hhi : x ≤ vt.maxValue) : wrapSigned vt.bits x = x := by
  cases vt <;> simp only [VersionType.maxValue, VersionType.bits, wrapSigned] at * <;> omega

/-- The installer hands back the outcome it reached. -/
theorem CodeInstaller.install_fst (outcome : CodeInstallResult) (blob : CodeBlob) :
    (CodeInstaller.install outcome blob).1 = outcome := by
  cases outcome <;> rfl

/-- C1, as amended: for every installed-code wrapper whose version is a value of
the version field below the largest one, every call of installCodeImpl returns,
and when its result code is ok the version of the wrapper after the call is its
version before the call plus 1. -/
theorem installCodeImpl_version_increment (vt : VersionType) (outcome : CodeInstallResult)
    (blob : CodeBlob) (w : InstalledCode)
    (hlo : -(vt.maxValue) - 1 ≤ w.version) (hhi : w.version < vt.maxValue) :
    ∃ r, installCodeImpl vt outcome blob (some w) = some r ∧
      (r.result = .ok → ∃ w1, r.installed_code = some w1 ∧ w1.version = w.version + 1) := by
  have hw : wrapSigned vt.bits (w.version + 1) = w.version + 1 :=
    wrapSigned_of_range vt _ (by omega) (by omega)
  cases outcome <;> cases hh : w.hotspot <;>
    simp [installCodeImpl, installCodeImpl.finish, CodeInstaller.install, hh, hw]

/-- Witness of C1: the first successful install of a wrapper with version 0 sets
version 1. -/
theorem installCodeImpl_version_increment_witness :
    (-(VersionType.jlong.maxValue) - 1 ≤ (0 : Int) ∧ (0 : Int) < VersionType.jlong.maxValue) ∧
    ∃ r, installCodeImpl .jlong .ok ⟨4096, 64, 4128, 32⟩ (some ⟨0, 0, none⟩) = some r ∧
      (r.result = .ok → ∃ w1, r.installed_code = some w1 ∧ w1.version = (0 : Int) + 1) :=
  ⟨⟨by decide, by decide⟩,
    installCodeImpl_version_increment .jlong .ok ⟨4096, 64, 4128, 32⟩ ⟨0, 0, none⟩
      (by decide) (by decide)⟩

/-- C1 fails as stated: a successful install on a wrapper whose version is the
largest value of the counter (of either width) leaves the smallest value, not
the version before plus 1. -/
theorem installCodeImpl_version_wraps :
    (installCodeImpl .jlong .ok ⟨4096, 64, 4128, 32⟩ (some ⟨0, 9223372036854775807, none⟩)
        = some ⟨.ok, some ⟨4096, 64, 4128, 32⟩, some ⟨4096, -9223372036854775808, none⟩⟩
      ∧ (-9223372036854775808 : Int) ≠ 9223372036854775807 + 1)
    ∧ (installCodeImpl .jint .ok ⟨4096, 64, 4128, 32⟩ (some ⟨0, 2147483647, none⟩)
        = some ⟨.ok, some ⟨4096, 64, 4128, 32⟩, some ⟨4096, -2147483648, none⟩⟩
      ∧ (-2147483648 : Int) ≠ 2147483647 + 1) := by
  refine ⟨⟨?_, by decide⟩, ⟨?_, by decide⟩⟩ <;>
    simp [installCodeImpl, installCodeImpl.finish, CodeInstaller.install, wrapSigned,
      VersionType.bits]

/-- C7: when the installer result is not ok, installCodeImpl returns that result
code and raises nothing, no blob was created (cb is null), and the wrapper, null
or not, is the one passed in, with its address, version, size, codeStart and
codeSize; lines 606-607 leave the wrapper alone whatever cb is. -/
theorem installCodeImpl_failure (vt : VersionType) (outcome : CodeInstallResult) (blob : CodeBlob)
    (installed_code : Option InstalledCode) (h : outcome ≠ .ok) :
    installCodeImpl vt outcome blob installed_code
        = some { result := outcome, cb := none, installed_code := installed_code }
      ∧ ∀ cb, installCodeImpl.finish vt outcome cb installed_code
        = some { result := outcome, cb := cb, installed_code := installed_code } := by
  constructor
  · cases outcome <;> first | exact absurd rfl h | rfl
  · intro cb
    simp [installCodeImpl.finish, h]

/-- Witness of C7: a full code cache leaves a wrapper at version 3 untouched. -/
theorem installCodeImpl_failure_witness :
    CodeInstallResult.cache_full ≠ .ok ∧
    (installCodeImpl .jlong .cache_full ⟨4096, 64, 4128, 32⟩ (some ⟨8192, 3, some ⟨64, 8224, 32⟩⟩)
        = some { result := .cache_full, cb := none,
                 installed_code := some ⟨8192, 3, some ⟨64, 8224, 32⟩⟩ }
      ∧ ∀ cb, installCodeImpl.finish .jlong .cache_full cb (some ⟨8192, 3, some ⟨64, 8224, 32⟩⟩)
        = some { result := .cache_full, cb := cb,
                 installed_code := some ⟨8192, 3, some ⟨64, 8224, 32⟩⟩ }) :=
  ⟨by decide, installCodeImpl_failure .jlong .cache_full ⟨4096, 64, 4128, 32⟩
    (some ⟨8192, 3, some ⟨64, 8224, 32⟩⟩) (by decide)⟩

/-- C8, as amended: after a call of installCodeImpl whose result is ok on a
non-null wrapper, the address of the wrapper is the address of the created blob
for every kind of wrapper; a wrapper that is a HotSpotInstalledCode has the size,
the code start and the code size of the blob, and a wrapper that is not one has
no such fields after the call either. -/
theorem installCodeImpl_success (vt : VersionType) (blob : CodeBlob) (w : InstalledCode) :
    ∃ r w1, installCodeImpl vt .ok blob (some w) = some r ∧ r.result = .ok ∧ r.cb = some blob ∧
      r.installed_code = some w1 ∧ w1.address = blob.addr ∧
      (w.hotspot.isSome = true →
        w1.hotspot = some { size := blob.size, codeStart := blob.code_begin,
                            codeSize := blob.code_size }) ∧
      (w.hotspot = none → w1.hotspot = none) := by
  cases hh : w.hotspot <;>
    simp [installCodeImpl, installCodeImpl.finish, CodeInstaller.install, hh]

/-- C8 fails as stated: a successful install on a wrapper that is not a
HotSpotInstalledCode sets the address and leaves no size equal to the size of
the blob. -/
theorem installCodeImpl_plain_wrapper_no_size :
    installCodeImpl .jlong .ok ⟨4096, 64, 4128, 32⟩ (some ⟨0, 0, none⟩)
        = some ⟨.ok, some ⟨4096, 64, 4128, 32⟩, some ⟨4096, 1, none⟩⟩
      ∧ (InstalledCode.mk 4096 1 none).hotspot.map HotSpotInstalledCode.size ≠ some 64 := by
  constructor
  · simp [installCodeImpl, installCodeImpl.finish, CodeInstaller.install, wrapSigned,
      VersionType.bits]
  · simp

/-! ## Properties of invalidateInstalledCodeImpl -/

/-- The wrapper invalidateInstalledCodeImpl leaves is the one passed in with the
address cleared. -/
theorem invalidateInstalledCodeImpl_wrapper (vm : VM) (w : InstalledCode) :
    (invalidateInstalledCodeImpl vm w).2 = { w with address := 0 } := rfl

/-- Without a live nmethod behind the wrapper the VM is left as it is. -/
theorem invalidateInstalledCodeImpl_skip (vm : VM) (w : InstalledCode)
    (h : w.address = 0 ∨ (vm.code w.address).is_not_entrant = true) :
    (invalidateInstalledCodeImpl vm w).1 = vm := by
  unfold invalidateInstalledCodeImpl
  rcases h with h | h <;> simp [h]

/-- With a live nmethod behind the wrapper, the nmethod is marked and a
deoptimization operation runs. -/
theorem invalidateInstalledCodeImpl_live (vm : VM) (w : InstalledCode)
    (h : w.address ≠ 0 ∧ (vm.code w.address).is_not_entrant = false) :
    (invalidateInstalledCodeImpl vm w).1 = (vm.mark_for_deoptimization w.address).VM_Deoptimize := by
  unfold invalidateInstalledCodeImpl
  simp [h.1, h.2]

/-- C2: calling invalidateInstalledCodeImpl twice in a row leaves the wrapper
(address 0) and the VM, with the state of the backing code, exactly as calling
it once does. -/
theorem invalidateInstalledCodeImpl_idempotent (vm : VM) (w : InstalledCode) :
    invalidateInstalledCodeImpl (invalidateInstalledCodeImpl vm w).1
        (invalidateInstalledCodeImpl vm w).2 = invalidateInstalledCodeImpl vm w
      ∧ (invalidateInstalledCodeImpl vm w).2.address = 0
      ∧ ∀ a, ((invalidateInstalledCodeImpl (invalidateInstalledCodeImpl vm w).1
        (invalidateInstalledCodeImpl vm w).2).1.code a).is_not_entrant
          = ((invalidateInstalledCodeImpl vm w).1.code a).is_not_entrant := by
  have key : invalidateInstalledCodeImpl (invalidateInstalledCodeImpl vm w).1
      (invalidateInstalledCodeImpl vm w).2 = invalidateInstalledCodeImpl vm w := by
    refine Prod.ext ?_ ?_
    · exact invalidateInstalledCodeImpl_skip _ _ (Or.inl rfl)
    · rfl
  exact ⟨key, rfl, fun a => by rw [key]⟩

/-- C3, as amended: for a wrapper whose address is already 0 or whose backing
code is already not-entrant, invalidateInstalledCodeImpl triggers no
deoptimization and leaves the VM, with the state of the backing code, as it is;
the fields of the wrapper other than the address are unchanged and its address
is 0 after the call, so that the call is a no-op when the address was 0. -/
theorem invalidateInstalledCodeImpl_no_deoptimization (vm : VM) (w : InstalledCode)
    (h : w.address = 0 ∨ (vm.code w.address).is_not_entrant = true) :
    (invalidateInstalledCodeImpl vm w).1 = vm
      ∧ (invalidateInstalledCodeImpl vm w).2 = { w with address := 0 }
      ∧ (w.address = 0 → invalidateInstalledCodeImpl vm w = (vm, w)) := by
  refine ⟨invalidateInstalledCodeImpl_skip vm w h, rfl, fun h0 => ?_⟩
  refine Prod.ext (invalidateInstalledCodeImpl_skip vm w h) ?_
  cases w
  simp_all [invalidateInstalledCodeImpl]

/-- Witness of C3: a wrapper at version 2 whose address is already 0. -/
theorem invalidateInstalledCodeImpl_no_deoptimization_witness :
    ((InstalledCode.mk 0 2 none).address = 0
      ∨ ((VM.mk (fun _ => ⟨false, false, .T_INT⟩) []).code (InstalledCode.mk 0 2 none).address).is_not_entrant = true)
    ∧ (invalidateInstalledCodeImpl (VM.mk (fun _ => ⟨false, false, .T_INT⟩) []) ⟨0, 2, none⟩).1
        = VM.mk (fun _ => ⟨false, false, .T_INT⟩) []
      ∧ (invalidateInstalledCodeImpl (VM.mk (fun _ => ⟨false, false, .T_INT⟩) []) ⟨0, 2, none⟩).2
        = { (InstalledCode.mk 0 2 none) with address := 0 }
      ∧ ((InstalledCode.mk 0 2 none).address = 0 →
          invalidateInstalledCodeImpl (VM.mk (fun _ => ⟨false, false, .T_INT⟩) []) ⟨0, 2, none⟩
            = (VM.mk (fun _ => ⟨false, false, .T_INT⟩) [], ⟨0, 2, none⟩)) :=
  ⟨Or.inl rfl, invalidateInstalledCodeImpl_no_deoptimization
    (VM.mk (fun _ => ⟨false, false, .T_INT⟩) []) ⟨0, 2, none⟩ (Or.inl rfl)⟩

/-- C3 fails as stated: a wrapper with address 4096 whose backing code is
already not-entrant does not keep its address, the call clears it. -/
theorem invalidateInstalledCodeImpl_clears_address :
    ((VM.mk (fun _ => ⟨true, false, .T_INT⟩) []).code (InstalledCode.mk 4096 1 none).address).is_not_entrant = true
      ∧ (invalidateInstalledCodeImpl (VM.mk (fun _ => ⟨true, false, .T_INT⟩) []) ⟨4096, 1, none⟩).2
          = ⟨0, 1, none⟩
      ∧ (invalidateInstalledCodeImpl (VM.mk (fun _ => ⟨true, false, .T_INT⟩) []) ⟨4096, 1, none⟩).2.address
          ≠ (InstalledCode.mk 4096 1 none).address := by
  refine ⟨rfl, rfl, ?_⟩
  decide

/-- C4: invalidateInstalledCodeImpl marks the backing code for deoptimization and
runs a deoptimization operation, these two effects and no other, exactly when
the address of the wrapper is not 0 and the code it points to is not already
not-entrant; after such a call the code is not-entrant.  In every other case
the call has no effect on the VM. -/
theorem invalidateInstalledCodeImpl_deoptimizes_iff (vm : VM) (w : InstalledCode) :
    ((invalidateInstalledCodeImpl vm w).1.events
          = vm.events ++ [Event.mark_for_deoptimization w.address, Event.VM_Deoptimize]
        ↔ (w.address ≠ 0 ∧ (vm.code w.address).is_not_entrant = false))
      ∧ ((invalidateInstalledCodeImpl vm w).1.events = vm.events
        ↔ ¬ (w.address ≠ 0 ∧ (vm.code w.address).is_not_entrant = false))
      ∧ ((w.address ≠ 0 ∧ (vm.code w.address).is_not_entrant = false) →
          ((invalidateInstalledCodeImpl vm w).1.code w.address).marked_for_deoptimization = true
          ∧ ((invalidateInstalledCodeImpl vm w).1.code w.address).is_not_entrant = true)
      ∧ (¬ (w.address ≠ 0 ∧ (vm.code w.address).is_not_entrant = false) →
          (invalidateInstalledCodeImpl vm w).1 = vm) := by
  by_cases h : w.address ≠ 0 ∧ (vm.code w.address).is_not_entrant = false
  · rw [invalidateInstalledCodeImpl_live vm w h]
    refine ⟨⟨fun _ => h, fun _ => ?_⟩, ⟨fun hev => ?_, fun hn => absurd h hn⟩, fun _ => ?_,
      fun hn => absurd h hn⟩
    · simp [VM.VM_Deoptimize, VM.mark_for_deoptimization]
    · simp [VM.VM_Deoptimize, VM.mark_for_deoptimization] at hev
    · simp [VM.VM_Deoptimize, VM.mark_for_deoptimization, nmethod.is_not_entrant]
  · have hs : w.address = 0 ∨ (vm.code w.address).is_not_entrant = true := by
      by_cases h0 : w.address = 0
      · exact Or.inl h0
      · right
        cases hb : (vm.code w.address).is_not_entrant
        · exact absurd ⟨h0, hb⟩ h
        · rfl
    rw [invalidateInstalledCodeImpl_skip vm w hs]
    simp [h]

/-! ## Properties of executeInstalledCode -/

/-- The bytes of a number, least significant first, give back its low bytes. -/
theorem leVal_leBytes (n x : Nat) : leVal (leBytes n x) = x % 256 ^ n := by
  induction n generalizing x with
  | zero => simp [leBytes, leVal, Nat.mod_one]
  | succ n ih => rw [leBytes, leVal, ih, pow_succ', Nat.mod_mul]

/-- Number of bytes produced for a width. -/
theorem leBytes_length (n x : Nat) : (leBytes n x).length = n := by
  induction n generalizing x with
  | zero => rfl
  | succ n ih => simp [leBytes, ih]

/-- Reading back, in host order, the bytes stored in host order. -/
theorem nativeVal_nativeBytes (e : Endian) (n x : Nat) :
    nativeVal e (nativeBytes e n x) = x % 256 ^ n := by
  cases e
  · exact leVal_leBytes n x
  · simp [nativeVal, nativeBytes, beVal, beBytes, leVal_leBytes]

/-- Number of bytes stored for a width, in host order. -/
theorem nativeBytes_length (e : Endian) (n x : Nat) : (nativeBytes e n x).length = n := by
  cases e <;> simp [nativeBytes, beBytes, leBytes_length]

/-- A member of the union read right after it was stored. -/
theorem jvalue.store_read (e : Endian) (n : Nat) (v : jvalue) (x : Int) :
    (nativeVal e (readBytes (v.store e n x).bytes 0 n) : Int) = x % 2 ^ (8 * n) := by
  have hlen := nativeBytes_length e n (x % 2 ^ (8 * n)).toNat
  have hpos : (0 : Int) ≤ x % 2 ^ (8 * n) := Int.emod_nonneg _ (by positivity)
  have hlt : x % 2 ^ (8 * n) < 2 ^ (8 * n) := Int.emod_lt_of_pos _ (by positivity)
  simp only [jvalue.store, readBytes, List.drop_zero, List.take_left' hlen,
    nativeVal_nativeBytes]
  have h256 : (256 : Nat) ^ n = 2 ^ (8 * n) := by
    rw [pow_mul]; norm_num
  rw [h256]
  have hnat : (x % 2 ^ (8 * n)).toNat < 2 ^ (8 * n) := by
    have := Int.toNat_of_nonneg hpos
    zify
    rw [this]
    exact_mod_cast hlt
  rw [Nat.mod_eq_of_lt hnat]
  exact Int.toNat_of_nonneg hpos

/-- C5: executeInstalledCode fails with InvalidInstalledCodeException when the
address of the wrapper is 0, and then it invokes no code: the result is the
same for every behaviour of the call and the VM is untouched.  When the address
is not 0, an exception that comes out is the one the invoked code ended with or
the one of the failed allocation of the box, so the entry point raises no
InvalidInstalledCodeException of its own. -/
theorem executeInstalledCode_invalid_iff_absent (e : Endian) (call : JavaCall)
    (oom : Option Throwable) (vm : VM) (args : List Oop) (w : InstalledCode) :
    (w.address = 0 →
        executeInstalledCode e call oom vm args w = (.error .InvalidInstalledCodeException, vm))
      ∧ (w.address ≠ 0 → ∀ ex, (executeInstalledCode e call oom vm args w).1 = .error ex →
          (call vm w.address args).1 = .error ex ∨ oom = some ex) := by
  constructor
  · intro h
    simp [executeInstalledCode, h]
  · intro h ex
    unfold executeInstalledCode
    simp only [h, if_false]
    rcases hc : call vm w.address args with ⟨res, vm1⟩
    cases res with
    | error ex1 =>
      intro hex
      left
      simpa using hex
    | ok result =>
      simp only
      split_ifs with h1 h2
      · intro hex; cases hex
      · intro hex; cases hex
      · intro hex
        right
        cases oom with
        | none =>
          exfalso
          cases ht : (vm.code w.address).ret_type <;>
            simp [java_lang_boxing_object.create, ht] at hex
        | some ex1 =>
          simp [java_lang_boxing_object.create] at hex
          rw [hex]

/-- C6: for a wrapper with version 0 and a blob at a non-null address, the
successful installCodeImpl leaves version 1, the invalidateInstalledCodeImpl
that follows leaves address 0 and the code not-entrant, and the
executeInstalledCode after that fails with InvalidInstalledCodeException. -/
theorem install_invalidate_execute (vt : VersionType) (blob : CodeBlob) (w : InstalledCode)
    (vm : VM) (e : Endian) (call : JavaCall) (oom : Option Throwable) (args : List Oop)
    (hb : blob.addr ≠ 0) (hv : w.version = 0) :
    ∃ r w1, installCodeImpl vt .ok blob (some w) = some r ∧ r.result = .ok ∧
      r.installed_code = some w1 ∧ w1.version = 1 ∧ w1.address = blob.addr ∧
      (invalidateInstalledCodeImpl vm w1).2.address = 0 ∧
      ((invalidateInstalledCodeImpl vm w1).1.code blob.addr).is_not_entrant = true ∧
      (executeInstalledCode e call oom (invalidateInstalledCodeImpl vm w1).1 args
          (invalidateInstalledCodeImpl vm w1).2).1 = .error .InvalidInstalledCodeException := by
  have h1 : wrapSigned vt.bits 1 = 1 := by
    cases vt <;> simp [wrapSigned, VersionType.bits]
  have hinv : ∀ w1 : InstalledCode, w1.address = blob.addr →
      ((invalidateInstalledCodeImpl vm w1).1.code blob.addr).is_not_entrant = true := by
    intro w1 ha
    by_cases hl : (vm.code blob.addr).is_not_entrant = false
    · rw [invalidateInstalledCodeImpl_live vm w1 ⟨by rw [ha]; exact hb, by rw [ha]; exact hl⟩]
      simp [VM.VM_Deoptimize, VM.mark_for_deoptimization, nmethod.is_not_entrant, ha]
    · have ht : (vm.code blob.addr).is_not_entrant = true := by
        cases hc : (vm.code blob.addr).is_not_entrant
        · exact absurd hc hl
        · rfl
      rw [invalidateInstalledCodeImpl_skip vm w1 (Or.inr (by rw [ha]; exact ht))]
      exact ht
  have hexec : ∀ w1 : InstalledCode,
      (executeInstalledCode e call oom (invalidateInstalledCodeImpl vm w1).1 args
        (invalidateInstalledCodeImpl vm w1).2).1 = .error .InvalidInstalledCodeException := by
    intro w1
    simp [executeInstalledCode, invalidateInstalledCodeImpl_wrapper]
  cases hh : w.hotspot with
  | none =>
    refine ⟨⟨.ok, some blob, some ⟨blob.addr, 1, none⟩⟩, ⟨blob.addr, 1, none⟩, ?_, rfl, rfl, rfl,
      rfl, rfl, hinv _ rfl, hexec _⟩
    simp [installCodeImpl, installCodeImpl.finish, CodeInstaller.install, hh, hv, h1]
  | some hs =>
    refine ⟨⟨.ok, some blob, some ⟨blob.addr, 1, some ⟨blob.size, blob.code_begin, blob.code_size⟩⟩⟩,
      ⟨blob.addr, 1, some ⟨blob.size, blob.code_begin, blob.code_size⟩⟩, ?_, rfl, rfl, rfl,
      rfl, rfl, hinv _ rfl, hexec _⟩
    simp [installCodeImpl, installCodeImpl.finish, CodeInstaller.install, hh, hv, h1]

/-- Witness of C6: a fresh nmethod wrapper, a blob at address 4096 and a code
cache of live nmethods. -/
theorem install_invalidate_execute_witness :
    ((CodeBlob.mk 4096 64 4128 32).addr ≠ 0 ∧ (InstalledCode.mk 0 0 (some ⟨0, 0, 0⟩)).version = 0) ∧
    ∃ r w1, installCodeImpl .jlong .ok ⟨4096, 64, 4128, 32⟩ (some ⟨0, 0, some ⟨0, 0, 0⟩⟩) = some r ∧
      r.result = .ok ∧ r.installed_code = some w1 ∧ w1.version = 1 ∧
      w1.address = (CodeBlob.mk 4096 64 4128 32).addr ∧
      (invalidateInstalledCodeImpl (VM.mk (fun _ => ⟨false, false, .T_INT⟩) []) w1).2.address = 0 ∧
      ((invalidateInstalledCodeImpl (VM.mk (fun _ => ⟨false, false, .T_INT⟩) []) w1).1.code
          (CodeBlob.mk 4096 64 4128 32).addr).is_not_entrant = true ∧
      (executeInstalledCode .little (fun vm _ _ => (.ok ⟨[7, 0, 0, 0, 0, 0, 0, 0]⟩, vm)) none
          (invalidateInstalledCodeImpl (VM.mk (fun _ => ⟨false, false, .T_INT⟩) []) w1).1 []
          (invalidateInstalledCodeImpl (VM.mk (fun _ => ⟨false, false, .T_INT⟩) []) w1).2).1
        = .error .InvalidInstalledCodeException :=
  ⟨⟨by decide, rfl⟩,
    install_invalidate_execute .jlong ⟨4096, 64, 4128, 32⟩ ⟨0, 0, some ⟨0, 0, 0⟩⟩
      (VM.mk (fun _ => ⟨false, false, .T_INT⟩) []) .little
      (fun vm _ _ => (.ok ⟨[7, 0, 0, 0, 0, 0, 0, 0]⟩, vm)) none [] (by decide) rfl⟩

/-- C9: when the address of the wrapper is not 0, the invoked code returns
normally with the 32-bit value r in the union and the box can be allocated,
executeInstalledCode returns: for return type byte a box of r truncated to 8
bits (signed), for boolean of r truncated to 8 bits (unsigned), for char of r
truncated to 16 bits (unsigned), for short of r truncated to 16 bits (signed),
for int of r unchanged; for void null; for an object or array type the
reference the call left, not boxed.  This holds for both byte orders. -/
theorem executeInstalledCode_boxes_narrowed (e : Endian) (call : JavaCall) (vm vm1 : VM)
    (args : List Oop) (w : InstalledCode) (result : jvalue)
    (h0 : w.address ≠ 0) (hcall : call vm w.address args = (.ok result, vm1)) :
    ((vm.code w.address).ret_type = .T_BYTE →
        executeInstalledCode e call none vm args w
          = (.ok (some (.box .T_BYTE (wrapSigned 8 (result.i e)))), vm1))
      ∧ ((vm.code w.address).ret_type = .T_BOOLEAN →
        executeInstalledCode e call none vm args w
          = (.ok (some (.box .T_BOOLEAN (wrapUnsigned 8 (result.i e)))), vm1))
      ∧ ((vm.code w.address).ret_type = .T_CHAR →
        executeInstalledCode e call none vm args w
          = (.ok (some (.box .T_CHAR (wrapUnsigned 16 (result.i e)))), vm1))
      ∧ ((vm.code w.address).ret_type = .T_SHORT →
        executeInstalledCode e call none vm args w
          = (.ok (some (.box .T_SHORT (wrapSigned 16 (result.i e)))), vm1))
      ∧ ((vm.code w.address).ret_type = .T_INT →
        executeInstalledCode e call none vm args w = (.ok (some (.box .T_INT (result.i e))), vm1))
      ∧ ((vm.code w.address).ret_type = .T_VOID →
        executeInstalledCode e call none vm args w = (.ok none, vm1))
      ∧ (((vm.code w.address).ret_type = .T_OBJECT ∨ (vm.code w.address).ret_type = .T_ARRAY) →
        executeInstalledCode e call none vm args w
          = (.ok (if result.l e = 0 then none else some (.ref (result.l e))), vm1)) := by
  have hb := jvalue.store_read e 1 result
  have hc := jvalue.store_read e 2 result
  refine ⟨fun ht => ?_, fun ht => ?_, fun ht => ?_, fun ht => ?_, fun ht => ?_, fun ht => ?_,
    fun ht => ?_⟩
  · simp only [executeInstalledCode, h0, hcall, ht, executeInstalledCode.narrow,
      java_lang_boxing_object.create, jvalue.b, hb]
    simp [wrapSigned]
  · simp only [executeInstalledCode, h0, hcall, ht, executeInstalledCode.narrow,
      java_lang_boxing_object.create, jvalue.z, hb]
    simp [wrapUnsigned]
  · simp only [executeInstalledCode, h0, hcall, ht, executeInstalledCode.narrow,
      java_lang_boxing_object.create, jvalue.c, hc]
    simp [wrapUnsigned]
  · simp only [executeInstalledCode, h0, hcall, ht, executeInstalledCode.narrow,
      java_lang_boxing_object.create, jvalue.s, hc]
    simp [wrapSigned]
  · simp [executeInstalledCode, h0, hcall, ht, executeInstalledCode.narrow,
      java_lang_boxing_object.create]
  · simp [executeInstalledCode, h0, hcall, ht]
  · rcases ht with ht | ht <;> simp [executeInstalledCode, h0, hcall, ht]

/-- Witness of C9: a method returning byte whose call leaves 456 in the union
yields a box of -56 on a little-endian host. -/
theorem executeInstalledCode_boxes_narrowed_witness :
    ((InstalledCode.mk 4096 1 none).address ≠ 0
      ∧ (fun (vm : VM) (_ : Int) (_ : List Oop) =>
            ((Except.ok ⟨[200, 1, 0, 0, 0, 0, 0, 0]⟩ : Except Throwable jvalue), vm))
          (VM.mk (fun _ => ⟨false, false, .T_BYTE⟩) []) (InstalledCode.mk 4096 1 none).address []
          = (.ok ⟨[200, 1, 0, 0, 0, 0, 0, 0]⟩, VM.mk (fun _ => ⟨false, false, .T_BYTE⟩) []))
    ∧ executeInstalledCode .little (fun vm _ _ => (.ok ⟨[200, 1, 0, 0, 0, 0, 0, 0]⟩, vm)) none
          (VM.mk (fun _ => ⟨false, false, .T_BYTE⟩) []) [] ⟨4096, 1, none⟩
        = (.ok (some (.box .T_BYTE (-56))), VM.mk (fun _ => ⟨false, false, .T_BYTE⟩) []) :=
  ⟨⟨by decide, rfl⟩,
    (executeInstalledCode_boxes_narrowed .little
      (fun vm _ _ => (.ok ⟨[200, 1, 0, 0, 0, 0, 0, 0]⟩, vm))
      (VM.mk (fun _ => ⟨false, false, .T_BYTE⟩) []) (VM.mk (fun _ => ⟨false, false, .T_BYTE⟩) [])
      [] ⟨4096, 1, none⟩ ⟨[200, 1, 0, 0, 0, 0, 0, 0]⟩ (by decide) rfl).1 rfl⟩

/-! ## Properties of getBytecode -/

theorem AgreesBelow.refl (k : Nat) (a : List Nat) : AgreesBelow k a a := ⟨rfl, fun _ _ => rfl⟩

theorem AgreesBelow.trans {k : Nat} {a b c : List Nat} (h1 : AgreesBelow k a b)
    (h2 : AgreesBelow k b c) : AgreesBelow k a c :=
  ⟨h1.1.trans h2.1, fun j hj => (h1.2 j hj).trans (h2.2 j hj)⟩

theorem AgreesBelow.mono {k n : Nat} {a b : List Nat} (h : AgreesBelow k a b) (hn : n ≤ k) :
    AgreesBelow n a b :=
  ⟨h.1, fun j hj => h.2 j (Nat.lt_of_lt_of_le hj hn)⟩

/-- A store at an index from `k` on changes nothing below `k`. -/
theorem AgreesBelow.of_set (k pos v : Nat) (a : List Nat) (h : k ≤ pos) :
    AgreesBelow k (a.set pos v) a :=
  ⟨List.length_set a pos v, fun j hj => List.getElem?_set_ne (by omega)⟩

/-- A block of bytes stored from an index from `k` on changes nothing below `k`. -/
theorem AgreesBelow.of_writeBytes (k pos : Nat) (src a : List Nat) (h : k ≤ pos) :
    AgreesBelow k (writeBytes a pos src) a := by
  induction src generalizing a pos with
  | nil => exact AgreesBelow.refl k a
  | cons b bs ih =>
    rw [JVMCI.writeBytes]
    exact (ih (pos + 1) (a.set pos b) (by omega)).trans (AgreesBelow.of_set k pos b a h)

/-- The body of the loop, after it stored the opcode at the bci of the
instruction, stores only behind that bci. -/
theorem getBytecode.body_agrees (B : Bytecodes) (e : Endian) (m : Method) (s : BytecodeStream)
    (rc : List Nat) :
    AgreesBelow (s.bci + 1) (getBytecode.body B e m s rc)
      (rc.set s.bci ((if s.is_wide then Bytecodes._wide else s.code) % 256)) := by
  simp only [getBytecode.body]
  split_ifs <;>
    repeat first
      | exact AgreesBelow.refl _ _
      | refine (AgreesBelow.of_writeBytes _ _ _ _ (Nat.le_refl _)).trans ?_
      | refine (AgreesBelow.of_set _ _ _ _ (Nat.le_refl _)).trans ?_

/-- Invariant of the loop of getBytecode: when the stream ends behind the code
and every instruction lies ahead of its end, the loop ends with enough fuel,
stores nothing below its starting position, and leaves at every bci it visits
the opcode it restored there. -/
theorem getBytecode.loop_spec (B : Bytecodes) (e : Endian) (m : Method)
    (hend : ∀ nb, m.code_size ≤ nb → B.next m nb = none)
    (hstep : ∀ nb s, B.next m nb = some s → s.bci = nb ∧ nb < s.next_bci) :
    ∀ (fuel nb : Nat) (rc : List Nat), m.code_size ≤ nb + fuel → rc.length = m.code_size →
      ∃ out, getBytecode.loop B e m fuel nb rc = some out ∧ AgreesBelow nb out rc ∧
        ∀ bci, bci ∈ BytecodeStream.bcis B m fuel nb →
          ∃ s, B.next m bci = some s ∧
            out[bci]? = some ((if s.is_wide then Bytecodes._wide else s.code) % 256) := by
  intro fuel
  induction fuel with
  | zero =>
    intro nb rc hf _
    have hn := hend nb (by omega)
    exact ⟨rc, by simp [getBytecode.loop, hn], AgreesBelow.refl _ _,
      by simp [BytecodeStream.bcis]⟩
  | succ fuel ih =>
    intro nb rc hf hlen
    cases hn : B.next m nb with
    | none =>
      exact ⟨rc, by simp [getBytecode.loop, hn], AgreesBelow.refl _ _,
        by simp [BytecodeStream.bcis, hn]⟩
    | some s =>
      obtain ⟨hbci, hnext⟩ := hstep nb s hn
      have hlt : nb < m.code_size := by
        by_contra hge
        rw [hend nb (by omega)] at hn
        cases hn
      have hbody := getBytecode.body_agrees B e m s rc
      have hblen : (getBytecode.body B e m s rc).length = m.code_size := by
        rw [hbody.1, List.length_set, hlen]
      obtain ⟨out, hout, hagree, hops⟩ :=
        ih s.next_bci (getBytecode.body B e m s rc) (by omega) hblen
      have hstep1 : AgreesBelow (nb + 1) out
          (rc.set nb ((if s.is_wide then Bytecodes._wide else s.code) % 256)) := by
        have h1 := hagree.mono (show nb + 1 ≤ s.next_bci by omega)
        rw [hbci] at hbody
        exact h1.trans hbody
      refine ⟨out, by simp [getBytecode.loop, hn, hout], ?_, ?_⟩
      · exact (hstep1.mono (Nat.le_succ nb)).trans (AgreesBelow.of_set nb nb _ rc (Nat.le_refl _))
      · intro bci hmem
        simp only [BytecodeStream.bcis, hn, List.mem_cons] at hmem
        rcases hmem with hmem | hmem
        · refine ⟨s, by rw [hmem, hbci]; exact hn, ?_⟩
          rw [hmem, hbci, hstep1.2 nb (Nat.lt_succ_self nb)]
          exact List.getElem?_set_self (by omega)
        · exact hops bci hmem

/-- More fuel does not change the result of the loop. -/
theorem getBytecode.loop_fuel (B : Bytecodes) (e : Endian) (m : Method) :
    ∀ (fuel nb : Nat) (rc out : List Nat), getBytecode.loop B e m fuel nb rc = some out →
      ∀ k, getBytecode.loop B e m (fuel + k) nb rc = some out := by
  intro fuel
  induction fuel with
  | zero =>
    intro nb rc out h k
    cases hn : B.next m nb with
    | none =>
      simp only [getBytecode.loop, hn] at h
      cases k <;> simp [getBytecode.loop, hn, h]
    | some s => simp [getBytecode.loop, hn] at h
  | succ fuel ih =>
    intro nb rc out h k
    have hk : fuel + 1 + k = (fuel + k) + 1 := by omega
    rw [hk]
    cases hn : B.next m nb with
    | none =>
      simp only [getBytecode.loop, hn] at h
      simp [getBytecode.loop, hn, h]
    | some s =>
      simp only [getBytecode.loop, hn] at h
      simp only [getBytecode.loop, hn]
      exact ih _ _ _ h k

/-- With a stream that ends behind the code and advances, and enough fuel,
`bcis` lists every instruction start the stream reaches. -/
theorem BytecodeStream.bcis_complete (B : Bytecodes) (m : Method)
    (hend : ∀ nb, m.code_size ≤ nb → B.next m nb = none)
    (hstep : ∀ nb s, B.next m nb = some s → s.bci = nb ∧ nb < s.next_bci)
    (a b : Nat) (hr : BytecodeStream.Reaches B m a b) :
    ∀ fuel s, m.code_size ≤ a + fuel → B.next m b = some s →
      b ∈ BytecodeStream.bcis B m fuel a := by
  induction hr with
  | here a =>
    intro fuel s hf hs
    have hlt : a < m.code_size := by
      by_contra hge
      rw [hend a (by omega)] at hs
      cases hs
    cases fuel with
    | zero => omega
    | succ fuel => simp [BytecodeStream.bcis, hs, (hstep a s hs).1]
  | step a b s hn _ ih =>
    intro fuel s1 hf hs
    have hlt : a < m.code_size := by
      by_contra hge
      rw [hend a (by omega)] at hn
      cases hn
    have hnext := (hstep a s hn).2
    cases fuel with
    | zero => omega
    | succ fuel =>
      simp only [BytecodeStream.bcis, hn, List.mem_cons]
      exact Or.inr (ih fuel s1 (by omega) hs)

/-- C10: for a rewritten method over which the stream ends behind the code,
advances at every instruction and reports a Java opcode for every instruction,
getBytecode returns (with fuel for code-size instructions) an array whose
length is the code size of the method, and at every instruction start the byte
is the Java opcode of the instruction, the wide prefix for a wide instruction:
a Java bytecode, never one of the codes the rewriter introduces. -/
theorem getBytecode_restores_java_opcodes (B : Bytecodes) (e : Endian) (m : Method)
    (hrw : m.is_rewritten = true)
    (hend : ∀ nb, m.code_size ≤ nb → B.next m nb = none)
    (hstep : ∀ nb s, B.next m nb = some s → s.bci = nb ∧ nb < s.next_bci)
    (hjava : ∀ bci s, bci ∈ BytecodeStream.bcis B m m.code_size 0 → B.next m bci = some s →
      Bytecodes.is_java_code s.code = true) :
    ∃ out, (∀ fuel, m.code_size ≤ fuel → getBytecode B e none m fuel = some (.ok out)) ∧
      out.length = m.code_size ∧
      ∀ bci s, bci ∈ BytecodeStream.bcis B m m.code_size 0 → B.next m bci = some s →
        out[bci]? = some (if s.is_wide then Bytecodes._wide else s.code) ∧
        Bytecodes.is_java_code (if s.is_wide then Bytecodes._wide else s.code) = true := by
  obtain ⟨out, hout, hagree, hops⟩ :=
    getBytecode.loop_spec B e m hend hstep m.code_size 0 (List.replicate m.code_size 0)
      (by omega) (List.length_replicate _ _)
  refine ⟨out, ?_, by rw [hagree.1, List.length_replicate], ?_⟩
  · intro fuel hf
    obtain ⟨k, rfl⟩ := Nat.exists_eq_add_of_le hf
    simp [getBytecode, hrw, getBytecode.loop_fuel B e m _ _ _ _ hout k]
  · intro bci s hmem hs
    obtain ⟨s1, hs1, hbyte⟩ := hops bci hmem
    rw [hs] at hs1
    cases hs1
    have hcode : Bytecodes.is_java_code (if s.is_wide then Bytecodes._wide else s.code) = true := by
      cases hw : s.is_wide
      · simpa using hjava bci s hmem hs
      · simp [Bytecodes.is_java_code, Bytecodes._wide, Bytecodes.number_of_java_codes]
    refine ⟨?_, hcode⟩
    rw [hbyte, Nat.mod_eq_of_lt]
    have : (if s.is_wide then Bytecodes._wide else s.code) < Bytecodes.number_of_java_codes := by
      simpa [Bytecodes.is_java_code] using hcode
    unfold Bytecodes.number_of_java_codes at this
    omega

/-- The sample stream ends behind the code of the sample method. -/
theorem Bytecodes.sample_ends (nb : Nat) (h : Method.sample.code_size ≤ nb) :
    Bytecodes.sample.next Method.sample nb = none := by
  simp [Bytecodes.sample, Bytecodes.sample_next, h]

/-- The sample stream advances at every instruction of the sample method. -/
theorem Bytecodes.sample_advances (nb : Nat) (s : BytecodeStream)
    (h : Bytecodes.sample.next Method.sample nb = some s) : s.bci = nb ∧ nb < s.next_bci := by
  have hlen : ∀ bci, bci < 10 → 0 < Bytecodes.sample_length Method.sample bci := by decide
  simp only [Bytecodes.sample, Bytecodes.sample_next] at h
  split_ifs at h with h1 h2
  · cases h
    have := hlen nb (by simpa [Method.code_size, Method.sample] using h1)
    exact ⟨rfl, by simp; omega⟩
  · cases h
    have := hlen nb (by simpa [Method.code_size, Method.sample] using h1)
    exact ⟨rfl, by simp; omega⟩

/-- The sample stream reports a Java opcode at every instruction of the sample
method. -/
theorem Bytecodes.sample_java (bci : Nat) (s : BytecodeStream)
    (hmem : bci ∈ BytecodeStream.bcis Bytecodes.sample Method.sample Method.sample.code_size 0)
    (h : Bytecodes.sample.next Method.sample bci = some s) :
    Bytecodes.is_java_code s.code = true := by
  have hall : ∀ b, b ∈ BytecodeStream.bcis Bytecodes.sample Method.sample
      Method.sample.code_size 0 →
      ((Bytecodes.sample.next Method.sample b).map fun t => Bytecodes.is_java_code t.code)
        = some true := by decide
  have := hall bci hmem
  rw [h] at this
  simpa using this

/-- Witness of C10: the sample method under the sample stream. -/
theorem getBytecode_restores_java_opcodes_witness :
    (Method.sample.is_rewritten = true
      ∧ (∀ nb, Method.sample.code_size ≤ nb → Bytecodes.sample.next Method.sample nb = none)
      ∧ (∀ nb s, Bytecodes.sample.next Method.sample nb = some s → s.bci = nb ∧ nb < s.next_bci)
      ∧ (∀ bci s,
          bci ∈ BytecodeStream.bcis Bytecodes.sample Method.sample Method.sample.code_size 0 →
          Bytecodes.sample.next Method.sample bci = some s →
          Bytecodes.is_java_code s.code = true))
    ∧ ∃ out, (∀ fuel, Method.sample.code_size ≤ fuel →
        getBytecode Bytecodes.sample .little none Method.sample fuel = some (.ok out)) ∧
      out.length = Method.sample.code_size ∧
      ∀ bci s, bci ∈ BytecodeStream.bcis Bytecodes.sample Method.sample Method.sample.code_size 0 →
        Bytecodes.sample.next Method.sample bci = some s →
        out[bci]? = some (if s.is_wide then Bytecodes._wide else s.code) ∧
        Bytecodes.is_java_code (if s.is_wide then Bytecodes._wide else s.code) = true :=
  ⟨⟨rfl, Bytecodes.sample_ends, Bytecodes.sample_advances, Bytecodes.sample_java⟩,
    getBytecode_restores_java_opcodes Bytecodes.sample .little Method.sample rfl
      Bytecodes.sample_ends Bytecodes.sample_advances Bytecodes.sample_java⟩


/-! ## Operands in the result of getBytecode -/

theorem getElem?_writeBytes (dst : List Nat) (pos : Nat) (src : List Nat) (j : Nat) :
    (writeBytes dst pos src)[j]? =
      if pos ≤ j ∧ j < pos + src.length ∧ j < dst.length then src[j - pos]? else dst[j]? := by
  induction src generalizing dst pos with
  | nil =>
    rw [writeBytes, if_neg (by simp only [List.length_nil]; omega)]
  | cons b bs ih =>
    rw [writeBytes, ih]
    simp only [List.length_set, List.length_cons]
    by_cases h1 : pos + 1 ≤ j ∧ j < pos + 1 + bs.length ∧ j < dst.length
    · rw [if_pos h1, if_pos (by omega)]
      obtain ⟨k, hk⟩ : ∃ k, j - pos = k + 1 := ⟨j - pos - 1, by omega⟩
      rw [hk, List.getElem?_cons_succ]
      congr 1
      omega
    · rw [if_neg h1]
      by_cases h2 : j = pos
      · subst h2
        by_cases h3 : j < dst.length
        · rw [if_pos (by omega), List.getElem?_set_self h3]
          simp
        · rw [if_neg (by omega), List.getElem?_set, if_pos rfl, if_neg h3]
          exact (List.getElem?_eq_none (by omega)).symm
      · rw [if_neg (by omega), List.getElem?_set_ne (by omega)]

theorem getElem?_readBytes (src : List Nat) (pos n i : Nat) :
    (readBytes src pos n)[i]? = if i < n then src[pos + i]? else none := by
  simp [readBytes, List.getElem?_take, List.getElem?_drop]

theorem readBytes_length (src : List Nat) (pos n : Nat) :
    (readBytes src pos n).length = min n (src.length - pos) := by
  simp [readBytes]

theorem readBytes_writeBytes (dst : List Nat) (pos : Nat) (src : List Nat) (n : Nat)
    (hn : n ≤ src.length) (hfit : pos + src.length ≤ dst.length) :
    readBytes (writeBytes dst pos src) pos n = src.take n := by
  apply List.ext_getElem?
  intro i
  rw [getElem?_readBytes, getElem?_writeBytes, List.getElem?_take]
  by_cases hi : i < n
  · rw [if_pos hi, if_pos (by omega), if_pos hi]
    congr 1
    omega
  · rw [if_neg hi, if_neg hi]

theorem readBytes_set_ne (l : List Nat) (i v pos n : Nat) (h : i < pos) :
    readBytes (l.set i v) pos n = readBytes l pos n := by
  apply List.ext_getElem?
  intro k
  rw [getElem?_readBytes, getElem?_readBytes, List.getElem?_set_ne (by omega)]

theorem readBytes_take (src : List Nat) (pos n k : Nat) (h : k ≤ n) :
    (readBytes src pos n).take k = readBytes src pos k := by
  simp [readBytes, List.take_take, Nat.min_eq_left h]

theorem beBytes_length (n x : Nat) : (beBytes n x).length = n := by
  simp [beBytes, leBytes_length]

/-- Arrays that agree below `k` hold the same bytes in a range that ends there. -/
theorem AgreesBelow.readBytes_eq {k : Nat} {a b : List Nat} (h : AgreesBelow k a b)
    (pos n : Nat) (hk : pos + n ≤ k) : readBytes a pos n = readBytes b pos n := by
  apply List.ext_getElem?
  intro i
  rw [getElem?_readBytes, getElem?_readBytes]
  by_cases hi : i < n
  · rw [if_pos hi, if_pos hi]
    exact h.2 _ (by omega)
  · rw [if_neg hi, if_neg hi]

/-- The array after the first two statements of the loop body (lines 102-105)
holds the operand bytes of the instruction. -/
theorem getBytecode.copied_operands (m : Method) (rc : List Nat) (bci len v k : Nat)
    (hrc : rc.length = m.code_size) (hfit : bci + len ≤ m.code_size) (hk : k + 1 ≤ len) :
    readBytes (writeBytes (rc.set bci v) (bci + 1) (readBytes m.code (bci + 1) (len - 1)))
      (bci + 1) k = readBytes m.code (bci + 1) k := by
  have hl : (readBytes m.code (bci + 1) (len - 1)).length = len - 1 := by
    rw [readBytes_length]
    unfold Method.code_size at hfit
    omega
  rw [readBytes_writeBytes _ _ _ k (by omega) (by rw [hl, List.length_set, hrc]; omega)]
  exact readBytes_take _ _ _ _ (by omega)


theorem writeBytes_length (dst : List Nat) (pos : Nat) (src : List Nat) :
    (writeBytes dst pos src).length = dst.length := by
  induction src generalizing dst pos with
  | nil => rfl
  | cons b bs ih => simp [writeBytes, ih]

/-- Bytes stored inside the array are read back as they were stored. -/
theorem readBytes_writeBytes_full (dst : List Nat) (pos : Nat) (src : List Nat) (n : Nat)
    (hn : src.length = n) (hfit : pos + n ≤ dst.length) :
    readBytes (writeBytes dst pos src) pos n = src := by
  rw [readBytes_writeBytes dst pos src n (by omega) (by omega), ← hn, List.take_length]

/-- Length of the array after the first two statements of the loop body. -/
theorem getBytecode.copied_length (m : Method) (rc : List Nat) (bci len v : Nat) :
    (writeBytes (rc.set bci v) (bci + 1) (readBytes m.code (bci + 1) (len - 1))).length
      = rc.length := by
  rw [writeBytes_length, List.length_set]

/-- Effect of the loop body on the operand of an instruction with a 16-bit
constant pool index. -/
theorem getBytecode.body_u2 (B : Bytecodes) (e : Endian) (m : Method) (s : BytecodeStream)
    (rc : List Nat) (hrc : rc.length = m.code_size) (hfit : s.next_bci ≤ m.code_size)
    (hlen : s.bci + 3 ≤ s.next_bci) (hcode : getBytecode.has_u2_index B s.code)
    (h1 : s.raw_code ≠ B._fast_aldc) (h2 : s.raw_code ≠ B._fast_aldc_w) :
    readBytes (getBytecode.body B e m s rc) (s.bci + 1) 2
      = beBytes 2 (nativeVal e (readBytes m.code (s.bci + 1) 2)) := by
  have hsz : s.instruction_size > 1 := by unfold BytecodeStream.instruction_size; omega
  have hcopy := getBytecode.copied_operands m rc s.bci s.instruction_size
    ((if s.is_wide then Bytecodes._wide else s.code) % 256) 2 hrc
    (by unfold BytecodeStream.instruction_size; omega)
    (by unfold BytecodeStream.instruction_size; omega)
  unfold getBytecode.has_u2_index at hcode
  simp only [getBytecode.body, hsz, if_true, hcode, h1, h2, if_false, hcopy]
  exact readBytes_writeBytes_full _ _ _ 2 (beBytes_length _ _)
    (by rw [getBytecode.copied_length, hrc]; omega)

/-- Effect of the loop body on the operand of `invokedynamic`. -/
theorem getBytecode.body_u4 (B : Bytecodes) (e : Endian) (m : Method) (s : BytecodeStream)
    (rc : List Nat) (hrc : rc.length = m.code_size) (hfit : s.next_bci ≤ m.code_size)
    (hlen : s.bci + 5 ≤ s.next_bci) (hcode : s.code = Bytecodes._invokedynamic)
    (hh : B._invokehandle ≠ Bytecodes._invokedynamic)
    (h1 : s.raw_code ≠ B._fast_aldc) (h2 : s.raw_code ≠ B._fast_aldc_w) :
    readBytes (getBytecode.body B e m s rc) (s.bci + 1) 4
      = beBytes 4 (nativeVal e (readBytes m.code (s.bci + 1) 4)) := by
  have hsz : s.instruction_size > 1 := by unfold BytecodeStream.instruction_size; omega
  have hcopy := getBytecode.copied_operands m rc s.bci s.instruction_size
    ((if s.is_wide then Bytecodes._wide else s.code) % 256) 4 hrc
    (by unfold BytecodeStream.instruction_size; omega)
    (by unfold BytecodeStream.instruction_size; omega)
  have hno : ¬ (s.code = Bytecodes._getstatic ∨ s.code = Bytecodes._putstatic
      ∨ s.code = Bytecodes._getfield ∨ s.code = Bytecodes._putfield
      ∨ s.code = Bytecodes._invokevirtual ∨ s.code = Bytecodes._invokespecial
      ∨ s.code = Bytecodes._invokestatic ∨ s.code = Bytecodes._invokeinterface
      ∨ s.code = B._invokehandle) := by
    rw [hcode]
    simp only [Bytecodes._invokedynamic, Bytecodes._getstatic, Bytecodes._putstatic,
      Bytecodes._getfield, Bytecodes._putfield, Bytecodes._invokevirtual,
      Bytecodes._invokespecial, Bytecodes._invokestatic, Bytecodes._invokeinterface] at hh ⊢
    omega
  simp only [getBytecode.body, hsz, if_true, hno, h1, h2, if_false, hcopy]
  rw [if_pos hcode]
  exact readBytes_writeBytes_full _ _ _ 4 (beBytes_length _ _)
    (by rw [getBytecode.copied_length, hrc]; omega)

/-- An instruction without a constant pool index the loop body converts: its
operand bytes are the ones of the internal bytecode. -/
theorem getBytecode.body_plain (B : Bytecodes) (e : Endian) (m : Method) (s : BytecodeStream)
    (rc : List Nat) (hrc : rc.length = m.code_size) (hfit : s.next_bci ≤ m.code_size)
    (hlen : s.bci < s.next_bci) (hcode : ¬ getBytecode.has_u2_index B s.code)
    (hdyn : s.code ≠ Bytecodes._invokedynamic)
    (h1 : s.raw_code ≠ B._fast_aldc) (h2 : s.raw_code ≠ B._fast_aldc_w) :
    readBytes (getBytecode.body B e m s rc) (s.bci + 1) (s.instruction_size - 1)
      = readBytes m.code (s.bci + 1) (s.instruction_size - 1) := by
  unfold getBytecode.has_u2_index at hcode
  by_cases hsz : s.instruction_size > 1
  · have hcopy := getBytecode.copied_operands m rc s.bci s.instruction_size
      ((if s.is_wide then Bytecodes._wide else s.code) % 256) (s.instruction_size - 1) hrc
      (by unfold BytecodeStream.instruction_size; omega) (by omega)
    simp only [getBytecode.body, hsz, if_true, hcode, hdyn, h1, h2, if_false, hcopy]
  · have h0 : s.instruction_size - 1 = 0 := by omega
    rw [h0]
    simp [readBytes]

/-- Effect of the loop body on the operand of `_fast_aldc`. -/
theorem getBytecode.body_fast_aldc (B : Bytecodes) (e : Endian) (m : Method)
    (s : BytecodeStream) (rc : List Nat) (hrc : rc.length = m.code_size)
    (hfit : s.next_bci ≤ m.code_size) (hlen : s.bci + 2 ≤ s.next_bci)
    (hcode : ¬ getBytecode.has_u2_index B s.code) (hdyn : s.code ≠ Bytecodes._invokedynamic)
    (h1 : s.raw_code = B._fast_aldc) :
    (getBytecode.body B e m s rc)[s.bci + 1]?
      = some (m.constants.object_to_cp_index (m.code.getD (s.bci + 1) 0 % 256) % 256) := by
  have hsz : s.instruction_size > 1 := by unfold BytecodeStream.instruction_size; omega
  have hcopy := getBytecode.copied_operands m rc s.bci s.instruction_size
    ((if s.is_wide then Bytecodes._wide else s.code) % 256) 1 hrc
    (by unfold BytecodeStream.instruction_size; omega)
    (by unfold BytecodeStream.instruction_size; omega)
  unfold getBytecode.has_u2_index at hcode
  simp only [getBytecode.body, hsz, if_true, hcode, hdyn, h1, if_false]
  have hget : ∀ l : List Nat, l.getD (s.bci + 1) 0 = ((readBytes l (s.bci + 1) 1)[0]?).getD 0 := by
    intro l
    rw [getElem?_readBytes, if_pos (by omega), List.getD_eq_getElem?_getD]
  refine (List.getElem?_set_self ?_).trans ?_
  · rw [getBytecode.copied_length, hrc]; omega
  · rw [hget, hget m.code, hcopy]

/-- Effect of the loop body on the operand of `_fast_aldc_w`. -/
theorem getBytecode.body_fast_aldc_w (B : Bytecodes) (e : Endian) (m : Method)
    (s : BytecodeStream) (rc : List Nat) (hrc : rc.length = m.code_size)
    (hfit : s.next_bci ≤ m.code_size) (hlen : s.bci + 3 ≤ s.next_bci)
    (hcode : ¬ getBytecode.has_u2_index B s.code) (hdyn : s.code ≠ Bytecodes._invokedynamic)
    (h1 : s.raw_code ≠ B._fast_aldc) (h2 : s.raw_code = B._fast_aldc_w) :
    readBytes (getBytecode.body B e m s rc) (s.bci + 1) 2
      = beBytes 2 (m.constants.object_to_cp_index
          (nativeVal e (readBytes m.code (s.bci + 1) 2))) := by
  have hsz : s.instruction_size > 1 := by unfold BytecodeStream.instruction_size; omega
  have hcopy := getBytecode.copied_operands m rc s.bci s.instruction_size
    ((if s.is_wide then Bytecodes._wide else s.code) % 256) 2 hrc
    (by unfold BytecodeStream.instruction_size; omega)
    (by unfold BytecodeStream.instruction_size; omega)
  unfold getBytecode.has_u2_index at hcode
  have hne : B._fast_aldc_w ≠ B._fast_aldc := h2 ▸ h1
  simp only [getBytecode.body, hsz, if_true, hcode, hdyn, h2, hne, if_false, hcopy]
  refine readBytes_writeBytes_full _ _ _ 2 (beBytes_length _ _) ?_
  rw [getBytecode.copied_length, hrc]
  omega

/-- Invariant of the loop of getBytecode, per instruction: the result agrees,
up to the end of every instruction the loop visits, with what the loop body
left for that instruction. -/
theorem getBytecode.loop_frames (B : Bytecodes) (e : Endian) (m : Method)
    (hend : ∀ nb, m.code_size ≤ nb → B.next m nb = none)
    (hstep : ∀ nb s, B.next m nb = some s → s.bci = nb ∧ nb < s.next_bci) :
    ∀ (fuel nb : Nat) (rc : List Nat), m.code_size ≤ nb + fuel → rc.length = m.code_size →
      ∃ out, getBytecode.loop B e m fuel nb rc = some out ∧ AgreesBelow nb out rc ∧
        ∀ bci, bci ∈ BytecodeStream.bcis B m fuel nb →
          ∃ s rc1, B.next m bci = some s ∧ rc1.length = m.code_size ∧
            AgreesBelow s.next_bci out (getBytecode.body B e m s rc1) := by
  intro fuel
  induction fuel with
  | zero =>
    intro nb rc hf _
    have hn := hend nb (by omega)
    exact ⟨rc, by simp [getBytecode.loop, hn], AgreesBelow.refl _ _,
      by simp [BytecodeStream.bcis]⟩
  | succ fuel ih =>
    intro nb rc hf hlen
    cases hn : B.next m nb with
    | none =>
      exact ⟨rc, by simp [getBytecode.loop, hn], AgreesBelow.refl _ _,
        by simp [BytecodeStream.bcis, hn]⟩
    | some s =>
      obtain ⟨hbci, hnext⟩ := hstep nb s hn
      have hbody := getBytecode.body_agrees B e m s rc
      have hblen : (getBytecode.body B e m s rc).length = m.code_size := by
        rw [hbody.1, List.length_set, hlen]
      obtain ⟨out, hout, hagree, hops⟩ :=
        ih s.next_bci (getBytecode.body B e m s rc) (by omega) hblen
      refine ⟨out, by simp [getBytecode.loop, hn, hout], ?_, ?_⟩
      · have h1 := (hagree.mono (show nb ≤ s.next_bci by omega)).trans
          (hbody.mono (show nb ≤ s.bci + 1 by omega))
        exact h1.trans (AgreesBelow.of_set nb s.bci _ rc (by omega))
      · intro bci hmem
        simp only [BytecodeStream.bcis, hn, List.mem_cons] at hmem
        rcases hmem with hmem | hmem
        · exact ⟨s, rc, by rw [hmem, hbci]; exact hn, hlen, hagree⟩
        · exact hops bci hmem

/-- The result of getBytecode, per instruction: getBytecode returns, and its
result agrees up to the end of every instruction with what the loop body left
for that instruction. -/
theorem getBytecode.result_frames (B : Bytecodes) (e : Endian) (m : Method)
    (hrw : m.is_rewritten = true)
    (hend : ∀ nb, m.code_size ≤ nb → B.next m nb = none)
    (hstep : ∀ nb s, B.next m nb = some s → s.bci = nb ∧ nb < s.next_bci) :
    ∃ out, (∀ fuel, m.code_size ≤ fuel → getBytecode B e none m fuel = some (.ok out)) ∧
      ∀ bci s, bci ∈ BytecodeStream.bcis B m m.code_size 0 → B.next m bci = some s →
        s.bci = bci ∧ ∃ rc1, rc1.length = m.code_size ∧
          AgreesBelow s.next_bci out (getBytecode.body B e m s rc1) := by
  obtain ⟨out, hout, _, hops⟩ :=
    getBytecode.loop_frames B e m hend hstep m.code_size 0 (List.replicate m.code_size 0)
      (by omega) (List.length_replicate _ _)
  refine ⟨out, ?_, ?_⟩
  · intro fuel hf
    obtain ⟨k, rfl⟩ := Nat.exists_eq_add_of_le hf
    simp [getBytecode, hrw, getBytecode.loop_fuel B e m _ _ _ _ hout k]
  · intro bci s hmem hs
    obtain ⟨s1, rc1, hs1, hl, hag⟩ := hops bci hmem
    rw [hs] at hs1
    cases hs1
    exact ⟨(hstep bci s hs).1, rc1, hl, hag⟩

/-- C11: for a rewritten method over which the stream ends behind the code and
advances, getBytecode returns an array in which, for every instruction that
lies within the code and is not a rewritten ldc: when the opcode the stream
reports is getstatic, putstatic, getfield, putfield, invokevirtual,
invokespecial, invokestatic, invokeinterface or invokehandle (3 bytes or more),
the two bytes at bci+1 are the big-endian encoding of the 16-bit value the
internal bytecode holds there in the byte order of the host; when it is
invokedynamic (5 bytes or more), the four bytes at bci+1 are the big-endian
encoding of the 32-bit value in host order.  The byte order of the host is
arbitrary. -/
theorem getBytecode_big_endian_indexes (B : Bytecodes) (e : Endian) (m : Method)
    (hrw : m.is_rewritten = true)
    (hend : ∀ nb, m.code_size ≤ nb → B.next m nb = none)
    (hstep : ∀ nb s, B.next m nb = some s → s.bci = nb ∧ nb < s.next_bci) :
    ∃ out, (∀ fuel, m.code_size ≤ fuel → getBytecode B e none m fuel = some (.ok out)) ∧
      ∀ bci s, bci ∈ BytecodeStream.bcis B m m.code_size 0 → B.next m bci = some s →
        s.next_bci ≤ m.code_size → s.raw_code ≠ B._fast_aldc → s.raw_code ≠ B._fast_aldc_w →
        (getBytecode.has_u2_index B s.code → bci + 3 ≤ s.next_bci →
          readBytes out (bci + 1) 2 = beBytes 2 (nativeVal e (readBytes m.code (bci + 1) 2)))
        ∧ (s.code = Bytecodes._invokedynamic → B._invokehandle ≠ Bytecodes._invokedynamic →
          bci + 5 ≤ s.next_bci →
          readBytes out (bci + 1) 4 = beBytes 4 (nativeVal e (readBytes m.code (bci + 1) 4))) := by
  obtain ⟨out, hout, hfr⟩ := getBytecode.result_frames B e m hrw hend hstep
  refine ⟨out, hout, ?_⟩
  intro bci s hmem hs hfit h1 h2
  obtain ⟨hbci, rc1, hl, hag⟩ := hfr bci s hmem hs
  subst hbci
  constructor
  · intro hcode hlen
    rw [hag.readBytes_eq (s.bci + 1) 2 (by omega)]
    exact getBytecode.body_u2 B e m s rc1 hl hfit hlen hcode h1 h2
  · intro hcode hh hlen
    rw [hag.readBytes_eq (s.bci + 1) 4 (by omega)]
    exact getBytecode.body_u4 B e m s rc1 hl hfit hlen hcode hh h1 h2

/-- Witness of C11: the sample method on a little-endian host. -/
theorem getBytecode_big_endian_indexes_witness :
    (Method.sample.is_rewritten = true
      ∧ (∀ nb, Method.sample.code_size ≤ nb → Bytecodes.sample.next Method.sample nb = none)
      ∧ (∀ nb s, Bytecodes.sample.next Method.sample nb = some s → s.bci = nb ∧ nb < s.next_bci))
    ∧ ∃ out, (∀ fuel, Method.sample.code_size ≤ fuel →
        getBytecode Bytecodes.sample .little none Method.sample fuel = some (.ok out)) ∧
      ∀ bci s, bci ∈ BytecodeStream.bcis Bytecodes.sample Method.sample Method.sample.code_size 0 →
        Bytecodes.sample.next Method.sample bci = some s →
        s.next_bci ≤ Method.sample.code_size → s.raw_code ≠ Bytecodes.sample._fast_aldc →
        s.raw_code ≠ Bytecodes.sample._fast_aldc_w →
        (getBytecode.has_u2_index Bytecodes.sample s.code → bci + 3 ≤ s.next_bci →
          readBytes out (bci + 1) 2
            = beBytes 2 (nativeVal .little (readBytes Method.sample.code (bci + 1) 2)))
        ∧ (s.code = Bytecodes._invokedynamic →
          Bytecodes.sample._invokehandle ≠ Bytecodes._invokedynamic → bci + 5 ≤ s.next_bci →
          readBytes out (bci + 1) 4
            = beBytes 4 (nativeVal .little (readBytes Method.sample.code (bci + 1) 4))) :=
  ⟨⟨rfl, Bytecodes.sample_ends, Bytecodes.sample_advances⟩,
    getBytecode_big_endian_indexes Bytecodes.sample .little Method.sample rfl
      Bytecodes.sample_ends Bytecodes.sample_advances⟩

/-- C12: for a rewritten method over which the stream ends behind the code and
advances, getBytecode returns an array in which, for every instruction that
lies within the code: when the raw opcode is fast_aldc (Java opcode ldc) the
byte at bci+1 is the one-byte encoding of object_to_cp_index(c), c the unsigned
byte the internal bytecode holds there, and is that pool index itself when it
is below 256; when the raw opcode is fast_aldc_w (Java opcode ldc_w) the two
bytes at bci+1 are the big-endian encoding of object_to_cp_index(c), c the
16-bit value in host order of the internal bytecode; an ldc or ldc_w that was
not rewritten keeps its operand bytes. -/
theorem getBytecode_restores_ldc_index (B : Bytecodes) (e : Endian) (m : Method)
    (hrw : m.is_rewritten = true)
    (hend : ∀ nb, m.code_size ≤ nb → B.next m nb = none)
    (hstep : ∀ nb s, B.next m nb = some s → s.bci = nb ∧ nb < s.next_bci)
    (hih : B._invokehandle ≠ Bytecodes._ldc ∧ B._invokehandle ≠ Bytecodes._ldc_w)
    (hfa : B._fast_aldc ≠ B._fast_aldc_w) :
    ∃ out, (∀ fuel, m.code_size ≤ fuel → getBytecode B e none m fuel = some (.ok out)) ∧
      ∀ bci s, bci ∈ BytecodeStream.bcis B m m.code_size 0 → B.next m bci = some s →
        s.next_bci ≤ m.code_size →
        (s.raw_code = B._fast_aldc → s.code = Bytecodes._ldc → bci + 2 ≤ s.next_bci →
          out[bci + 1]? = some
            (m.constants.object_to_cp_index (m.code.getD (bci + 1) 0 % 256) % 256)
          ∧ (m.constants.object_to_cp_index (m.code.getD (bci + 1) 0 % 256) < 256 →
            out[bci + 1]? = some (m.constants.object_to_cp_index (m.code.getD (bci + 1) 0 % 256))))
        ∧ (s.raw_code = B._fast_aldc_w → s.code = Bytecodes._ldc_w → bci + 3 ≤ s.next_bci →
          readBytes out (bci + 1) 2 = beBytes 2
            (m.constants.object_to_cp_index (nativeVal e (readBytes m.code (bci + 1) 2))))
        ∧ ((s.code = Bytecodes._ldc ∨ s.code = Bytecodes._ldc_w) →
          s.raw_code ≠ B._fast_aldc → s.raw_code ≠ B._fast_aldc_w →
          readBytes out (bci + 1) (s.instruction_size - 1)
            = readBytes m.code (bci + 1) (s.instruction_size - 1)) := by
  obtain ⟨out, hout, hfr⟩ := getBytecode.result_frames B e m hrw hend hstep
  refine ⟨out, hout, ?_⟩
  intro bci s hmem hs hfit
  obtain ⟨hbci, rc1, hl, hag⟩ := hfr bci s hmem hs
  have hadv := (hstep bci s hs).2
  subst hbci
  have hldc : (s.code = Bytecodes._ldc ∨ s.code = Bytecodes._ldc_w) →
      ¬ getBytecode.has_u2_index B s.code ∧ s.code ≠ Bytecodes._invokedynamic := by
    intro hc
    unfold getBytecode.has_u2_index
    simp only [Bytecodes._ldc, Bytecodes._ldc_w, Bytecodes._invokedynamic, Bytecodes._getstatic,
      Bytecodes._putstatic, Bytecodes._getfield, Bytecodes._putfield, Bytecodes._invokevirtual,
      Bytecodes._invokespecial, Bytecodes._invokestatic, Bytecodes._invokeinterface] at hc hih ⊢
    omega
  refine ⟨?_, ?_, ?_⟩
  · intro hraw hcode hlen
    obtain ⟨hnu, hnd⟩ := hldc (Or.inl hcode)
    have hb := getBytecode.body_fast_aldc B e m s rc1 hl hfit hlen hnu hnd hraw
    have hout1 : out[s.bci + 1]? = some
        (m.constants.object_to_cp_index (m.code.getD (s.bci + 1) 0 % 256) % 256) := by
      rw [hag.2 (s.bci + 1) (by omega)]
      exact hb
    exact ⟨hout1, fun hlt => by rw [hout1, Nat.mod_eq_of_lt hlt]⟩
  · intro hraw hcode hlen
    obtain ⟨hnu, hnd⟩ := hldc (Or.inr hcode)
    rw [hag.readBytes_eq (s.bci + 1) 2 (by omega)]
    exact getBytecode.body_fast_aldc_w B e m s rc1 hl hfit hlen hnu hnd
      (by rw [hraw]; exact fun h => hfa h.symm) hraw
  · intro hcode h1 h2
    obtain ⟨hnu, hnd⟩ := hldc hcode
    rw [hag.readBytes_eq (s.bci + 1) (s.instruction_size - 1)
      (by unfold BytecodeStream.instruction_size; omega)]
    exact getBytecode.body_plain B e m s rc1 hl hfit hadv hnu hnd h1 h2

/-- Witness of C12: the sample method, whose first instruction is `fast_aldc 1`
with pool index 6. -/
theorem getBytecode_restores_ldc_index_witness :
    (Method.sample.is_rewritten = true
      ∧ (∀ nb, Method.sample.code_size ≤ nb → Bytecodes.sample.next Method.sample nb = none)
      ∧ (∀ nb s, Bytecodes.sample.next Method.sample nb = some s → s.bci = nb ∧ nb < s.next_bci)
      ∧ (Bytecodes.sample._invokehandle ≠ Bytecodes._ldc
          ∧ Bytecodes.sample._invokehandle ≠ Bytecodes._ldc_w)
      ∧ Bytecodes.sample._fast_aldc ≠ Bytecodes.sample._fast_aldc_w)
    ∧ ∃ out, (∀ fuel, Method.sample.code_size ≤ fuel →
        getBytecode Bytecodes.sample .little none Method.sample fuel = some (.ok out)) ∧
      ∀ bci s, bci ∈ BytecodeStream.bcis Bytecodes.sample Method.sample Method.sample.code_size 0 →
        Bytecodes.sample.next Method.sample bci = some s →
        s.next_bci ≤ Method.sample.code_size →
        (s.raw_code = Bytecodes.sample._fast_aldc → s.code = Bytecodes._ldc →
          bci + 2 ≤ s.next_bci →
          out[bci + 1]? = some
            (Method.sample.constants.object_to_cp_index
              (Method.sample.code.getD (bci + 1) 0 % 256) % 256)
          ∧ (Method.sample.constants.object_to_cp_index
              (Method.sample.code.getD (bci + 1) 0 % 256) < 256 →
            out[bci + 1]? = some (Method.sample.constants.object_to_cp_index
              (Method.sample.code.getD (bci + 1) 0 % 256))))
        ∧ (s.raw_code = Bytecodes.sample._fast_aldc_w → s.code = Bytecodes._ldc_w →
          bci + 3 ≤ s.next_bci →
          readBytes out (bci + 1) 2 = beBytes 2
            (Method.sample.constants.object_to_cp_index
              (nativeVal .little (readBytes Method.sample.code (bci + 1) 2))))
        ∧ ((s.code = Bytecodes._ldc ∨ s.code = Bytecodes._ldc_w) →
          s.raw_code ≠ Bytecodes.sample._fast_aldc → s.raw_code ≠ Bytecodes.sample._fast_aldc_w →
          readBytes out (bci + 1) (s.instruction_size - 1)
            = readBytes Method.sample.code (bci + 1) (s.instruction_size - 1)) :=
  ⟨⟨rfl, Bytecodes.sample_ends, Bytecodes.sample_advances, ⟨by decide, by decide⟩, by decide⟩,
    getBytecode_restores_ldc_index Bytecodes.sample .little Method.sample rfl
      Bytecodes.sample_ends Bytecodes.sample_advances ⟨by decide, by decide⟩ (by decide)⟩


/-! ## From the result of getBytecode back to the internal bytecode -/

/-- The low bytes of a number are those of its remainder. -/
theorem leBytes_mod (n x : Nat) : leBytes n (x % 256 ^ n) = leBytes n x := by
  induction n generalizing x with
  | zero => rfl
  | succ n ih =>
    rw [leBytes, leBytes, pow_succ', Nat.mod_mul_right_div_self, ih,
      Nat.mod_mod_of_dvd _ (Dvd.intro _ rfl)]

/-- Bytes are the low bytes of the number they encode. -/
theorem leBytes_leVal (bs : List Nat) (h : ∀ b, b ∈ bs → b < 256) :
    leBytes bs.length (leVal bs) = bs := by
  induction bs with
  | nil => rfl
  | cons b bs ih =>
    have hb : b < 256 := h b (List.mem_cons_self _ _)
    have h1 : (b + 256 * leVal bs) % 256 = b := by omega
    have h2 : (b + 256 * leVal bs) / 256 = leVal bs := by omega
    rw [List.length_cons, leVal, leBytes, h1, h2, ih (fun c hc => h c (List.mem_cons_of_mem _ hc))]

/-- The conversion of getBytecode followed by the opposite conversion gives back
the bytes of an index, for both byte orders. -/
theorem nativeBytes_beVal_beBytes_nativeVal (e : Endian) (n : Nat) (bs : List Nat)
    (hn : bs.length = n) (h : ∀ b, b ∈ bs → b < 256) :
    nativeBytes e n (beVal (beBytes n (nativeVal e bs))) = bs := by
  have hbe : ∀ x, beVal (beBytes n x) = x % 256 ^ n := by
    intro x
    simp [beVal, beBytes, leVal_leBytes]
  rw [hbe]
  cases e
  · simp only [nativeBytes, nativeVal]
    rw [leBytes_mod, ← hn, leBytes_leVal bs h]
  · simp only [nativeBytes, nativeVal, beBytes, beVal]
    rw [leBytes_mod]
    have hr : bs.reverse.length = n := by rw [List.length_reverse, hn]
    rw [← hr, leBytes_leVal bs.reverse (fun b hb => h b (List.mem_reverse.mp hb)),
      List.reverse_reverse]

/-- C13 fails as stated: getBytecode maps a method whose first getfield was
patched to a fast-path opcode and the method whose second getfield was patched
to the same bytes, so that no rewriter, whatever it does, yields the internal
bytecode of both from the result. -/
theorem getBytecode_round_trip_fails :
    (getBytecode Bytecodes.sample .little none Method.quickened_first 7
        = some (.ok [180, 1, 0, 180, 1, 0, 177])
      ∧ getBytecode Bytecodes.sample .little none Method.quickened_second 7
        = some (.ok [180, 1, 0, 180, 1, 0, 177]))
    ∧ ¬ ∃ rewrite : Method → List Nat,
        ∀ m, m = Method.quickened_first ∨ m = Method.quickened_second →
          ∀ out, getBytecode Bytecodes.sample .little none m m.code_size = some (.ok out) →
            rewrite { m with code := out } = m.code := by
  refine ⟨⟨rfl, rfl⟩, ?_⟩
  rintro ⟨rewrite, h⟩
  have h1 := h Method.quickened_first (Or.inl rfl) [180, 1, 0, 180, 1, 0, 177] rfl
  have h2 := h Method.quickened_second (Or.inr rfl) [180, 1, 0, 180, 1, 0, 177] rfl
  have h3 : Method.quickened_first.code = Method.quickened_second.code := by
    rw [← h1, ← h2]
    rfl
  simp [Method.quickened_first, Method.quickened_second] at h3


/-- The bytes the loop body copies (line 104) are in place behind the opcode. -/
theorem getBytecode.copied_getElem (m : Method) (rc : List Nat) (bci len v j : Nat)
    (hrc : rc.length = m.code_size) (hfit : bci + len ≤ m.code_size)
    (hj1 : bci + 1 ≤ j) (hj2 : j < bci + len) :
    (writeBytes (rc.set bci v) (bci + 1) (readBytes m.code (bci + 1) (len - 1)))[j]?
      = m.code[j]? := by
  have h := getBytecode.copied_operands m rc bci len v (len - 1) hrc hfit (by omega)
  have h1 := congrArg (fun l => l[j - (bci + 1)]?) h
  simp only [getElem?_readBytes] at h1
  rw [if_pos (by omega), if_pos (by omega)] at h1
  have e1 : bci + 1 + (j - (bci + 1)) = j := by omega
  rw [e1] at h1
  exact h1

/-- The byte the loop body leaves at the bci of an instruction. -/
theorem getBytecode.body_opcode (B : Bytecodes) (e : Endian) (m : Method) (s : BytecodeStream)
    (rc : List Nat) (hrc : rc.length = m.code_size) (hlt : s.bci < m.code_size) :
    (getBytecode.body B e m s rc)[s.bci]?
      = some ((if s.is_wide then Bytecodes._wide else s.code) % 256) := by
  rw [(getBytecode.body_agrees B e m s rc).2 s.bci (Nat.lt_succ_self _)]
  exact List.getElem?_set_self (by omega)

/-- The bytes of an instruction with a 16-bit index after the loop body. -/
theorem getBytecode.body_u2_getElem (B : Bytecodes) (e : Endian) (m : Method)
    (s : BytecodeStream) (rc : List Nat) (hrc : rc.length = m.code_size)
    (hfit : s.next_bci ≤ m.code_size) (hlen : s.bci + 3 ≤ s.next_bci)
    (hcode : getBytecode.has_u2_index B s.code)
    (h1 : s.raw_code ≠ B._fast_aldc) (h2 : s.raw_code ≠ B._fast_aldc_w)
    (j : Nat) (hj1 : s.bci + 3 ≤ j) (hj2 : j < s.next_bci) :
    (getBytecode.body B e m s rc)[j]? = m.code[j]? := by
  have hsz : s.instruction_size > 1 := by unfold BytecodeStream.instruction_size; omega
  have hcopy := getBytecode.copied_operands m rc s.bci s.instruction_size
    ((if s.is_wide then Bytecodes._wide else s.code) % 256) 2 hrc
    (by unfold BytecodeStream.instruction_size; omega)
    (by unfold BytecodeStream.instruction_size; omega)
  unfold getBytecode.has_u2_index at hcode
  simp only [getBytecode.body, hsz, if_true, hcode, h1, h2, if_false, hcopy]
  rw [getElem?_writeBytes, if_neg (by rw [beBytes_length]; omega)]
  exact getBytecode.copied_getElem m rc s.bci s.instruction_size _ j hrc
    (by unfold BytecodeStream.instruction_size; omega) (by omega)
    (by unfold BytecodeStream.instruction_size; omega)

/-- The bytes behind the index of `invokedynamic` after the loop body. -/
theorem getBytecode.body_u4_getElem (B : Bytecodes) (e : Endian) (m : Method)
    (s : BytecodeStream) (rc : List Nat) (hrc : rc.length = m.code_size)
    (hfit : s.next_bci ≤ m.code_size) (hlen : s.bci + 5 ≤ s.next_bci)
    (hcode : s.code = Bytecodes._invokedynamic)
    (hh : B._invokehandle ≠ Bytecodes._invokedynamic)
    (h1 : s.raw_code ≠ B._fast_aldc) (h2 : s.raw_code ≠ B._fast_aldc_w)
    (j : Nat) (hj1 : s.bci + 5 ≤ j) (hj2 : j < s.next_bci) :
    (getBytecode.body B e m s rc)[j]? = m.code[j]? := by
  have hsz : s.instruction_size > 1 := by unfold BytecodeStream.instruction_size; omega
  have hcopy := getBytecode.copied_operands m rc s.bci s.instruction_size
    ((if s.is_wide then Bytecodes._wide else s.code) % 256) 4 hrc
    (by unfold BytecodeStream.instruction_size; omega)
    (by unfold BytecodeStream.instruction_size; omega)
  have hno : ¬ (s.code = Bytecodes._getstatic ∨ s.code = Bytecodes._putstatic
      ∨ s.code = Bytecodes._getfield ∨ s.code = Bytecodes._putfield
      ∨ s.code = Bytecodes._invokevirtual ∨ s.code = Bytecodes._invokespecial
      ∨ s.code = Bytecodes._invokestatic ∨ s.code = Bytecodes._invokeinterface
      ∨ s.code = B._invokehandle) := by
    rw [hcode]
    simp only [Bytecodes._invokedynamic, Bytecodes._getstatic, Bytecodes._putstatic,
      Bytecodes._getfield, Bytecodes._putfield, Bytecodes._invokevirtual,
      Bytecodes._invokespecial, Bytecodes._invokestatic, Bytecodes._invokeinterface] at hh ⊢
    omega
  simp only [getBytecode.body, hsz, if_true, hno, h1, h2, if_false, hcopy]
  rw [if_pos hcode, getElem?_writeBytes, if_neg (by rw [beBytes_length]; omega)]
  exact getBytecode.copied_getElem m rc s.bci s.instruction_size _ j hrc
    (by unfold BytecodeStream.instruction_size; omega) (by omega)
    (by unfold BytecodeStream.instruction_size; omega)

/-- The bytes behind the operand of `_fast_aldc` after the loop body. -/
theorem getBytecode.body_fast_aldc_getElem (B : Bytecodes) (e : Endian) (m : Method)
    (s : BytecodeStream) (rc : List Nat) (hrc : rc.length = m.code_size)
    (hfit : s.next_bci ≤ m.code_size) (hlen : s.bci + 2 ≤ s.next_bci)
    (hcode : ¬ getBytecode.has_u2_index B s.code) (hdyn : s.code ≠ Bytecodes._invokedynamic)
    (h1 : s.raw_code = B._fast_aldc)
    (j : Nat) (hj1 : s.bci + 2 ≤ j) (hj2 : j < s.next_bci) :
    (getBytecode.body B e m s rc)[j]? = m.code[j]? := by
  have hsz : s.instruction_size > 1 := by unfold BytecodeStream.instruction_size; omega
  unfold getBytecode.has_u2_index at hcode
  simp only [getBytecode.body, hsz, if_true, hcode, hdyn, h1, if_false]
  rw [List.getElem?_set_ne (by omega)]
  exact getBytecode.copied_getElem m rc s.bci s.instruction_size _ j hrc
    (by unfold BytecodeStream.instruction_size; omega) (by omega)
    (by unfold BytecodeStream.instruction_size; omega)

/-- The bytes behind the operand of `_fast_aldc_w` after the loop body. -/
theorem getBytecode.body_fast_aldc_w_getElem (B : Bytecodes) (e : Endian) (m : Method)
    (s : BytecodeStream) (rc : List Nat) (hrc : rc.length = m.code_size)
    (hfit : s.next_bci ≤ m.code_size) (hlen : s.bci + 3 ≤ s.next_bci)
    (hcode : ¬ getBytecode.has_u2_index B s.code) (hdyn : s.code ≠ Bytecodes._invokedynamic)
    (h1 : s.raw_code ≠ B._fast_aldc) (h2 : s.raw_code = B._fast_aldc_w)
    (j : Nat) (hj1 : s.bci + 3 ≤ j) (hj2 : j < s.next_bci) :
    (getBytecode.body B e m s rc)[j]? = m.code[j]? := by
  have hsz : s.instruction_size > 1 := by unfold BytecodeStream.instruction_size; omega
  have hcopy := getBytecode.copied_operands m rc s.bci s.instruction_size
    ((if s.is_wide then Bytecodes._wide else s.code) % 256) 2 hrc
    (by unfold BytecodeStream.instruction_size; omega)
    (by unfold BytecodeStream.instruction_size; omega)
  unfold getBytecode.has_u2_index at hcode
  have hne : B._fast_aldc_w ≠ B._fast_aldc := h2 ▸ h1
  simp only [getBytecode.body, hsz, if_true, hcode, hdyn, h2, hne, if_false, hcopy]
  rw [getElem?_writeBytes, if_neg (by rw [beBytes_length]; omega)]
  exact getBytecode.copied_getElem m rc s.bci s.instruction_size _ j hrc
    (by unfold BytecodeStream.instruction_size; omega) (by omega)
    (by unfold BytecodeStream.instruction_size; omega)

/-- Two arrays hold the same bytes in a range when they agree at its indices. -/
theorem readBytes_ext (a b : List Nat) (pos n : Nat)
    (h : ∀ j, pos ≤ j → j < pos + n → a[j]? = b[j]?) : readBytes a pos n = readBytes b pos n := by
  apply List.ext_getElem?
  intro i
  rw [getElem?_readBytes, getElem?_readBytes]
  by_cases hi : i < n
  · rw [if_pos hi, if_pos hi]
    exact h _ (by omega) (by omega)
  · rw [if_neg hi, if_neg hi]

/-- A byte of a range, by its index in the array. -/
theorem readBytes_getElem (l : List Nat) (pos n j : Nat) (h1 : pos ≤ j) (h2 : j < pos + n) :
    (readBytes l pos n)[j - pos]? = l[j]? := by
  rw [getElem?_readBytes, if_pos (by omega)]
  congr 1
  omega

/-- The bytes of a range of the code of a method are bytes. -/
theorem readBytes_lt (l : List Nat) (h : ∀ b, b ∈ l → b < 256) (pos n : Nat) :
    ∀ b, b ∈ readBytes l pos n → b < 256 := by
  intro b hb
  exact h b (List.mem_of_mem_drop (List.mem_of_mem_take hb))

/-- Bytes stored in host order are read back in host order. -/
theorem nativeBytes_nativeVal (e : Endian) (n : Nat) (bs : List Nat)
    (hn : bs.length = n) (h : ∀ b, b ∈ bs → b < 256) :
    nativeBytes e n (nativeVal e bs) = bs := by
  cases e
  · simp only [nativeBytes, nativeVal]
    rw [← hn, leBytes_leVal bs h]
  · simp only [nativeBytes, nativeVal, beBytes, beVal]
    have hr : bs.reverse.length = n := by rw [List.length_reverse, hn]
    rw [← hr, leBytes_leVal bs.reverse (fun b hb => h b (List.mem_reverse.mp hb)),
      List.reverse_reverse]

/-- Converting an index of the result of getBytecode back to host order
restores the instruction, when the result holds the opcode, the big-endian
index and the remaining bytes of the instruction. -/
theorem getBytecode.restore_index (e : Endian) (code out : List Nat) (bci next w : Nat)
    (hbytes : ∀ b, b ∈ code → b < 256) (hlen : out.length = code.length)
    (hw : bci + 1 + w ≤ next) (hfit : next ≤ code.length)
    (hop : out[bci]? = code[bci]?)
    (hidx : readBytes out (bci + 1) w = beBytes w (nativeVal e (readBytes code (bci + 1) w)))
    (htail : ∀ j, bci + 1 + w ≤ j → j < next → out[j]? = code[j]?) :
    readBytes (writeBytes out (bci + 1) (nativeBytes e w (beVal (readBytes out (bci + 1) w))))
      bci (next - bci) = readBytes code bci (next - bci) := by
  have hl : (readBytes code (bci + 1) w).length = w := by
    rw [readBytes_length]; omega
  have hnb : nativeBytes e w (beVal (readBytes out (bci + 1) w)) = readBytes code (bci + 1) w := by
    rw [hidx]
    exact nativeBytes_beVal_beBytes_nativeVal e w _ hl (readBytes_lt code hbytes _ _)
  rw [hnb]
  apply readBytes_ext
  intro j hj1 hj2
  rw [getElem?_writeBytes, hl]
  by_cases hj : bci + 1 ≤ j ∧ j < bci + 1 + w ∧ j < out.length
  · rw [if_pos hj]
    exact readBytes_getElem code (bci + 1) w j hj.1 hj.2.1
  · rw [if_neg hj]
    by_cases hb : j = bci
    · rw [hb]; exact hop
    · exact htail j (by omega) (by omega)

/-- The byte of an array at an index where it holds one. -/
theorem getD_of_getElem? (l : List Nat) (j v : Nat) (h : l[j]? = some v) : l.getD j 0 = v := by
  rw [List.getD_eq_getElem?_getD, h]
  rfl

/-- The byte of the code of a method at an index within it. -/
theorem getElem?_of_lt (l : List Nat) (j : Nat) (h : j < l.length) :
    l[j]? = some (l.getD j 0) ∧ (∀ _ : ∀ b, b ∈ l → b < 256, l.getD j 0 < 256) := by
  have h1 : l[j]? = some l[j] := List.getElem?_eq_getElem h
  have h2 : l.getD j 0 = l[j] := getD_of_getElem? l j _ h1
  exact ⟨by rw [h2, h1], fun hb => by rw [h2]; exact hb _ (List.getElem_mem h)⟩


/-- The operand bytes of an instruction the loop body only copies. -/
theorem getBytecode.body_plain_getElem (B : Bytecodes) (e : Endian) (m : Method)
    (s : BytecodeStream) (rc : List Nat) (hrc : rc.length = m.code_size)
    (hfit : s.next_bci ≤ m.code_size) (hlen : s.bci < s.next_bci)
    (hcode : ¬ getBytecode.has_u2_index B s.code) (hdyn : s.code ≠ Bytecodes._invokedynamic)
    (h1 : s.raw_code ≠ B._fast_aldc) (h2 : s.raw_code ≠ B._fast_aldc_w)
    (j : Nat) (hj1 : s.bci + 1 ≤ j) (hj2 : j < s.next_bci) :
    (getBytecode.body B e m s rc)[j]? = m.code[j]? := by
  have h := getBytecode.body_plain B e m s rc hrc hfit hlen hcode hdyn h1 h2
  have hsz : s.instruction_size = s.next_bci - s.bci := rfl
  rw [← readBytes_getElem _ (s.bci + 1) (s.instruction_size - 1) j hj1 (by omega), h,
    readBytes_getElem _ (s.bci + 1) (s.instruction_size - 1) j hj1 (by omega)]

/-- With the internal opcode in place, converting an index of the result of
getBytecode back to host order restores the instruction. -/
theorem getBytecode.restore_opcode (e : Endian) (code out : List Nat) (bci next w : Nat)
    (hbytes : ∀ b, b ∈ code → b < 256) (hlen : out.length = code.length)
    (hw : bci + 1 + w ≤ next) (hfit : next ≤ code.length)
    (hidx : readBytes out (bci + 1) w = beBytes w (nativeVal e (readBytes code (bci + 1) w)))
    (htail : ∀ j, bci + 1 + w ≤ j → j < next → out[j]? = code[j]?) :
    readBytes (writeBytes (out.set bci (code.getD bci 0)) (bci + 1)
        (nativeBytes e w (beVal (readBytes out (bci + 1) w))))
      bci (next - bci) = readBytes code bci (next - bci) := by
  have hsame : readBytes (out.set bci (code.getD bci 0)) (bci + 1) w
      = readBytes out (bci + 1) w :=
    readBytes_ext _ _ _ _ fun j hj1 _ => List.getElem?_set_ne (by omega)
  have h := getBytecode.restore_index e code (out.set bci (code.getD bci 0)) bci next w hbytes
    (by rw [List.length_set, hlen]) hw hfit
    (by rw [List.getElem?_set_self (by omega), (getElem?_of_lt code bci (by omega)).1])
    (by rw [hsame]; exact hidx)
    (fun j hj1 hj2 => by rw [List.getElem?_set_ne (by omega)]; exact htail j hj1 hj2)
  rw [hsame] at h
  exact h

/-- A big-endian 16-bit index of the result of getBytecode is its value. -/
theorem beVal_beBytes (n x : Nat) : beVal (beBytes n x) = x % 256 ^ n := by
  rw [beVal, beBytes, List.reverse_reverse, leVal_leBytes]

/-- C13, as amended: for a rewritten method whose code consists of bytes, over
which the stream ends behind the code and advances, the conversion of the
operands by getBytecode is inverted, for both byte orders of the host, by the
opposite conversion of its result.  For every instruction that lies within the
code: the 16-bit index of a field accessor or invoke, invokehandle included,
and the 32-bit index of an invokedynamic, taken from big-endian back to the
byte order of the host, are the operand bytes of the internal bytecode; with
the internal opcode put back in place of the Java opcode the instruction as a
whole is then the internal one, byte for byte, and when the internal opcode is
the opcode the stream reports nothing has to be put back; an ldc or ldc_w that
was not rewritten has the operand bytes of the internal bytecode; and for
fast_aldc and fast_aldc_w, whose operand in the result is the pool index
object_to_cp_index(c) of the internal index c, any index map that takes that
pool index back to c restores the internal operand, when the pool index fits
the operand (below 256, below 65536). -/
theorem getBytecode_operands_restored (B : Bytecodes) (e : Endian) (m : Method)
    (hrw : m.is_rewritten = true)
    (hend : ∀ nb, m.code_size ≤ nb → B.next m nb = none)
    (hstep : ∀ nb s, B.next m nb = some s → s.bci = nb ∧ nb < s.next_bci)
    (hbytes : ∀ b, b ∈ m.code → b < 256)
    (hih : B._invokehandle ≠ Bytecodes._invokedynamic ∧ B._invokehandle ≠ Bytecodes._ldc
      ∧ B._invokehandle ≠ Bytecodes._ldc_w)
    (hfa : B._fast_aldc ≠ B._fast_aldc_w) :
    ∃ out, (∀ fuel, m.code_size ≤ fuel → getBytecode B e none m fuel = some (.ok out)) ∧
      ∀ bci s, bci ∈ BytecodeStream.bcis B m m.code_size 0 → B.next m bci = some s →
        s.next_bci ≤ m.code_size →
        (getBytecode.has_u2_index B s.code → s.raw_code ≠ B._fast_aldc →
          s.raw_code ≠ B._fast_aldc_w → bci + 3 ≤ s.next_bci →
          nativeBytes e 2 (beVal (readBytes out (bci + 1) 2)) = readBytes m.code (bci + 1) 2
          ∧ readBytes (writeBytes (out.set bci (m.code.getD bci 0)) (bci + 1)
                (nativeBytes e 2 (beVal (readBytes out (bci + 1) 2)))) bci s.instruction_size
              = readBytes m.code bci s.instruction_size
          ∧ (s.is_wide = false → m.code[bci]? = some s.code →
              readBytes (writeBytes out (bci + 1)
                  (nativeBytes e 2 (beVal (readBytes out (bci + 1) 2)))) bci s.instruction_size
                = readBytes m.code bci s.instruction_size))
        ∧ (s.code = Bytecodes._invokedynamic → s.raw_code ≠ B._fast_aldc →
          s.raw_code ≠ B._fast_aldc_w → bci + 5 ≤ s.next_bci →
          nativeBytes e 4 (beVal (readBytes out (bci + 1) 4)) = readBytes m.code (bci + 1) 4
          ∧ readBytes (writeBytes (out.set bci (m.code.getD bci 0)) (bci + 1)
                (nativeBytes e 4 (beVal (readBytes out (bci + 1) 4)))) bci s.instruction_size
              = readBytes m.code bci s.instruction_size
          ∧ (s.is_wide = false → m.code[bci]? = some s.code →
              readBytes (writeBytes out (bci + 1)
                  (nativeBytes e 4 (beVal (readBytes out (bci + 1) 4)))) bci s.instruction_size
                = readBytes m.code bci s.instruction_size))
        ∧ ((s.code = Bytecodes._ldc ∨ s.code = Bytecodes._ldc_w) →
          s.raw_code ≠ B._fast_aldc → s.raw_code ≠ B._fast_aldc_w →
          readBytes out (bci + 1) (s.instruction_size - 1)
            = readBytes m.code (bci + 1) (s.instruction_size - 1))
        ∧ (s.raw_code = B._fast_aldc → s.code = Bytecodes._ldc → bci + 2 ≤ s.next_bci →
          ∀ inv : Nat → Nat,
            m.constants.object_to_cp_index (m.code.getD (bci + 1) 0) < 256 →
            inv (m.constants.object_to_cp_index (m.code.getD (bci + 1) 0))
              = m.code.getD (bci + 1) 0 →
            inv (out.getD (bci + 1) 0) = m.code.getD (bci + 1) 0)
        ∧ (s.raw_code = B._fast_aldc_w → s.code = Bytecodes._ldc_w → bci + 3 ≤ s.next_bci →
          ∀ inv : Nat → Nat,
            m.constants.object_to_cp_index (nativeVal e (readBytes m.code (bci + 1) 2))
              < 65536 →
            inv (m.constants.object_to_cp_index (nativeVal e (readBytes m.code (bci + 1) 2)))
              = nativeVal e (readBytes m.code (bci + 1) 2) →
            nativeBytes e 2 (inv (beVal (readBytes out (bci + 1) 2)))
              = readBytes m.code (bci + 1) 2) := by
  obtain ⟨out, hout, hfr⟩ := getBytecode.result_frames B e m hrw hend hstep
  refine ⟨out, hout, ?_⟩
  intro bci s hmem hs hfit
  obtain ⟨hbci, rc1, hl, hag⟩ := hfr bci s hmem hs
  have hadv := (hstep bci s hs).2
  subst hbci
  have hlt : s.bci < m.code_size := by omega
  have hsize : m.code.length = m.code_size := rfl
  have hblen : (getBytecode.body B e m s rc1).length = m.code_size := by
    rw [(getBytecode.body_agrees B e m s rc1).1, List.length_set, hl]
  have holen : out.length = m.code.length := by rw [hag.1, hblen, hsize]
  have hisz : s.instruction_size = s.next_bci - s.bci := rfl
  have hopc : s.is_wide = false → m.code[s.bci]? = some s.code → out[s.bci]? = m.code[s.bci]? := by
    intro hwide hcode
    have hc256 : s.code < 256 := hbytes s.code (List.getElem?_mem hcode)
    rw [hag.2 s.bci hadv, getBytecode.body_opcode B e m s rc1 hl hlt, hwide, hcode]
    simp only [Bool.false_eq_true, if_false]
    rw [Nat.mod_eq_of_lt hc256]
  have hldc_plain : (s.code = Bytecodes._ldc ∨ s.code = Bytecodes._ldc_w) →
      ¬ getBytecode.has_u2_index B s.code ∧ s.code ≠ Bytecodes._invokedynamic := by
    intro hc
    have h1 := hih.2.1
    have h2 := hih.2.2
    unfold getBytecode.has_u2_index
    simp only [Bytecodes._getstatic, Bytecodes._putstatic, Bytecodes._getfield,
      Bytecodes._putfield, Bytecodes._invokevirtual, Bytecodes._invokespecial,
      Bytecodes._invokestatic, Bytecodes._invokeinterface, Bytecodes._invokedynamic,
      Bytecodes._ldc, Bytecodes._ldc_w] at hc h1 h2 ⊢
    omega
  refine ⟨?_, ?_, ?_, ?_, ?_⟩
  · intro hcode h1 h2 hlen
    have hidx : readBytes out (s.bci + 1) 2
        = beBytes 2 (nativeVal e (readBytes m.code (s.bci + 1) 2)) := by
      rw [hag.readBytes_eq (s.bci + 1) 2 (by omega)]
      exact getBytecode.body_u2 B e m s rc1 hl hfit hlen hcode h1 h2
    have hlen2 : (readBytes m.code (s.bci + 1) 2).length = 2 := by
      rw [readBytes_length]; omega
    have htail : ∀ j, s.bci + 1 + 2 ≤ j → j < s.next_bci → out[j]? = m.code[j]? := by
      intro j hj1 hj2
      rw [hag.2 j hj2]
      exact getBytecode.body_u2_getElem B e m s rc1 hl hfit hlen hcode h1 h2 j (by omega) hj2
    refine ⟨?_, ?_, ?_⟩
    · rw [hidx]
      exact nativeBytes_beVal_beBytes_nativeVal e 2 _ hlen2 (readBytes_lt m.code hbytes _ _)
    · rw [hisz]
      exact getBytecode.restore_opcode e m.code out s.bci s.next_bci 2 hbytes holen (by omega)
        (by omega) hidx htail
    · intro hwide hraw
      rw [hisz]
      exact getBytecode.restore_index e m.code out s.bci s.next_bci 2 hbytes holen (by omega)
        (by omega) (hopc hwide hraw) hidx htail
  · intro hdyn h1 h2 hlen
    have hidx : readBytes out (s.bci + 1) 4
        = beBytes 4 (nativeVal e (readBytes m.code (s.bci + 1) 4)) := by
      rw [hag.readBytes_eq (s.bci + 1) 4 (by omega)]
      exact getBytecode.body_u4 B e m s rc1 hl hfit hlen hdyn hih.1 h1 h2
    have hlen4 : (readBytes m.code (s.bci + 1) 4).length = 4 := by
      rw [readBytes_length]; omega
    have htail : ∀ j, s.bci + 1 + 4 ≤ j → j < s.next_bci → out[j]? = m.code[j]? := by
      intro j hj1 hj2
      rw [hag.2 j hj2]
      exact getBytecode.body_u4_getElem B e m s rc1 hl hfit hlen hdyn hih.1 h1 h2 j (by omega)
        hj2
    refine ⟨?_, ?_, ?_⟩
    · rw [hidx]
      exact nativeBytes_beVal_beBytes_nativeVal e 4 _ hlen4 (readBytes_lt m.code hbytes _ _)
    · rw [hisz]
      exact getBytecode.restore_opcode e m.code out s.bci s.next_bci 4 hbytes holen (by omega)
        (by omega) hidx htail
    · intro hwide hraw
      rw [hisz]
      exact getBytecode.restore_index e m.code out s.bci s.next_bci 4 hbytes holen (by omega)
        (by omega) (hopc hwide hraw) hidx htail
  · intro hc h1 h2
    obtain ⟨hnu, hnd⟩ := hldc_plain hc
    rw [hag.readBytes_eq (s.bci + 1) (s.instruction_size - 1) (by rw [hisz]; omega)]
    exact getBytecode.body_plain B e m s rc1 hl hfit hadv hnu hnd h1 h2
  · intro hrf hldc hlen inv hfits hinv
    obtain ⟨hnu, hnd⟩ := hldc_plain (Or.inl hldc)
    obtain ⟨_, hc256⟩ := getElem?_of_lt m.code (s.bci + 1) (by omega)
    have hb := getBytecode.body_fast_aldc B e m s rc1 hl hfit hlen hnu hnd hrf
    rw [← hag.2 (s.bci + 1) (by omega), Nat.mod_eq_of_lt (hc256 hbytes),
      Nat.mod_eq_of_lt hfits] at hb
    rw [getD_of_getElem? out (s.bci + 1) _ hb]
    exact hinv
  · intro hrf hldc hlen inv hfits hinv
    obtain ⟨hnu, hnd⟩ := hldc_plain (Or.inr hldc)
    have h1 : s.raw_code ≠ B._fast_aldc := by rw [hrf]; exact fun h => hfa h.symm
    have hb := getBytecode.body_fast_aldc_w B e m s rc1 hl hfit hlen hnu hnd h1 hrf
    rw [← hag.readBytes_eq (s.bci + 1) 2 (by omega)] at hb
    have hlen2 : (readBytes m.code (s.bci + 1) 2).length = 2 := by
      rw [readBytes_length]; omega
    rw [hb, beVal_beBytes, Nat.mod_eq_of_lt (by norm_num; exact hfits), hinv]
    exact nativeBytes_nativeVal e 2 _ hlen2 (readBytes_lt m.code hbytes _ _)

/-- Witness of C13: the sample method on a little-endian host. -/
theorem getBytecode_operands_restored_witness :
    (Method.sample.is_rewritten = true
      ∧ (∀ nb, Method.sample.code_size ≤ nb → Bytecodes.sample.next Method.sample nb = none)
      ∧ (∀ nb s, Bytecodes.sample.next Method.sample nb = some s → s.bci = nb ∧ nb < s.next_bci)
      ∧ (∀ b, b ∈ Method.sample.code → b < 256)
      ∧ (Bytecodes.sample._invokehandle ≠ Bytecodes._invokedynamic
        ∧ Bytecodes.sample._invokehandle ≠ Bytecodes._ldc
        ∧ Bytecodes.sample._invokehandle ≠ Bytecodes._ldc_w)
      ∧ Bytecodes.sample._fast_aldc ≠ Bytecodes.sample._fast_aldc_w)
    ∧ getBytecode Bytecodes.sample .little none Method.sample 10
        = some (.ok [18, 6, 180, 1, 2, 196, 21, 0, 3, 177])
    ∧ nativeBytes .little 2 (beVal (readBytes [18, 6, 180, 1, 2, 196, 21, 0, 3, 177] 3 2))
        = readBytes Method.sample.code 3 2
    ∧ ∃ out, (∀ fuel, Method.sample.code_size ≤ fuel →
        getBytecode Bytecodes.sample .little none Method.sample fuel = some (.ok out)) ∧
      ∀ bci s, bci ∈ BytecodeStream.bcis Bytecodes.sample Method.sample Method.sample.code_size 0 →
        Bytecodes.sample.next Method.sample bci = some s →
        s.next_bci ≤ Method.sample.code_size →
        (getBytecode.has_u2_index Bytecodes.sample s.code →
          s.raw_code ≠ Bytecodes.sample._fast_aldc →
          s.raw_code ≠ Bytecodes.sample._fast_aldc_w → bci + 3 ≤ s.next_bci →
          nativeBytes .little 2 (beVal (readBytes out (bci + 1) 2))
            = readBytes Method.sample.code (bci + 1) 2
          ∧ readBytes (writeBytes (out.set bci (Method.sample.code.getD bci 0)) (bci + 1)
                (nativeBytes .little 2 (beVal (readBytes out (bci + 1) 2)))) bci
                s.instruction_size
              = readBytes Method.sample.code bci s.instruction_size
          ∧ (s.is_wide = false → Method.sample.code[bci]? = some s.code →
              readBytes (writeBytes out (bci + 1)
                  (nativeBytes .little 2 (beVal (readBytes out (bci + 1) 2)))) bci
                  s.instruction_size
                = readBytes Method.sample.code bci s.instruction_size))
        ∧ (s.code = Bytecodes._invokedynamic → s.raw_code ≠ Bytecodes.sample._fast_aldc →
          s.raw_code ≠ Bytecodes.sample._fast_aldc_w → bci + 5 ≤ s.next_bci →
          nativeBytes .little 4 (beVal (readBytes out (bci + 1) 4))
            = readBytes Method.sample.code (bci + 1) 4
          ∧ readBytes (writeBytes (out.set bci (Method.sample.code.getD bci 0)) (bci + 1)
                (nativeBytes .little 4 (beVal (readBytes out (bci + 1) 4)))) bci
                s.instruction_size
              = readBytes Method.sample.code bci s.instruction_size
          ∧ (s.is_wide = false → Method.sample.code[bci]? = some s.code →
              readBytes (writeBytes out (bci + 1)
                  (nativeBytes .little 4 (beVal (readBytes out (bci + 1) 4)))) bci
                  s.instruction_size
                = readBytes Method.sample.code bci s.instruction_size))
        ∧ ((s.code = Bytecodes._ldc ∨ s.code = Bytecodes._ldc_w) →
          s.raw_code ≠ Bytecodes.sample._fast_aldc → s.raw_code ≠ Bytecodes.sample._fast_aldc_w →
          readBytes out (bci + 1) (s.instruction_size - 1)
            = readBytes Method.sample.code (bci + 1) (s.instruction_size - 1))
        ∧ (s.raw_code = Bytecodes.sample._fast_aldc → s.code = Bytecodes._ldc →
          bci + 2 ≤ s.next_bci →
          ∀ inv : Nat → Nat,
            Method.sample.constants.object_to_cp_index (Method.sample.code.getD (bci + 1) 0)
              < 256 →
            inv (Method.sample.constants.object_to_cp_index
                (Method.sample.code.getD (bci + 1) 0))
              = Method.sample.code.getD (bci + 1) 0 →
            inv (out.getD (bci + 1) 0) = Method.sample.code.getD (bci + 1) 0)
        ∧ (s.raw_code = Bytecodes.sample._fast_aldc_w → s.code = Bytecodes._ldc_w →
          bci + 3 ≤ s.next_bci →
          ∀ inv : Nat → Nat,
            Method.sample.constants.object_to_cp_index
                (nativeVal .little (readBytes Method.sample.code (bci + 1) 2)) < 65536 →
            inv (Method.sample.constants.object_to_cp_index
                (nativeVal .little (readBytes Method.sample.code (bci + 1) 2)))
              = nativeVal .little (readBytes Method.sample.code (bci + 1) 2) →
            nativeBytes .little 2 (inv (beVal (readBytes out (bci + 1) 2)))
              = readBytes Method.sample.code (bci + 1) 2) :=
  ⟨⟨rfl, Bytecodes.sample_ends, Bytecodes.sample_advances, by decide,
      ⟨by decide, by decide, by decide⟩, by decide⟩, rfl, by decide,
    getBytecode_operands_restored Bytecodes.sample .little Method.sample rfl
      Bytecodes.sample_ends Bytecodes.sample_advances (by decide)
      ⟨by decide, by decide, by decide⟩ (by decide)⟩

/-! ## Properties of the metaspace handle resolver -/

/-- The message for an unexpected type contains the name of the type. -/
theorem err_msg_unexpected_type_names (external_name : String) :
    MessageNames (err_msg_unexpected_type external_name) external_name :=
  ⟨"Unexpected type: ", "", by simp [err_msg_unexpected_type]⟩

/-- The message for unexpected arguments contains the name of the type. -/
theorem err_msg_unexpected_arguments_names (external_name : String) (offset : Int)
    (compressed : Bool) :
    MessageNames (err_msg_unexpected_arguments external_name offset compressed) external_name :=
  ⟨"Unexpected arguments: ",
    " " ++ toString offset ++ " " ++ (if compressed then "true" else "false"),
    by simp [err_msg_unexpected_arguments, String.append_assoc]⟩

/-- C14: for a non-null base object that is none of the wrapper types the
operation recognizes (MemberName or method wrapper for getResolvedJavaMethod;
method, constant pool or class wrapper for getConstantPool; those three or
java.lang.Class for getResolvedJavaType called with compressed false and an
offset that is not the klass offset), the operation fails with
IllegalArgumentException, the message contains the external name of the class
of the base object, and nothing was read and no wrapper constructed (no
effects, whatever the memory and the Java side hold). -/
theorem resolver_rejects_unrecognized (klass_offset : Int) (env : ResolverEnv) (o : JavaObject)
    (offset : Int) :
    (o.is_MemberName = false → o.is_HotSpotResolvedJavaMethodImpl = false →
        getResolvedJavaMethod env (some o) offset
          = { result := .error (.IllegalArgumentException
                (err_msg_unexpected_type o.external_name)), effects := [] })
      ∧ (o.is_HotSpotResolvedJavaMethodImpl = false → o.is_HotSpotConstantPool = false →
        o.is_HotSpotResolvedObjectTypeImpl = false →
        getConstantPool env (some o) offset
          = { result := .error (.IllegalArgumentException
                (err_msg_unexpected_type o.external_name)), effects := [] })
      ∧ (o.is_HotSpotResolvedJavaMethodImpl = false → o.is_HotSpotConstantPool = false →
        o.is_HotSpotResolvedObjectTypeImpl = false → o.is_Class = false →
        offset ≠ klass_offset →
        getResolvedJavaType klass_offset env (some o) offset false
          = some { result := .error (.IllegalArgumentException
                (err_msg_unexpected_arguments o.external_name offset false)), effects := [] })
      ∧ MessageNames (err_msg_unexpected_type o.external_name) o.external_name
      ∧ MessageNames (err_msg_unexpected_arguments o.external_name offset false)
          o.external_name := by
  refine ⟨fun h1 h2 => ?_, fun h1 h2 h3 => ?_, fun h1 h2 h3 h4 h5 => ?_,
    err_msg_unexpected_type_names _, err_msg_unexpected_arguments_names _ _ _⟩
  · simp [getResolvedJavaMethod, h1, h2]
  · simp [getConstantPool, h1, h2, h3]
  · simp [getResolvedJavaType, h1, h2, h3, h4, h5]

/-- C15, what the code does: getResolvedJavaType with compressed true and a
null base object stops the VM at the dereference of the null base object for
the message, instead of failing with IllegalArgumentException.  With a base
object that is not null and an offset that is not the klass offset it fails
with IllegalArgumentException and a message of the arguments, without effects;
with the klass offset the result is the class of the base object itself
whatever the value of compressed. -/
theorem getResolvedJavaType_compressed (klass_offset : Int) (env : ResolverEnv) (offset : Int) :
    getResolvedJavaType klass_offset env none offset true = none
      ∧ (∀ o : JavaObject, offset ≠ klass_offset →
        getResolvedJavaType klass_offset env (some o) offset true
          = some { result := .error (.IllegalArgumentException
                (err_msg_unexpected_arguments o.external_name offset true)), effects := [] })
      ∧ (∀ (o : JavaObject) (compressed : Bool),
        getResolvedJavaType klass_offset env (some o) klass_offset compressed
          = some (CompilerToVM.get_jvmci env .klass o.klass [])) := by
  refine ⟨?_, fun o h => ?_, fun o c => ?_⟩
  · simp [getResolvedJavaType]
  · simp [getResolvedJavaType, h]
  · simp [getResolvedJavaType]

/-! ## Properties of the constant pool resolution -/

/-- C16: lookupKlassInPool returns the type of the slot when the slot is
resolved at the first read, or at the read under the lock of the pool, and
otherwise the symbolic name the slot holds, as a string; and it changes no
slot: the pool is the one it read, so that without other threads the slots
are after the call what they were before. -/
theorem lookupKlassInPool_never_resolves (fromMetaspace : Int → Except Throwable (Option Oop))
    (oom : Option Throwable) (cp : Int → Slot) (racing : (Int → Slot) → (Int → Slot))
    (index : Int) :
    (∀ k, cp index = .klass k →
        lookupKlassInPool fromMetaspace oom cp racing index
          = some { result := fromMetaspace k, pool := cp })
      ∧ (∀ k, (∀ k0, cp index ≠ .klass k0) → racing cp index = .klass k →
        lookupKlassInPool fromMetaspace oom cp racing index
          = some { result := fromMetaspace k, pool := racing cp })
      ∧ (∀ name, (∀ k0, cp index ≠ .klass k0) →
        (racing cp index = .symbol name ∨ racing cp index = .unresolved_klass name) →
        lookupKlassInPool fromMetaspace oom cp racing index
            = some { result := java_lang_String.create_from_symbol oom name, pool := racing cp }
          ∧ java_lang_String.create_from_symbol none name = .ok (some (.string name)))
      ∧ (∀ r, lookupKlassInPool fromMetaspace oom cp id index = some r → r.pool = cp) := by
  refine ⟨fun k h => ?_, fun k h0 h => ?_, fun name h0 h => ⟨?_, rfl⟩, fun r h => ?_⟩
  · simp [lookupKlassInPool, JVMCIEnv.get_klass_by_index, h]
  · cases hc : cp index with
    | klass k0 => exact absurd hc (h0 k0)
    | symbol _ => simp [lookupKlassInPool, JVMCIEnv.get_klass_by_index, hc, h]
    | unresolved_klass _ => simp [lookupKlassInPool, JVMCIEnv.get_klass_by_index, hc, h]
    | other => simp [lookupKlassInPool, JVMCIEnv.get_klass_by_index, hc, h]
  · cases hc : cp index with
    | klass k0 => exact absurd hc (h0 k0)
    | symbol _ =>
      rcases h with h | h <;> simp [lookupKlassInPool, JVMCIEnv.get_klass_by_index, hc, h]
    | unresolved_klass _ =>
      rcases h with h | h <;> simp [lookupKlassInPool, JVMCIEnv.get_klass_by_index, hc, h]
    | other =>
      rcases h with h | h <;> simp [lookupKlassInPool, JVMCIEnv.get_klass_by_index, hc, h]
  · cases hc : cp index <;>
      simp only [lookupKlassInPool, JVMCIEnv.get_klass_by_index, hc, id] at h <;>
      first
        | (cases h; rfl)
        | (cases h)

/-- C18: when a call of resolveInvokeDynamicInPool has returned without an
exception, the cache entry of the call site holds a binding, and a second call
on the same index, whatever the linkage would produce then, returns without an
exception, leaves the identical binding in the entry and runs no linkage: the
pool is exactly as the first call left it. -/
theorem resolveInvokeDynamicInPool_twice (link link2 : Int → Except Throwable Nat)
    (cp cp1 : CallSitePool) (index : Int)
    (h : resolveInvokeDynamicInPool link cp index = (.ok (), cp1)) :
    (∃ binding, cp1.entry index = some binding)
      ∧ resolveInvokeDynamicInPool link2 cp1 index = (.ok (), cp1)
      ∧ (resolveInvokeDynamicInPool link2 cp1 index).2.entry index = cp1.entry index
      ∧ (resolveInvokeDynamicInPool link2 cp1 index).2.linkages = cp1.linkages := by
  have hentry : ∃ binding, cp1.entry index = some binding := by
    unfold resolveInvokeDynamicInPool LinkResolver.resolve_invokedynamic at h
    cases hc : cp.entry index with
    | some b =>
      simp only [hc, ConstantPoolCacheEntry.set_dynamic_call] at h
      have h2 := (Prod.mk.inj h).2
      exact ⟨b, by rw [← h2]; exact hc⟩
    | none =>
      simp only [hc] at h
      cases hl : link index with
      | error ex => simp [hl] at h
      | ok b =>
        simp only [hl, ConstantPoolCacheEntry.set_dynamic_call, hc] at h
        have h2 := (Prod.mk.inj h).2
        exact ⟨b, by rw [← h2]; simp⟩
  obtain ⟨b, hb⟩ := hentry
  have h2 : resolveInvokeDynamicInPool link2 cp1 index = (.ok (), cp1) := by
    simp [resolveInvokeDynamicInPool, LinkResolver.resolve_invokedynamic, hb,
      ConstantPoolCacheEntry.set_dynamic_call]
  exact ⟨⟨b, hb⟩, h2, by rw [h2], by rw [h2]⟩

/-- Witness of C18: the first resolution of call site 5 of a pool without
bindings, with a linkage that yields binding 42; a linkage that would yield 43
is offered to the second call. -/
theorem resolveInvokeDynamicInPool_twice_witness :
    resolveInvokeDynamicInPool (fun _ => .ok 42) ⟨fun _ => none, []⟩ 5
        = (.ok (), ⟨fun i => if i = 5 then some 42 else none, [5]⟩)
    ∧ (∃ binding, (CallSitePool.mk (fun i => if i = 5 then some 42 else none) [5]).entry 5
        = some binding)
      ∧ resolveInvokeDynamicInPool (fun _ => .ok 43)
          ⟨fun i => if i = 5 then some 42 else none, [5]⟩ 5
        = (.ok (), ⟨fun i => if i = 5 then some 42 else none, [5]⟩)
      ∧ (resolveInvokeDynamicInPool (fun _ => .ok 43)
          ⟨fun i => if i = 5 then some 42 else none, [5]⟩ 5).2.entry 5
        = (CallSitePool.mk (fun i => if i = 5 then some 42 else none) [5]).entry 5
      ∧ (resolveInvokeDynamicInPool (fun _ => .ok 43)
          ⟨fun i => if i = 5 then some 42 else none, [5]⟩ 5).2.linkages
        = (CallSitePool.mk (fun i => if i = 5 then some 42 else none) [5]).linkages :=
  ⟨rfl, resolveInvokeDynamicInPool_twice (fun _ => .ok 42) (fun _ => .ok 43)
    ⟨fun _ => none, []⟩ ⟨fun i => if i = 5 then some 42 else none, [5]⟩ 5 rfl⟩

/-! ## Properties of the stack walk -/

theorem getNextStackFrameImpl.vframes_walk (up : Int → Except Throwable (Option Oop))
    (ctv : Option Oop) (methods : Option (List MethodsEntry)) (fr : Frame) (senders : List VFrame) :
    ∀ (vf : VFrame) (n skip : Int),
      getNextStackFrameImpl.vframes up ctv methods fr vf senders n skip
        = getNextStackFrameImpl.walk up ctv methods (Frame.logicalFrom fr n (vf :: senders)) skip := by
  induction senders with
  | nil =>
    intro vf n skip
    simp only [getNextStackFrameImpl.vframes, Frame.logicalFrom, getNextStackFrameImpl.walk]
    cases getNextStackFrameImpl.visit up ctv methods fr vf n skip <;> rfl
  | cons sender rest ih =>
    intro vf n skip
    rw [getNextStackFrameImpl.vframes, Frame.logicalFrom, getNextStackFrameImpl.walk]
    cases getNextStackFrameImpl.visit up ctv methods fr vf n skip with
    | returned r => rfl
    | stopped => rfl
    | next s => exact ih sender (n + 1) s

theorem getNextStackFrameImpl.walk_append (up : Int → Except Throwable (Option Oop))
    (ctv : Option Oop) (methods : Option (List MethodsEntry)) (l₁ l₂ : List LogicalFrame) :
    ∀ skip : Int,
      getNextStackFrameImpl.walk up ctv methods (l₁ ++ l₂) skip
        = match getNextStackFrameImpl.walk up ctv methods l₁ skip with
          | .returned r => .returned r
          | .stopped => .stopped
          | .next s => getNextStackFrameImpl.walk up ctv methods l₂ s := by
  induction l₁ with
  | nil => intro skip; rfl
  | cons lf rest ih =>
    intro skip
    rw [List.cons_append, getNextStackFrameImpl.walk, getNextStackFrameImpl.walk]
    cases getNextStackFrameImpl.visit up ctv methods lf.frame lf.vf lf.frame_number skip with
    | returned r => rfl
    | stopped => rfl
    | next s => exact ih s

theorem getNextStackFrameImpl.frames_walk (up : Int → Except Throwable (Option Oop))
    (ctv : Option Oop) (methods : Option (List MethodsEntry)) (rest : List Frame) :
    ∀ (cur : Frame) (vf : VFrame) (senders : List VFrame) (n skip : Int),
      getNextStackFrameImpl.frames up ctv methods cur rest vf senders n skip
        = (getNextStackFrameImpl.walk up ctv methods
            (Frame.logicalFrom cur n (vf :: senders) ++ logicalFrames rest) skip).finish := by
  induction rest with
  | nil =>
    intro cur vf senders n skip
    rw [getNextStackFrameImpl.frames, getNextStackFrameImpl.vframes_walk, logicalFrames,
      List.append_nil]
    cases getNextStackFrameImpl.walk up ctv methods (Frame.logicalFrom cur n (vf :: senders)) skip
      <;> rfl
  | cons f fs ih =>
    intro cur vf senders n skip
    rw [getNextStackFrameImpl.frames, getNextStackFrameImpl.vframes_walk,
      getNextStackFrameImpl.walk_append]
    cases getNextStackFrameImpl.walk up ctv methods (Frame.logicalFrom cur n (vf :: senders)) skip with
    | returned r => rfl
    | stopped => rfl
    | next s => exact ih f f.first f.senders 0 s

theorem getNextStackFrameImpl.find_dropWhile (sp : Int) (callers : List Frame) :
    ∀ (top cur : Frame) (rest : List Frame),
      (top :: callers).dropWhile (fun fr => decide (fr.sp ≠ sp)) = cur :: rest →
      getNextStackFrameImpl.find sp top callers = (cur, rest) ∧ cur.sp = sp := by
  induction callers with
  | nil =>
    intro top cur rest h
    by_cases hsp : top.sp = sp
    · simp [List.dropWhile, hsp] at h
      simp [getNextStackFrameImpl.find, ← h.1, ← h.2, hsp]
    · simp [List.dropWhile, hsp] at h
  | cons f fs ih =>
    intro top cur rest h
    by_cases hsp : top.sp = sp
    · simp [List.dropWhile, hsp] at h
      simp [getNextStackFrameImpl.find, ← h.1, ← h.2, hsp]
    · rw [List.dropWhile_cons_of_pos (by simpa using hsp)] at h
      rw [getNextStackFrameImpl.find, if_pos hsp]
      exact ih f cur rest h

theorem getNextStackFrameImpl.climb_drop (k : Nat) :
    ∀ (vf : VFrame) (senders : List VFrame) (n : Int), k < (vf :: senders).length →
      ∃ vf1 senders1, getNextStackFrameImpl.climb k vf senders n = some (vf1, senders1, n + k)
        ∧ (vf :: senders).drop k = vf1 :: senders1 := by
  induction k with
  | zero => intro vf senders n _; exact ⟨vf, senders, by simp [getNextStackFrameImpl.climb], rfl⟩
  | succ k ih =>
    intro vf senders n h
    cases senders with
    | nil => simp at h
    | cons sender rest =>
      obtain ⟨vf1, senders1, h1, h2⟩ := ih sender rest (n + 1) (by simpa using h)
      refine ⟨vf1, senders1, ?_, by simpa using h2⟩
      rw [getNextStackFrameImpl.climb, h1]
      congr 3
      push_cast
      ring

theorem Frame.logicalFrom_length (fr : Frame) (l : List VFrame) :
    ∀ n : Int, (Frame.logicalFrom fr n l).length = l.length := by
  induction l with
  | nil => intro n; rfl
  | cons vf rest ih => intro n; simp [Frame.logicalFrom, ih]

theorem Frame.logicalFrom_drop (fr : Frame) (k : Nat) :
    ∀ (l : List VFrame) (n : Int),
      (Frame.logicalFrom fr n l).drop k = Frame.logicalFrom fr (n + k) (l.drop k) := by
  induction k with
  | zero => intro l n; simp
  | succ k ih =>
    intro l n
    cases l with
    | nil => simp [Frame.logicalFrom]
    | cons vf rest =>
      rw [Frame.logicalFrom, List.drop_succ_cons, List.drop_succ_cons, ih]
      congr 1
      push_cast
      ring

/-- The entry point, for a starting point that exists, is the walk over the
logical frames after it. -/
theorem getNextStackFrameImpl.eq_walk (up : Int → Except Throwable (Option Oop))
    (stack : List Frame) (ctv : Option Oop) (hs : Option HotSpotStackFrameReference)
    (methods : Option (List MethodsEntry)) (skip : Int) (l : List LogicalFrame)
    (h : framesAfter stack hs = some l) :
    getNextStackFrameImpl up stack ctv hs methods skip
      = (getNextStackFrameImpl.walk up ctv methods l skip).finish := by
  cases stack with
  | nil =>
    cases hs with
    | none =>
      simp only [framesAfter, logicalFrames, Option.some.injEq] at h
      subst h
      rfl
    | some hs => simp [framesAfter] at h
  | cons top callers =>
    cases hs with
    | none =>
      simp only [framesAfter, Option.some.injEq] at h
      subst h
      rw [getNextStackFrameImpl, getNextStackFrameImpl.frames_walk]
      rfl
    | some hs =>
      simp only [framesAfter] at h
      cases hd : (top :: callers).dropWhile (fun fr => decide (fr.sp ≠ hs.stackPointer)) with
      | nil => rw [hd] at h; simp at h
      | cons cur rest =>
        rw [hd] at h
        simp only at h
        by_cases hn0 : 0 ≤ hs.frameNumber ∧ hs.frameNumber.toNat < cur.logical.length
        · rw [if_pos hn0] at h
          obtain ⟨_, hn⟩ := hn0
          simp only [Option.some.injEq] at h
          subst h
          obtain ⟨hf, hsp⟩ := getNextStackFrameImpl.find_dropWhile hs.stackPointer callers top cur rest hd
          have hlen : hs.frameNumber.toNat < (cur.first :: cur.senders).length := by
            rw [Frame.logical, Frame.logicalFrom_length] at hn
            exact hn
          obtain ⟨vf1, senders1, hc, hdrop⟩ :=
            getNextStackFrameImpl.climb_drop hs.frameNumber.toNat cur.first cur.senders 0 hlen
          have hlog : cur.logical.drop (hs.frameNumber.toNat + 1)
              = Frame.logicalFrom cur (0 + hs.frameNumber.toNat + 1) senders1 := by
            rw [Frame.logical, ← List.drop_drop, Frame.logicalFrom_drop, hdrop, Frame.logicalFrom]
            rfl
          rw [hlog]
          simp only [getNextStackFrameImpl, hf, hsp, ne_eq, not_true_eq_false, if_false, hc]
          cases senders1 with
          | nil =>
            cases rest with
            | nil => rfl
            | cons f fs =>
              simp only [Frame.logicalFrom, List.nil_append]
              rw [getNextStackFrameImpl.frames_walk]
              rfl
          | cons s ss =>
            simp only
            rw [getNextStackFrameImpl.frames_walk]
        · rw [if_neg hn0] at h
          simp at h

theorem CompilerToVM.matches_inFilter (method : Int) (ms : List MethodsEntry)
    (hnull : MethodsEntry.null ∉ ms) :
    CompilerToVM.matches ms method = some (decide (MethodsEntry.method method ∈ ms)) := by
  induction ms with
  | nil => simp [CompilerToVM.matches]
  | cons entry rest ih =>
    have hrest : MethodsEntry.null ∉ rest := fun h => hnull (List.mem_cons_of_mem _ h)
    cases entry with
    | method metaspace =>
      rw [CompilerToVM.matches]
      by_cases hm : metaspace = method
      · simp [hm]
      · have hne : method ≠ metaspace := fun h => hm h.symm
        rw [if_neg hm, ih hrest]
        simp [hne]
    | other =>
      rw [CompilerToVM.matches, ih hrest]
      simp
    | null => exact absurd (List.mem_cons_self _ _) hnull

theorem getNextStackFrameImpl.selected_inFilter (methods : Option (List MethodsEntry))
    (hnull : ∀ ms, methods = some ms → MethodsEntry.null ∉ ms) (method : Int) :
    getNextStackFrameImpl.selected methods method = some (MethodsEntry.inFilter methods method) := by
  cases methods with
  | none => rfl
  | some ms => exact CompilerToVM.matches_inFilter method ms (hnull ms rfl)

theorem getNextStackFrameImpl.visit_selected (up : Int → Except Throwable (Option Oop))
    (ctv : Option Oop) (methods : Option (List MethodsEntry))
    (hnull : ∀ ms, methods = some ms → MethodsEntry.null ∉ ms) (lf : LogicalFrame) (skip : Int) :
    getNextStackFrameImpl.visit up ctv methods lf.frame lf.vf lf.frame_number skip
      = if lf.selected methods then
          if skip > 0 then .next (skip - 1)
          else getNextStackFrameImpl.found up ctv lf.frame lf.vf lf.frame_number lf.localIsVirtual
        else .next skip := by
  unfold getNextStackFrameImpl.visit LogicalFrame.selected LogicalFrame.localIsVirtual
  rw [getNextStackFrameImpl.selected_inFilter methods hnull]
  cases hk : lf.frame.kind <;>
    cases hm : MethodsEntry.inFilter methods lf.vf.method <;>
    cases ho : lf.vf.scope_objects <;> simp

theorem getNextStackFrameImpl.walk_skip (up : Int → Except Throwable (Option Oop))
    (ctv : Option Oop) (methods : Option (List MethodsEntry))
    (hnull : ∀ ms, methods = some ms → MethodsEntry.null ∉ ms) (l : List LogicalFrame) :
    ∀ skip : Int, ((l.filter (LogicalFrame.selected methods)).length : Int) ≤ skip →
      (getNextStackFrameImpl.walk up ctv methods l skip).finish = some (.ok none) := by
  induction l with
  | nil => intro skip _; rfl
  | cons lf rest ih =>
    intro skip h
    rw [getNextStackFrameImpl.walk, getNextStackFrameImpl.visit_selected up ctv methods hnull]
    by_cases hsel : lf.selected methods = true
    · rw [List.filter_cons_of_pos hsel, List.length_cons] at h
      push_cast at h
      rw [if_pos hsel, if_pos (by omega)]
      exact ih (skip - 1) (by omega)
    · rw [List.filter_cons_of_neg hsel] at h
      rw [if_neg hsel]
      exact ih skip h

theorem getNextStackFrameImpl.walk_found (up : Int → Except Throwable (Option Oop))
    (ctv : Option Oop) (methods : Option (List MethodsEntry))
    (hnull : ∀ ms, methods = some ms → MethodsEntry.null ∉ ms) (lf : LogicalFrame)
    (l : List LogicalFrame) :
    ∀ skip : Int, 0 ≤ skip →
      (l.filter (LogicalFrame.selected methods))[skip.toNat]? = some lf →
      getNextStackFrameImpl.walk up ctv methods l skip
        = getNextStackFrameImpl.found up ctv lf.frame lf.vf lf.frame_number lf.localIsVirtual := by
  induction l with
  | nil => intro skip _ h; simp at h
  | cons hd rest ih =>
    intro skip h0 h
    rw [getNextStackFrameImpl.walk, getNextStackFrameImpl.visit_selected up ctv methods hnull]
    by_cases hsel : hd.selected methods = true
    · rw [List.filter_cons_of_pos hsel] at h
      rw [if_pos hsel]
      by_cases hpos : skip > 0
      · rw [if_pos hpos]
        have hk : skip.toNat = (skip - 1).toNat + 1 := by omega
        rw [hk, List.getElem?_cons_succ] at h
        exact ih (skip - 1) (by omega) h
      · rw [if_neg hpos]
        have hk : skip.toNat = 0 := by omega
        rw [hk, List.getElem?_cons_zero, Option.some.injEq] at h
        subst h
        cases hf : getNextStackFrameImpl.found up ctv hd.frame hd.vf hd.frame_number
          hd.localIsVirtual with
        | returned r => rfl
        | next s =>
          unfold getNextStackFrameImpl.found at hf
          split at hf <;> simp at hf
        | stopped =>
          unfold getNextStackFrameImpl.found at hf
          split at hf <;> simp at hf
    · rw [List.filter_cons_of_neg hsel] at h
      rw [if_neg hsel]
      exact ih skip h0 h

theorem framesAfter_outermost (init : List Frame) (last : Frame)
    (start : HotSpotStackFrameReference) (hinit : ∀ fr ∈ init, fr.sp ≠ start.stackPointer)
    (hsp : start.stackPointer = last.sp) (hn : start.frameNumber = last.senders.length) :
    framesAfter (init ++ [last]) (some start) = some [] := by
  have hd : (init ++ [last]).dropWhile (fun fr => decide (fr.sp ≠ start.stackPointer)) = [last] := by
    induction init with
    | nil => simp [List.dropWhile, hsp]
    | cons f fs ih =>
      rw [List.cons_append, List.dropWhile_cons_of_pos (by simpa using hinit f (by simp))]
      exact ih fun fr hfr => hinit fr (by simp [hfr])
  have hlen : last.logical.length = last.senders.length + 1 := by
    rw [Frame.logical, Frame.logicalFrom_length, List.length_cons]
  have hnat : start.frameNumber.toNat = last.senders.length := by omega
  have h0 : 0 ≤ start.frameNumber := by omega
  simp only [framesAfter, hd, hnat, hlen, h0, Nat.lt_succ_self, and_self, if_true, logicalFrames,
    List.append_nil]
  rw [List.drop_eq_nil_of_le (by omega)]

/-- C19 fails as stated: with a filter array whose one element is null no
logical frame of the sample stack has its method in the filter set, so that
every skip count is at least their number; the walk asks the null element for
its class at line 863 for the first compiled frame, and the entry point does
not return null. -/
theorem getNextStackFrameImpl_null_filter :
    framesAfter Frame.sample_stack none = some (logicalFrames Frame.sample_stack)
    ∧ (((logicalFrames Frame.sample_stack).filter
          fun lf => MethodsEntry.inFilter (some [.null]) lf.vf.method).length : Int) ≤ 5
    ∧ (((logicalFrames Frame.sample_stack).filter
          (LogicalFrame.selected (some [.null]))).length : Int) ≤ 5
    ∧ getNextStackFrameImpl CompilerToVM.sample_fromMetaspace Frame.sample_stack none none
          (some [.null]) 5 = none
    ∧ getNextStackFrameImpl CompilerToVM.sample_fromMetaspace Frame.sample_stack none none
          (some [.null]) 5 ≠ some (.ok none) :=
  ⟨rfl, by decide, by decide, rfl, fun h => Option.noConfusion h⟩

/-- C19, as amended: when the skip count is at least the number of compiled or
interpreted logical frames after the starting point whose method is in the
filter set (so also when it is at least the number of frames whose method is),
the entry point `getNextStackFrameImpl` returns null and raises no error, for
a filter array without null element; it also returns null for a thread without
Java frame, and when the starting frame is the outermost logical frame of the
outermost physical frame. -/
theorem getNextStackFrameImpl_skip_past_end (fromMetaspace : Int → Except Throwable (Option Oop))
    (stack : List Frame) (compilerToVM : Option Oop) (hs_frame : Option HotSpotStackFrameReference)
    (methods : Option (List MethodsEntry)) (initialSkip : Int) (after : List LogicalFrame)
    (hnull : ∀ ms, methods = some ms → MethodsEntry.null ∉ ms)
    (hstart : framesAfter stack hs_frame = some after)
    (hskip : ((after.filter (LogicalFrame.selected methods)).length : Int) ≤ initialSkip) :
    getNextStackFrameImpl fromMetaspace stack compilerToVM hs_frame methods initialSkip
      = some (.ok none)
    ∧ ((after.filter fun lf => MethodsEntry.inFilter methods lf.vf.method).length
        ≥ (after.filter (LogicalFrame.selected methods)).length)
    ∧ getNextStackFrameImpl fromMetaspace [] compilerToVM hs_frame methods initialSkip
      = some (.ok none)
    ∧ ∀ (inner : List Frame) (outermost : Frame) (start : HotSpotStackFrameReference),
        (∀ fr ∈ inner, fr.sp ≠ start.stackPointer) →
        start.stackPointer = outermost.sp →
        start.frameNumber = outermost.senders.length →
        getNextStackFrameImpl fromMetaspace (inner ++ [outermost]) compilerToVM (some start)
          methods initialSkip = some (.ok none) := by
  refine ⟨?_, ?_, rfl, ?_⟩
  · rw [getNextStackFrameImpl.eq_walk fromMetaspace stack compilerToVM hs_frame methods initialSkip
      after hstart]
    exact getNextStackFrameImpl.walk_skip fromMetaspace compilerToVM methods hnull after
      initialSkip hskip
  · refine (List.monotone_filter_right after ?_).length_le
    intro lf hlf
    simp only [LogicalFrame.selected, Bool.and_eq_true] at hlf
    exact hlf.2
  · intro inner outermost start hinner hsp hn
    rw [getNextStackFrameImpl.eq_walk fromMetaspace (inner ++ [outermost]) compilerToVM (some start)
      methods initialSkip [] (framesAfter_outermost inner outermost start hinner hsp hn)]
    rfl

theorem getNextStackFrameImpl_skip_past_end_witness :
    (∀ ms, some [MethodsEntry.other, .method 103, .method 0] = some ms → MethodsEntry.null ∉ ms)
    ∧ framesAfter Frame.sample_stack (some (HotSpotStackFrameReference.start 1000 0))
        = some ((logicalFrames Frame.sample_stack).drop 1)
    ∧ ((((logicalFrames Frame.sample_stack).drop 1).filter
          (LogicalFrame.selected (some [.other, .method 103, .method 0]))).length : Int) ≤ 1
    ∧ getNextStackFrameImpl CompilerToVM.sample_fromMetaspace Frame.sample_stack none
          (some (HotSpotStackFrameReference.start 1000 0)) (some [.other, .method 103, .method 0]) 1
        = some (.ok none) :=
  ⟨by intro ms h; cases h; decide, by decide, by decide,
    (getNextStackFrameImpl_skip_past_end CompilerToVM.sample_fromMetaspace Frame.sample_stack none
      (some (HotSpotStackFrameReference.start 1000 0)) (some [.other, .method 103, .method 0]) 1
      ((logicalFrames Frame.sample_stack).drop 1) (by intro ms h; cases h; decide) (by decide)
      (by decide)).1⟩

/-- C20 fails as stated: with the filter array of the wrapper of method 103 and
a null element, and skip count 0, the first compiled or interpreted frame of
the sample stack whose method is in the filter set is the interpreted frame
with stack pointer 2000; the walk asks the null element for its class at line
863 for the compiled frame before it, and the entry point returns no frame
reference. -/
theorem getNextStackFrameImpl_null_after_match :
    framesAfter Frame.sample_stack none = some (logicalFrames Frame.sample_stack)
    ∧ ((logicalFrames Frame.sample_stack).filter
          (LogicalFrame.selected (some [.method 103, .null])))[(0 : Int).toNat]?
        = some ⟨Frame.sample_interpreted, 0, Frame.sample_interpreted.first⟩
    ∧ getNextStackFrameImpl CompilerToVM.sample_fromMetaspace Frame.sample_stack none none
          (some [.method 103, .null]) 0 = none
    ∧ ¬ ∃ result, getNextStackFrameImpl CompilerToVM.sample_fromMetaspace Frame.sample_stack none
          none (some [.method 103, .null]) 0 = some (.ok (some result)) :=
  ⟨rfl, by decide, rfl, fun ⟨_, h⟩ => Option.noConfusion h⟩

/-- C20, as amended: with the logical frames enumerated in walk order, from the
first one without a starting frame reference and strictly after the logical
frame with the stack pointer and frame number of the reference otherwise, a call of
`getNextStackFrameImpl` with skip count `k ≥ 0` and a filter array without null
element returns a reference to the `(k+1)`-th compiled or interpreted frame of
the enumeration whose method is in the filter set (any method without a
filter), with `stackPointer`, `frameNumber`, `bci` and `method` (the wrapper
the Java call gives for the method of the frame) set to the values of that
frame; when the Java call throws, the call fails with what it threw. -/
theorem getNextStackFrameImpl_returns_match (fromMetaspace : Int → Except Throwable (Option Oop))
    (stack : List Frame) (compilerToVM : Option Oop) (hs_frame : Option HotSpotStackFrameReference)
    (methods : Option (List MethodsEntry)) (k : Int) (after : List LogicalFrame)
    (lf : LogicalFrame)
    (hnull : ∀ ms, methods = some ms → MethodsEntry.null ∉ ms)
    (hstart : framesAfter stack hs_frame = some after)
    (hk : 0 ≤ k)
    (hlf : (after.filter (LogicalFrame.selected methods))[k.toNat]? = some lf) :
    (∀ method, CompilerToVM.get_jvmci_method fromMetaspace lf.vf.method = .ok method →
      ∃ result,
        getNextStackFrameImpl fromMetaspace stack compilerToVM hs_frame methods k
          = some (.ok (some result))
        ∧ result.stackPointer = lf.frame.sp
        ∧ result.frameNumber = lf.frame_number
        ∧ result.bci = lf.vf.bci
        ∧ result.method = method)
    ∧ (∀ ex, CompilerToVM.get_jvmci_method fromMetaspace lf.vf.method = .error ex →
        getNextStackFrameImpl fromMetaspace stack compilerToVM hs_frame methods k
          = some (.error ex)) := by
  rw [getNextStackFrameImpl.eq_walk fromMetaspace stack compilerToVM hs_frame methods k after hstart,
    getNextStackFrameImpl.walk_found fromMetaspace compilerToVM methods hnull lf after k hk hlf]
  constructor
  · intro method hmethod
    simp only [getNextStackFrameImpl.found, hmethod, WalkExit.finish]
    exact ⟨_, rfl, rfl, rfl, rfl, rfl⟩
  · intro ex hex
    simp only [getNextStackFrameImpl.found, hex, WalkExit.finish]

theorem getNextStackFrameImpl_returns_match_witness :
    (∀ ms, some [MethodsEntry.other, .method 103, .method 102] = some ms → MethodsEntry.null ∉ ms)
    ∧ framesAfter Frame.sample_stack none = some (logicalFrames Frame.sample_stack)
    ∧ (0 : Int) ≤ 1
    ∧ ((logicalFrames Frame.sample_stack).filter
          (LogicalFrame.selected (some [.other, .method 103, .method 102])))[(1 : Int).toNat]?
        = some ⟨Frame.sample_interpreted, 0, Frame.sample_interpreted.first⟩
    ∧ ∃ result,
        getNextStackFrameImpl CompilerToVM.sample_fromMetaspace Frame.sample_stack none none
            (some [.other, .method 103, .method 102]) 1
          = some (.ok (some result))
        ∧ result.stackPointer = 2000
        ∧ result.frameNumber = 0
        ∧ result.bci = 3
        ∧ result.method = some (.ref 103) :=
  ⟨by intro ms h; cases h; decide, rfl, by decide, by decide,
    (getNextStackFrameImpl_returns_match CompilerToVM.sample_fromMetaspace Frame.sample_stack none
      none (some [.other, .method 103, .method 102]) 1 (logicalFrames Frame.sample_stack)
      ⟨Frame.sample_interpreted, 0, Frame.sample_interpreted.first⟩
      (by intro ms h; cases h; decide) rfl (by decide) (by decide)).1 (some (.ref 103)) rfl⟩

/-! ## Properties of the starting frame reference -/

theorem getNextStackFrameImpl.find_none (sp : Int) (callers : List Frame) :
    ∀ top : Frame, (∀ fr ∈ top :: callers, fr.sp ≠ sp) →
      (getNextStackFrameImpl.find sp top callers).1.sp ≠ sp := by
  induction callers with
  | nil =>
    intro top h
    exact h top (List.mem_cons_self _ _)
  | cons f fs ih =>
    intro top h
    rw [getNextStackFrameImpl.find, if_pos (h top (List.mem_cons_self _ _))]
    exact ih f fun fr hfr => h fr (List.mem_cons_of_mem _ hfr)

theorem getNextStackFrameImpl.climb_none (k : Nat) :
    ∀ (vf : VFrame) (senders : List VFrame) (n : Int), (vf :: senders).length ≤ k →
      getNextStackFrameImpl.climb k vf senders n = none := by
  induction k with
  | zero => intro vf senders n h; simp at h
  | succ k ih =>
    intro vf senders n h
    cases senders with
    | nil => rfl
    | cons sender rest =>
      rw [getNextStackFrameImpl.climb]
      exact ih sender rest (n + 1) (by simpa using h)

theorem dropWhile_append_of_forall {α : Type} (p : α → Bool) (inner : List α) (cur : α)
    (rest : List α) (hinner : ∀ a ∈ inner, p a = true) (hcur : p cur = false) :
    (inner ++ cur :: rest).dropWhile p = cur :: rest := by
  induction inner with
  | nil => simp [List.dropWhile, hcur]
  | cons a as ih =>
    rw [List.cons_append, List.dropWhile_cons_of_pos (hinner a (List.mem_cons_self _ _))]
    exact ih fun b hb => hinner b (List.mem_cons_of_mem _ hb)

theorem getNextStackFrameImpl.not_found (up : Int → Except Throwable (Option Oop))
    (top : Frame) (callers : List Frame) (ctv : Option Oop) (hs : HotSpotStackFrameReference)
    (methods : Option (List MethodsEntry)) (skip : Int)
    (h : ∀ fr ∈ top :: callers, fr.sp ≠ hs.stackPointer) :
    getNextStackFrameImpl up (top :: callers) ctv (some hs) methods skip
      = some (.error (.IllegalStateException "stack frame not found")) := by
  have hf := getNextStackFrameImpl.find_none hs.stackPointer callers top h
  simp only [getNextStackFrameImpl]
  rw [if_pos hf]

theorem getNextStackFrameImpl.invalid_number (up : Int → Except Throwable (Option Oop))
    (top : Frame) (callers : List Frame) (ctv : Option Oop) (hs : HotSpotStackFrameReference)
    (methods : Option (List MethodsEntry)) (skip : Int) (cur : Frame) (rest : List Frame)
    (hd : (top :: callers).dropWhile (fun fr => decide (fr.sp ≠ hs.stackPointer)) = cur :: rest)
    (hn : cur.senders.length + 1 ≤ hs.frameNumber.toNat) :
    getNextStackFrameImpl up (top :: callers) ctv (some hs) methods skip
      = some (.error (.IllegalStateException "invalid frame number")) := by
  obtain ⟨hf, hsp⟩ := getNextStackFrameImpl.find_dropWhile hs.stackPointer callers top cur rest hd
  have hc := getNextStackFrameImpl.climb_none hs.frameNumber.toNat cur.first cur.senders 0
    (by simpa using hn)
  simp only [getNextStackFrameImpl, hf, hsp, ne_eq, not_true_eq_false, if_false, hc]

/-- C21 fails as stated: on a thread without Java frame no physical frame has
the stack pointer of the starting frame reference, and the call returns null
(line 873) instead of failing. -/
theorem getNextStackFrameImpl_no_java_frame :
    (∀ fr ∈ ([] : List Frame), fr.sp ≠ (HotSpotStackFrameReference.start 1000 0).stackPointer)
    ∧ getNextStackFrameImpl CompilerToVM.sample_fromMetaspace [] none
        (some (HotSpotStackFrameReference.start 1000 0)) none 0 = some (.ok none) :=
  ⟨by simp, rfl⟩

/-- C21, as amended: on a thread that has a Java frame, a call of
`getNextStackFrameImpl` with a starting frame reference fails with
IllegalStateException "stack frame not found" when no physical frame of the
stack has the stack pointer of the reference, and with IllegalStateException
"invalid frame number" when the first physical frame with that stack pointer
hosts fewer than frameNumber+1 logical frames; in both cases the result is the
exception, no frame reference, whatever the filter and the skip count are. -/
theorem getNextStackFrameImpl_start_missing (fromMetaspace : Int → Except Throwable (Option Oop))
    (stack : List Frame) (compilerToVM : Option Oop) (hs_frame : HotSpotStackFrameReference)
    (methods : Option (List MethodsEntry)) (initialSkip : Int)
    (hjava : stack ≠ []) :
    ((∀ fr ∈ stack, fr.sp ≠ hs_frame.stackPointer) →
      getNextStackFrameImpl fromMetaspace stack compilerToVM (some hs_frame) methods initialSkip
        = some (.error (.IllegalStateException "stack frame not found")))
    ∧ (∀ (inner : List Frame) (cur : Frame) (rest : List Frame),
        stack = inner ++ cur :: rest →
        (∀ fr ∈ inner, fr.sp ≠ hs_frame.stackPointer) →
        cur.sp = hs_frame.stackPointer →
        ((cur.first :: cur.senders).length : Int) < hs_frame.frameNumber + 1 →
        getNextStackFrameImpl fromMetaspace stack compilerToVM (some hs_frame) methods initialSkip
          = some (.error (.IllegalStateException "invalid frame number"))) := by
  cases stack with
  | nil => exact absurd rfl hjava
  | cons top callers =>
    refine ⟨getNextStackFrameImpl.not_found fromMetaspace top callers compilerToVM hs_frame methods
      initialSkip, ?_⟩
    intro inner cur rest hstack hinner hsp hn
    have hd : (top :: callers).dropWhile (fun fr => decide (fr.sp ≠ hs_frame.stackPointer))
        = cur :: rest := by
      rw [hstack]
      exact dropWhile_append_of_forall _ inner cur rest
        (fun fr hfr => by simpa using hinner fr hfr) (by simpa using hsp)
    refine getNextStackFrameImpl.invalid_number fromMetaspace top callers compilerToVM hs_frame
      methods initialSkip cur rest hd ?_
    rw [List.length_cons] at hn
    push_cast at hn
    omega

theorem getNextStackFrameImpl_start_missing_witness :
    Frame.sample_stack ≠ []
    ∧ getNextStackFrameImpl CompilerToVM.sample_fromMetaspace Frame.sample_stack none
        (some (HotSpotStackFrameReference.start 4000 0)) none 0
        = some (.error (.IllegalStateException "stack frame not found"))
    ∧ getNextStackFrameImpl CompilerToVM.sample_fromMetaspace Frame.sample_stack none
        (some (HotSpotStackFrameReference.start 1000 2)) none 0
        = some (.error (.IllegalStateException "invalid frame number")) :=
  ⟨by decide,
    (getNextStackFrameImpl_start_missing CompilerToVM.sample_fromMetaspace Frame.sample_stack none
      (HotSpotStackFrameReference.start 4000 0) none 0 (by decide)).1 (by decide),
    (getNextStackFrameImpl_start_missing CompilerToVM.sample_fromMetaspace Frame.sample_stack none
      (HotSpotStackFrameReference.start 1000 2) none 0 (by decide)).2 []
      Frame.sample_compiled [Frame.sample_interpreted, Frame.sample_entry] rfl (by simp)
      rfl (by decide)⟩

/-! ## Properties of the frame reference returned -/

theorem logicalFrames_mem (lf : LogicalFrame) (stack : List Frame) :
    lf ∈ logicalFrames stack ↔ ∃ fr ∈ stack, lf ∈ fr.logical := by
  induction stack with
  | nil => simp [logicalFrames]
  | cons f fs ih => simp [logicalFrames, ih]

theorem framesAfter_subset (stack : List Frame) (hs : Option HotSpotStackFrameReference)
    (after : List LogicalFrame) (h : framesAfter stack hs = some after) :
    ∀ lf ∈ after, lf ∈ logicalFrames stack := by
  cases hs with
  | none =>
    simp only [framesAfter, Option.some.injEq] at h
    subst h
    exact fun lf hlf => hlf
  | some hs =>
    simp only [framesAfter] at h
    cases hd : stack.dropWhile (fun fr => decide (fr.sp ≠ hs.stackPointer)) with
    | nil => rw [hd] at h; simp at h
    | cons cur rest =>
      rw [hd] at h
      simp only at h
      split at h
      · simp only [Option.some.injEq] at h
        subst h
        intro lf hlf
        have hsub : ∀ fr ∈ cur :: rest, fr ∈ stack := by
          intro fr hfr
          rw [← hd] at hfr
          exact (List.dropWhile_sublist _).subset hfr
        rw [logicalFrames_mem]
        rcases List.mem_append.mp hlf with h1 | h2
        · exact ⟨cur, hsub cur (List.mem_cons_self _ _), List.mem_of_mem_drop h1⟩
        · obtain ⟨fr, hfr, hmem⟩ := (logicalFrames_mem lf rest).mp h2
          exact ⟨fr, hsub fr (List.mem_cons_of_mem _ hfr), hmem⟩
      · simp at h

theorem getNextStackFrameImpl.frameNumber_toNat (up : Int → Except Throwable (Option Oop))
    (stack : List Frame) (ctv : Option Oop) (hs : HotSpotStackFrameReference)
    (methods : Option (List MethodsEntry)) (skip : Int) :
    getNextStackFrameImpl up stack ctv (some hs) methods skip
      = getNextStackFrameImpl up stack ctv
          (some { hs with frameNumber := (hs.frameNumber.toNat : Int) }) methods skip := by
  cases stack with
  | nil => rfl
  | cons top callers => simp only [getNextStackFrameImpl, Int.toNat_ofNat]

/-- A round of the walk that returns a frame reference returns the one of a
compiled or interpreted logical frame of the list. -/
theorem getNextStackFrameImpl.walk_returned (up : Int → Except Throwable (Option Oop))
    (ctv : Option Oop) (methods : Option (List MethodsEntry)) (r : HotSpotStackFrameReference)
    (l : List LogicalFrame) :
    ∀ skip : Int, getNextStackFrameImpl.walk up ctv methods l skip = .returned (.ok (some r)) →
      ∃ lf ∈ l, ∃ method,
        (lf.frame.kind = .compiled ∨ lf.frame.kind = .interpreted)
        ∧ r = { compilerToVM := ctv
                stackPointer := lf.frame.sp
                frameNumber := lf.frame_number
                bci := lf.vf.bci
                method := method
                locals := lf.vf.locals.map fun var => if var.type = .T_OBJECT then var.obj else none
                localIsVirtual := lf.localIsVirtual } := by
  induction l with
  | nil => intro skip h; simp [getNextStackFrameImpl.walk] at h
  | cons hd rest ih =>
    intro skip h
    rw [getNextStackFrameImpl.walk] at h
    cases hv : getNextStackFrameImpl.visit up ctv methods hd.frame hd.vf hd.frame_number skip with
    | next s =>
      rw [hv] at h
      obtain ⟨lf, hlf, hrest⟩ := ih s h
      exact ⟨lf, List.mem_cons_of_mem _ hlf, hrest⟩
    | stopped => rw [hv] at h; simp at h
    | returned res =>
      rw [hv] at h
      simp only [WalkExit.returned.injEq] at h
      subst h
      refine ⟨hd, List.mem_cons_self _ _, ?_⟩
      unfold getNextStackFrameImpl.visit at hv
      cases hk : hd.frame.kind with
      | other => rw [hk] at hv; simp at hv
      | compiled =>
        rw [hk] at hv
        simp only at hv
        cases hsel : getNextStackFrameImpl.selected methods hd.vf.method with
        | none => rw [hsel] at hv; simp at hv
        | some b =>
          rw [hsel] at hv
          cases b with
          | false => simp at hv
          | true =>
            simp only at hv
            split at hv
            · simp at hv
            · unfold getNextStackFrameImpl.found at hv
              cases hm : CompilerToVM.get_jvmci_method up hd.vf.method with
              | error ex => rw [hm] at hv; simp at hv
              | ok method =>
                rw [hm] at hv
                simp only [WalkExit.returned.injEq, Except.ok.injEq, Option.some.injEq] at hv
                refine ⟨method, Or.inl rfl, ?_⟩
                rw [← hv]
                unfold LogicalFrame.localIsVirtual
                rw [hk]
                cases hd.vf.scope_objects <;> rfl
      | interpreted =>
        rw [hk] at hv
        simp only at hv
        cases hsel : getNextStackFrameImpl.selected methods hd.vf.method with
        | none => rw [hsel] at hv; simp at hv
        | some b =>
          rw [hsel] at hv
          cases b with
          | false => simp at hv
          | true =>
            simp only at hv
            split at hv
            · simp at hv
            · unfold getNextStackFrameImpl.found at hv
              cases hm : CompilerToVM.get_jvmci_method up hd.vf.method with
              | error ex => rw [hm] at hv; simp at hv
              | ok method =>
                rw [hm] at hv
                simp only [WalkExit.returned.injEq, Except.ok.injEq, Option.some.injEq] at hv
                refine ⟨method, Or.inr rfl, ?_⟩
                rw [← hv]
                unfold LogicalFrame.localIsVirtual
                rw [hk]

/-- A call that returns a frame reference has walked logical frames of the
stack. -/
theorem getNextStackFrameImpl.returned_walk (up : Int → Except Throwable (Option Oop))
    (stack : List Frame) (ctv : Option Oop) (hs : Option HotSpotStackFrameReference)
    (methods : Option (List MethodsEntry)) (skip : Int) (r : HotSpotStackFrameReference)
    (h : getNextStackFrameImpl up stack ctv hs methods skip = some (.ok (some r))) :
    ∃ l : List LogicalFrame, (∀ lf ∈ l, lf ∈ logicalFrames stack)
      ∧ getNextStackFrameImpl.walk up ctv methods l skip = .returned (.ok (some r)) := by
  have key : ∀ (hs1 : Option HotSpotStackFrameReference) (after : List LogicalFrame),
      framesAfter stack hs1 = some after →
      getNextStackFrameImpl up stack ctv hs1 methods skip = some (.ok (some r)) →
      ∃ l : List LogicalFrame, (∀ lf ∈ l, lf ∈ logicalFrames stack)
        ∧ getNextStackFrameImpl.walk up ctv methods l skip = .returned (.ok (some r)) := by
    intro hs1 after hafter hres
    rw [getNextStackFrameImpl.eq_walk up stack ctv hs1 methods skip after hafter] at hres
    refine ⟨after, framesAfter_subset stack hs1 after hafter, ?_⟩
    cases hw : getNextStackFrameImpl.walk up ctv methods after skip with
    | returned res => rw [hw] at hres; simp only [WalkExit.finish, Option.some.injEq] at hres; rw [hres]
    | next s => rw [hw] at hres; simp [WalkExit.finish] at hres
    | stopped => rw [hw] at hres; simp [WalkExit.finish] at hres
  cases hs with
  | none => exact key none _ rfl h
  | some hs =>
    cases stack with
    | nil => simp [getNextStackFrameImpl] at h
    | cons top callers =>
      cases hd : (top :: callers).dropWhile (fun fr => decide (fr.sp ≠ hs.stackPointer)) with
      | nil =>
        have hall : ∀ fr ∈ top :: callers, fr.sp ≠ hs.stackPointer := by
          intro fr hfr
          have := List.dropWhile_eq_nil_iff.mp hd fr hfr
          simpa using this
        rw [getNextStackFrameImpl.not_found up top callers ctv hs methods skip hall] at h
        simp at h
      | cons cur rest =>
        by_cases hn : hs.frameNumber.toNat < cur.senders.length + 1
        · rw [getNextStackFrameImpl.frameNumber_toNat] at h
          refine key (some { hs with frameNumber := (hs.frameNumber.toNat : Int) })
            (cur.logical.drop (hs.frameNumber.toNat + 1) ++ logicalFrames rest) ?_ h
          have hlen : cur.logical.length = cur.senders.length + 1 := by
            rw [Frame.logical, Frame.logicalFrom_length, List.length_cons]
          simp only [framesAfter, hd, Int.toNat_ofNat, hlen, hn, Int.natCast_nonneg, and_self,
            if_true]
        · rw [getNextStackFrameImpl.invalid_number up top callers ctv hs methods skip cur rest hd
            (by omega)] at h
          simp at h

/-- C22: a frame reference returned by `getNextStackFrameImpl` is the one of a
compiled or interpreted logical frame of the stack.  When the frame is compiled
and its scope records objects, localIsVirtual is an array with one flag per
scope local, and flag i is true exactly when scope local i is an object value;
when the scope of the compiled frame records no objects, or the frame is
interpreted, localIsVirtual is null.  The locals array has one entry per local:
the object of a local of type T_OBJECT and null for every other local. -/
theorem getNextStackFrameImpl_flags_and_locals
    (fromMetaspace : Int → Except Throwable (Option Oop)) (stack : List Frame)
    (compilerToVM : Option Oop) (hs_frame : Option HotSpotStackFrameReference)
    (methods : Option (List MethodsEntry)) (initialSkip : Int) (result : HotSpotStackFrameReference)
    (h : getNextStackFrameImpl fromMetaspace stack compilerToVM hs_frame methods initialSkip
      = some (.ok (some result))) :
    ∃ lf ∈ logicalFrames stack,
      result.stackPointer = lf.frame.sp ∧ result.frameNumber = lf.frame_number
      ∧ (lf.frame.kind = .compiled ∨ lf.frame.kind = .interpreted)
      ∧ (∀ objects, lf.frame.kind = .compiled → lf.vf.scope_objects = some objects →
          ∃ flags, result.localIsVirtual = some flags
            ∧ flags.length = lf.vf.scope_locals.length
            ∧ ∀ (i : Nat) (value : ScopeValue), lf.vf.scope_locals[i]? = some value →
                ∃ flag, flags[i]? = some flag ∧ (flag = true ↔ value.is_object = true))
      ∧ (lf.frame.kind = .compiled → lf.vf.scope_objects = none → result.localIsVirtual = none)
      ∧ (lf.frame.kind = .interpreted → result.localIsVirtual = none)
      ∧ result.locals.length = lf.vf.locals.length
      ∧ ∀ (i : Nat) (var : StackValue), lf.vf.locals[i]? = some var →
          (var.type = .T_OBJECT → result.locals[i]? = some var.obj)
          ∧ (var.type ≠ .T_OBJECT → result.locals[i]? = some none) := by
  obtain ⟨l, hsub, hw⟩ := getNextStackFrameImpl.returned_walk fromMetaspace stack compilerToVM
    hs_frame methods initialSkip result h
  obtain ⟨lf, hlf, method, hkind, hr⟩ := getNextStackFrameImpl.walk_returned fromMetaspace
    compilerToVM methods result l initialSkip hw
  subst hr
  refine ⟨lf, hsub lf hlf, rfl, rfl, hkind, ?_, ?_, ?_, by simp, ?_⟩
  · intro objects hk ho
    refine ⟨lf.vf.scope_locals.map fun value => value.is_object, ?_, by simp, ?_⟩
    · simp only [LogicalFrame.localIsVirtual, hk, ho]
    · intro i value hi
      exact ⟨value.is_object, by simp [List.getElem?_map, hi], Iff.rfl⟩
  · intro hk ho
    simp only [LogicalFrame.localIsVirtual, hk, ho]
  · intro hk
    simp only [LogicalFrame.localIsVirtual, hk]
  · intro i var hi
    constructor
    · intro ht
      simp [List.getElem?_map, hi, ht]
    · intro ht
      simp [List.getElem?_map, hi, ht]

theorem getNextStackFrameImpl_flags_and_locals_witness :
    getNextStackFrameImpl CompilerToVM.sample_fromMetaspace Frame.sample_stack none none none 0
      = some (.ok (some
          { compilerToVM := none, stackPointer := 1000, frameNumber := 0, bci := 7,
            method := some (.ref 101), locals := [some (.ref 1), none],
            localIsVirtual := some [true, false] }))
    ∧ ∃ lf ∈ logicalFrames Frame.sample_stack,
        (1000 : Int) = lf.frame.sp ∧ (0 : Int) = lf.frame_number
        ∧ (lf.frame.kind = .compiled ∨ lf.frame.kind = .interpreted)
        ∧ (∀ objects, lf.frame.kind = .compiled → lf.vf.scope_objects = some objects →
            ∃ flags, some [true, false] = some flags
              ∧ flags.length = lf.vf.scope_locals.length
              ∧ ∀ (i : Nat) (value : ScopeValue), lf.vf.scope_locals[i]? = some value →
                  ∃ flag, flags[i]? = some flag ∧ (flag = true ↔ value.is_object = true))
        ∧ (lf.frame.kind = .compiled → lf.vf.scope_objects = none →
            some [true, false] = (none : Option (List Bool)))
        ∧ (lf.frame.kind = .interpreted → some [true, false] = (none : Option (List Bool)))
        ∧ [some (Oop.ref 1), none].length = lf.vf.locals.length
        ∧ ∀ (i : Nat) (var : StackValue), lf.vf.locals[i]? = some var →
            (var.type = .T_OBJECT → [some (Oop.ref 1), none][i]? = some var.obj)
            ∧ (var.type ≠ .T_OBJECT → [some (Oop.ref 1), none][i]? = some none) :=
  ⟨rfl, getNextStackFrameImpl_flags_and_locals CompilerToVM.sample_fromMetaspace
    Frame.sample_stack none none none 0 _ rfl⟩

/-! ## Properties of materializeVirtualObjects -/

/-- The search of `materializeVirtualObjects` stops at the first physical frame
with the stack pointer of the frame reference. -/
theorem materializeVirtualObjects.eq_located (free : Nat) (inner : List Frame) (cur : Frame)
    (rest : List Frame) (hs : HotSpotStackFrameReference) (invalidate : Bool)
    (hinner : ∀ fr ∈ inner, fr.sp ≠ hs.stackPointer) (hsp : cur.sp = hs.stackPointer) :
    materializeVirtualObjects free (inner ++ cur :: rest) (some hs) invalidate
      = materializeVirtualObjects.located free cur hs invalidate := by
  have hd : (inner ++ cur :: rest).dropWhile (fun fr => decide (fr.sp ≠ hs.stackPointer))
      = cur :: rest :=
    dropWhile_append_of_forall _ inner cur rest (fun fr hfr => by simpa using hinner fr hfr)
      (by simpa using hsp)
  cases hstack : inner ++ cur :: rest with
  | nil => simp at hstack
  | cons top callers =>
    rw [hstack] at hd
    obtain ⟨hf, _⟩ := getNextStackFrameImpl.find_dropWhile hs.stackPointer callers top cur rest hd
    simp only [materializeVirtualObjects, hf, hsp, ne_eq, not_true_eq_false, if_false]

/-- A stack on which the search of `materializeVirtualObjects` finds a frame is
one with a first physical frame that has the stack pointer looked for. -/
theorem exists_first_sp (sp : Int) (stack : List Frame) (cur : Frame) (rest : List Frame)
    (hd : stack.dropWhile (fun fr => decide (fr.sp ≠ sp)) = cur :: rest) :
    ∃ inner, stack = inner ++ cur :: rest ∧ (∀ fr ∈ inner, fr.sp ≠ sp) ∧ cur.sp = sp := by
  induction stack with
  | nil => simp at hd
  | cons f fs ih =>
    by_cases hp : f.sp = sp
    · rw [List.dropWhile_cons_of_neg (by simpa using hp)] at hd
      simp only [List.cons.injEq] at hd
      obtain ⟨h1, h2⟩ := hd
      subst h1 h2
      exact ⟨[], rfl, by simp, hp⟩
    · rw [List.dropWhile_cons_of_pos (by simpa using hp)] at hd
      obtain ⟨inner, h1, h2, h3⟩ := ih hd
      refine ⟨f :: inner, by rw [h1]; rfl, ?_, h3⟩
      intro fr hfr
      rcases List.mem_cons.mp hfr with h | h
      · rw [h]; exact hp
      · exact h2 fr h

/-- C23, what the code does: a null frame reference fails with
NullPointerException, and a frame reference whose stack pointer no physical
frame of the stack has fails with IllegalStateException.  When the first
physical frame with the stack pointer is found and invalidate is set, the code
of the frame is made not entrant before the frame is tested: for a frame whose
code blob is no nmethod, as the one of the interpreted frame of the sample
stack, the VM stops at line 1051 instead of failing with
IllegalStateException.  Without invalidate, or on an nmethod, a frame that is
not compiled fails with IllegalStateException, and so does a compiled frame
that hosts no more logical frames than the frame number. -/
theorem materializeVirtualObjects_errors (free : Nat) (invalidate : Bool) :
    (Frame.sample_interpreted.kind ≠ .compiled
      ∧ materializeVirtualObjects free Frame.sample_stack
          (some (HotSpotStackFrameReference.start 2000 0)) true = none)
    ∧ (∀ stack, (materializeVirtualObjects free stack none invalidate).map (fun r => r.result)
        = some (.error .NullPointerException))
    ∧ (∀ top callers hs, (∀ fr ∈ top :: callers, fr.sp ≠ hs.stackPointer) →
        (materializeVirtualObjects free (top :: callers) (some hs) invalidate).map
            (fun r => r.result)
          = some (.error (.IllegalStateException "stack frame not found")))
    ∧ (∀ inner cur rest hs, (∀ fr ∈ inner, fr.sp ≠ hs.stackPointer) → cur.sp = hs.stackPointer →
        (cur.cb_is_nmethod = false →
          materializeVirtualObjects free (inner ++ cur :: rest) (some hs) true = none)
        ∧ (invalidate = false ∨ cur.cb_is_nmethod = true →
            (cur.kind ≠ .compiled →
              (materializeVirtualObjects free (inner ++ cur :: rest) (some hs) invalidate).map
                  (fun r => r.result)
                = some (.error (.IllegalStateException "compiled stack frame expected")))
            ∧ (cur.kind = .compiled →
                hs.frameNumber ≥ ((cur.first :: cur.senders).length : Int) →
                (materializeVirtualObjects free (inner ++ cur :: rest) (some hs) invalidate).map
                    (fun r => r.result)
                  = some (.error (.IllegalStateException "invalid frame number"))))) := by
  refine ⟨⟨by decide, rfl⟩, fun stack => rfl, ?_, ?_⟩
  · intro top callers hs h
    have hf := getNextStackFrameImpl.find_none hs.stackPointer callers top h
    simp only [materializeVirtualObjects]
    rw [if_pos hf]
    rfl
  · intro inner cur rest hs hinner hsp
    refine ⟨?_, ?_⟩
    · intro hnm
      rw [materializeVirtualObjects.eq_located free inner cur rest hs true hinner hsp,
        materializeVirtualObjects.located, if_pos ⟨rfl, hnm⟩]
    · intro hinv
      have hguard : ¬ (invalidate = true ∧ cur.cb_is_nmethod = false) := by
        rintro ⟨h1, h2⟩
        rcases hinv with h | h
        · rw [h] at h1; exact Bool.noConfusion h1
        · rw [h] at h2; exact Bool.noConfusion h2
      refine ⟨?_, ?_⟩
      · intro hk
        rw [materializeVirtualObjects.eq_located free inner cur rest hs invalidate hinner hsp,
          materializeVirtualObjects.located, if_neg hguard]
        simp only [hk, ne_eq, not_false_eq_true, if_true, Option.map_some']
      · intro hk hn
        rw [materializeVirtualObjects.eq_located free inner cur rest hs invalidate hinner hsp,
          materializeVirtualObjects.located, if_neg hguard]
        simp only [hk, ne_eq, not_true_eq_false, if_false, hn, if_true, Option.map_some']

/-- The outcomes of `materializeVirtualObjects` once the physical frame is
located. -/
theorem materializeVirtualObjects.located_cases (free : Nat) (cur : Frame)
    (hs : HotSpotStackFrameReference) (invalidate : Bool) (r : MaterializeReturn)
    (h : materializeVirtualObjects.located free cur hs invalidate = some r) :
    (invalidate = true → cur.cb_is_nmethod = true)
    ∧ ((cur.kind ≠ .compiled
          ∧ r = { result := .error (.IllegalStateException "compiled stack frame expected")
                  hs_frame := some hs
                  effects := (if invalidate then [.make_not_entrant cur.sp] else [])
                    ++ [.deoptimize cur.sp] })
        ∨ (cur.kind = .compiled ∧ hs.frameNumber ≥ ((cur.first :: cur.senders).length : Int)
          ∧ r = { result := .error (.IllegalStateException "invalid frame number")
                  hs_frame := some hs
                  effects := (if invalidate then [.make_not_entrant cur.sp] else [])
                    ++ [.deoptimize cur.sp] })
        ∨ (cur.kind = .compiled ∧ 0 ≤ hs.frameNumber
          ∧ ∃ target, (cur.first :: cur.senders)[hs.frameNumber.toNat]? = some target
            ∧ ((target.scope_objects = none
                ∧ r = { result := .ok (), hs_frame := some hs
                        effects := (if invalidate then [.make_not_entrant cur.sp] else [])
                          ++ [.deoptimize cur.sp] })
              ∨ ∃ objects updates array, target.scope_objects = some objects
                ∧ materializeVirtualObjects.update_frames
                    (Deoptimization.realloc_objects free objects) cur.sp
                    (cur.first :: cur.senders) 0 = some updates
                ∧ materializeVirtualObjects.refresh
                    (compiledVFrame.locals (Deoptimization.realloc_objects free objects) target)
                    hs.locals = some array
                ∧ r = { result := .ok ()
                        hs_frame := some { hs with localIsVirtual := none, locals := array }
                        effects := (if invalidate then [.make_not_entrant cur.sp] else [])
                          ++ [.deoptimize cur.sp]
                          ++ [.realloc_objects cur.sp objects, .reassign_fields cur.sp objects]
                          ++ updates }))) := by
  unfold materializeVirtualObjects.located at h
  split at h
  · simp at h
  · rename_i hguard
    refine ⟨fun hi => by
      cases hc : cur.cb_is_nmethod with
      | true => rfl
      | false => exact absurd ⟨hi, hc⟩ hguard, ?_⟩
    simp only at h
    split at h
    · rename_i hk
      simp only [Option.some.injEq] at h
      exact Or.inl ⟨hk, h.symm⟩
    · rename_i hk
      have hk : cur.kind = .compiled := by simpa using hk
      split at h
      · rename_i hn
        simp only [Option.some.injEq] at h
        exact Or.inr (Or.inl ⟨hk, hn, h.symm⟩)
      · rename_i hn
        refine Or.inr (Or.inr ⟨hk, ?_⟩)
        by_cases hneg : hs.frameNumber < 0
        · rw [if_pos hneg] at h
          simp at h
        · rw [if_neg hneg] at h
          refine ⟨by omega, ?_⟩
          cases ht : (cur.first :: cur.senders)[hs.frameNumber.toNat]? with
          | none => rw [ht] at h; simp at h
          | some target =>
            rw [ht] at h
            refine ⟨target, rfl, ?_⟩
            simp only at h
            cases ho : target.scope_objects with
            | none =>
              rw [ho] at h
              simp only [Option.some.injEq] at h
              exact Or.inl ⟨rfl, h.symm⟩
            | some objects =>
              rw [ho] at h
              simp only at h
              cases hu : materializeVirtualObjects.update_frames
                  (Deoptimization.realloc_objects free objects) cur.sp
                  (cur.first :: cur.senders) 0 with
              | none => rw [hu] at h; simp at h
              | some updates =>
                rw [hu] at h
                simp only at h
                cases hr : materializeVirtualObjects.refresh
                    (compiledVFrame.locals (Deoptimization.realloc_objects free objects) target)
                    hs.locals with
                | none => rw [hr] at h; simp at h
                | some array =>
                  rw [hr] at h
                  simp only [Option.some.injEq] at h
                  exact Or.inr ⟨objects, updates, array, rfl, hu, hr, h.symm⟩

/-- A call of `materializeVirtualObjects` with a frame reference either finds
no physical frame with its stack pointer, or goes on at the first one. -/
theorem materializeVirtualObjects.cases_found (free : Nat) (stack : List Frame)
    (hs : HotSpotStackFrameReference) (invalidate : Bool) (r : MaterializeReturn)
    (h : materializeVirtualObjects free stack (some hs) invalidate = some r) :
    ((∀ fr ∈ stack, fr.sp ≠ hs.stackPointer)
        ∧ r = { result := .error (.IllegalStateException "stack frame not found")
                hs_frame := some hs, effects := [] })
      ∨ ∃ inner cur rest, stack = inner ++ cur :: rest ∧ (∀ fr ∈ inner, fr.sp ≠ hs.stackPointer)
          ∧ cur.sp = hs.stackPointer
          ∧ materializeVirtualObjects.located free cur hs invalidate = some r := by
  cases stack with
  | nil => simp [materializeVirtualObjects] at h
  | cons top callers =>
    cases hd : (top :: callers).dropWhile (fun fr => decide (fr.sp ≠ hs.stackPointer)) with
    | nil =>
      have hall : ∀ fr ∈ top :: callers, fr.sp ≠ hs.stackPointer := by
        intro fr hfr
        have := List.dropWhile_eq_nil_iff.mp hd fr hfr
        simpa using this
      have hf := getNextStackFrameImpl.find_none hs.stackPointer callers top hall
      simp only [materializeVirtualObjects] at h
      rw [if_pos hf] at h
      simp only [Option.some.injEq] at h
      exact Or.inl ⟨hall, h.symm⟩
    | cons cur rest =>
      obtain ⟨inner, hstack, hinner, hsp⟩ := exists_first_sp hs.stackPointer _ cur rest hd
      refine Or.inr ⟨inner, cur, rest, hstack, hinner, hsp, ?_⟩
      rw [hstack, materializeVirtualObjects.eq_located free inner cur rest hs invalidate hinner
        hsp] at h
      exact h

/-- C26: `materializeVirtualObjects` is not atomic on error.  A call that fails
with "compiled stack frame expected" or with "invalid frame number" has made
the code of the physical frame it located not entrant, exactly when invalidate
is set, and has then deoptimized the frame, and has done nothing else; a call
that fails with "stack frame not found" or, for a null frame reference, with
NullPointerException has done nothing.  The frame reference is as it was in
all four cases. -/
theorem materializeVirtualObjects_not_atomic (free : Nat) (stack : List Frame)
    (hs_frame : Option HotSpotStackFrameReference) (invalidate : Bool) (r : MaterializeReturn)
    (h : materializeVirtualObjects free stack hs_frame invalidate = some r) :
    ((r.result = .error (.IllegalStateException "compiled stack frame expected")
        ∨ r.result = .error (.IllegalStateException "invalid frame number")) →
      ∃ cur ∈ stack, ∃ hs, hs_frame = some hs ∧ cur.sp = hs.stackPointer
        ∧ r.effects = (if invalidate then [.make_not_entrant cur.sp] else [])
            ++ [.deoptimize cur.sp]
        ∧ (.make_not_entrant cur.sp ∈ r.effects ↔ invalidate = true)
        ∧ .deoptimize cur.sp ∈ r.effects
        ∧ r.hs_frame = hs_frame)
    ∧ ((r.result = .error (.IllegalStateException "stack frame not found")
        ∨ r.result = .error .NullPointerException) →
      r.effects = [] ∧ r.hs_frame = hs_frame) := by
  cases hs_frame with
  | none =>
    simp only [materializeVirtualObjects, Option.some.injEq] at h
    subst h
    refine ⟨?_, fun _ => ⟨rfl, rfl⟩⟩
    rintro (h | h) <;> simp at h
  | some hs =>
    rcases materializeVirtualObjects.cases_found free stack hs invalidate r h with
      ⟨_, hr⟩ | ⟨inner, cur, rest, hstack, hinner, hsp, hloc⟩
    · subst hr
      refine ⟨?_, fun _ => ⟨rfl, rfl⟩⟩
      rintro (h | h) <;> simp at h
    · have hmem : cur ∈ stack := by rw [hstack]; simp
      have heff : ∀ effects : List MaterializeEffect,
          effects = (if invalidate then [.make_not_entrant cur.sp] else [])
            ++ [.deoptimize cur.sp] →
          (MaterializeEffect.make_not_entrant cur.sp ∈ effects ↔ invalidate = true)
            ∧ MaterializeEffect.deoptimize cur.sp ∈ effects := by
        intro effects he
        subst he
        cases invalidate <;> simp
      obtain ⟨_, hcase⟩ := materializeVirtualObjects.located_cases free cur hs invalidate r hloc
      rcases hcase with ⟨_, hr⟩ | ⟨_, _, hr⟩ | ⟨_, _, target, _, ⟨_, hr⟩ | ⟨objects, updates, array, _, _, _, hr⟩⟩
      · subst hr
        refine ⟨fun _ => ⟨cur, hmem, hs, rfl, hsp, rfl, (heff _ rfl).1, (heff _ rfl).2, rfl⟩, ?_⟩
        rintro (h | h) <;> simp at h
      · subst hr
        refine ⟨fun _ => ⟨cur, hmem, hs, rfl, hsp, rfl, (heff _ rfl).1, (heff _ rfl).2, rfl⟩, ?_⟩
        rintro (h | h) <;> simp at h
      · subst hr
        constructor <;> rintro (h | h) <;> simp at h
      · subst hr
        constructor <;> rintro (h | h) <;> simp at h

theorem materializeVirtualObjects_not_atomic_witness :
    materializeVirtualObjects 100 Frame.sample_stack
        (some (HotSpotStackFrameReference.start 1000 2)) true
      = some { result := .error (.IllegalStateException "invalid frame number")
               hs_frame := some (HotSpotStackFrameReference.start 1000 2)
               effects := [.make_not_entrant 1000, .deoptimize 1000] }
    ∧ ∃ cur ∈ Frame.sample_stack, ∃ hs,
        some (HotSpotStackFrameReference.start 1000 2) = some hs ∧ cur.sp = hs.stackPointer
        ∧ [MaterializeEffect.make_not_entrant 1000, .deoptimize 1000]
            = (if true then [.make_not_entrant cur.sp] else []) ++ [.deoptimize cur.sp]
        ∧ (.make_not_entrant cur.sp ∈ [MaterializeEffect.make_not_entrant 1000, .deoptimize 1000]
            ↔ true = true)
        ∧ .deoptimize cur.sp ∈ [MaterializeEffect.make_not_entrant 1000, .deoptimize 1000]
        ∧ some (HotSpotStackFrameReference.start 1000 2)
            = some (HotSpotStackFrameReference.start 1000 2) :=
  ⟨rfl, (materializeVirtualObjects_not_atomic 100 Frame.sample_stack
    (some (HotSpotStackFrameReference.start 1000 2)) true _ rfl).1 (Or.inr rfl)⟩

/-- The array of the frame reference after the loop of lines 1111-1116. -/
theorem materializeVirtualObjects.refresh_spec (locals : List StackValue) :
    ∀ (array after : List (Option Oop)),
      materializeVirtualObjects.refresh locals array = some after →
      after.length = array.length
      ∧ ∀ (i : Nat) (var : StackValue), locals[i]? = some var →
          (var.type = .T_OBJECT → after[i]? = some var.obj)
          ∧ (var.type ≠ .T_OBJECT → after[i]? = array[i]?) := by
  induction locals with
  | nil =>
    intro array after h
    simp only [materializeVirtualObjects.refresh, Option.some.injEq] at h
    subst h
    exact ⟨rfl, fun i var hi => by simp at hi⟩
  | cons var0 rest ih =>
    intro array after h
    cases array with
    | nil =>
      rw [materializeVirtualObjects.refresh] at h
      by_cases ht : var0.type = .T_OBJECT
      · rw [if_pos ht] at h; simp at h
      · rw [if_neg ht] at h
        obtain ⟨hlen, hrest⟩ := ih [] after h
        refine ⟨hlen, ?_⟩
        intro i var hi
        have hnil : after = [] := List.length_eq_zero.mp (by simpa using hlen)
        cases i with
        | zero =>
          simp only [List.getElem?_cons_zero, Option.some.injEq] at hi
          subst hi
          exact ⟨fun h1 => absurd h1 ht, fun _ => by rw [hnil]⟩
        | succ k =>
          rw [List.getElem?_cons_succ] at hi
          obtain ⟨h1, h2⟩ := hrest k var hi
          constructor
          · intro hobj
            have := h1 hobj
            rw [hnil] at this
            simp at this
          · intro _
            rw [hnil]
    | cons element array =>
      rw [materializeVirtualObjects.refresh] at h
      cases hr : materializeVirtualObjects.refresh rest array with
      | none => rw [hr] at h; simp at h
      | some tail =>
        rw [hr] at h
        simp only [Option.some.injEq] at h
        subst h
        obtain ⟨hlen, hrest⟩ := ih array tail hr
        refine ⟨by simp [hlen], ?_⟩
        intro i var hi
        cases i with
        | zero =>
          simp only [List.getElem?_cons_zero, Option.some.injEq] at hi
          subst hi
          constructor
          · intro h1; simp [h1]
          · intro h1; simp [h1]
        | succ k =>
          rw [List.getElem?_cons_succ] at hi
          simpa using hrest k var hi

/-- C24 fails as stated: `getNextStackFrameImpl` returns, for the innermost
logical frame of the compiled frame at the top of the sample stack, a frame
reference with the virtual flags true and false.  When the physical frame has
moved on to a bci where its scopes record no objects, a call of
`materializeVirtualObjects` with that frame reference finds the frame, returns
without error at line 1081, and leaves the flags of the frame reference as
they were. -/
theorem materializeVirtualObjects_keeps_flags :
    getNextStackFrameImpl CompilerToVM.sample_fromMetaspace Frame.sample_stack none none none 0
      = some (.ok (some HotSpotStackFrameReference.sample_issued))
    ∧ materializeVirtualObjects 100
        [Frame.sample_advanced, Frame.sample_interpreted, Frame.sample_entry]
        (some HotSpotStackFrameReference.sample_issued) false
      = some { result := .ok (), hs_frame := some HotSpotStackFrameReference.sample_issued
               effects := [.deoptimize 1000] }
    ∧ HotSpotStackFrameReference.sample_issued.localIsVirtual = some [true, false] :=
  ⟨rfl, rfl, rfl⟩

/-- C24, as amended: a call of `materializeVirtualObjects` that returns without
error has found the compiled physical frame and the logical frame of the frame
reference.  When the scope of that logical frame records objects, the
virtual flags of the frame reference are null afterwards, its locals array has
the length it had, every element of the array at the index of a local of type
T_OBJECT is the value that local has after the reallocation, and the other
fields are the same.  When the scope records no objects, the frame reference is
as it was: for a frame reference that has the flags and the locals array
`getNextStackFrameImpl` gives for the logical frame as it stands, the flags are
null afterwards and every element of the array at the index of a local of type
T_OBJECT is the value of that local. -/
theorem materializeVirtualObjects_refreshes (free : Nat) (stack : List Frame)
    (hs_frame : HotSpotStackFrameReference) (invalidate : Bool) (r : MaterializeReturn)
    (h : materializeVirtualObjects free stack (some hs_frame) invalidate = some r)
    (hok : r.result = .ok ()) :
    ∃ cur ∈ stack, cur.sp = hs_frame.stackPointer ∧ cur.kind = .compiled
      ∧ 0 ≤ hs_frame.frameNumber
      ∧ ∃ target, (cur.first :: cur.senders)[hs_frame.frameNumber.toNat]? = some target
        ∧ (target.scope_objects = none → r.hs_frame = some hs_frame)
        ∧ (∀ objects, target.scope_objects = some objects →
            ∃ after, r.hs_frame = some after
              ∧ after.localIsVirtual = none
              ∧ after.locals.length = hs_frame.locals.length
              ∧ (∀ (i : Nat) (var : StackValue),
                  (compiledVFrame.locals (Deoptimization.realloc_objects free objects)
                    target)[i]? = some var →
                  var.type = .T_OBJECT → after.locals[i]? = some var.obj)
              ∧ after.stackPointer = hs_frame.stackPointer
              ∧ after.frameNumber = hs_frame.frameNumber
              ∧ after.bci = hs_frame.bci ∧ after.method = hs_frame.method
              ∧ after.compilerToVM = hs_frame.compilerToVM)
        ∧ (target.scope_objects = none →
            hs_frame.localIsVirtual
              = LogicalFrame.localIsVirtual
                  { frame := cur, frame_number := hs_frame.frameNumber, vf := target } →
            hs_frame.locals
              = (target.locals.map fun var => if var.type = .T_OBJECT then var.obj else none) →
            ∃ after, r.hs_frame = some after
              ∧ after.localIsVirtual = none
              ∧ after.locals.length = target.locals.length
              ∧ ∀ (i : Nat) (var : StackValue), target.locals[i]? = some var →
                  var.type = .T_OBJECT → after.locals[i]? = some var.obj) := by
  rcases materializeVirtualObjects.cases_found free stack hs_frame invalidate r h with
    ⟨_, hr⟩ | ⟨inner, cur, rest, hstack, hinner, hsp, hloc⟩
  · subst hr; simp at hok
  · have hmem : cur ∈ stack := by rw [hstack]; simp
    obtain ⟨_, hcase⟩ := materializeVirtualObjects.located_cases free cur hs_frame invalidate r hloc
    rcases hcase with ⟨_, hr⟩ | ⟨_, _, hr⟩ |
      ⟨hk, h0, target, ht, ⟨ho, hr⟩ | ⟨objects, updates, array, ho, hu, hrf, hr⟩⟩
    · subst hr; simp at hok
    · subst hr; simp at hok
    · subst hr
      refine ⟨cur, hmem, hsp, hk, h0, target, ht, fun _ => rfl, ?_, ?_⟩
      · intro objects hobj
        rw [ho] at hobj
        simp at hobj
      · intro _ hflags hlocals
        refine ⟨hs_frame, rfl, ?_, ?_, ?_⟩
        · rw [hflags]
          simp only [LogicalFrame.localIsVirtual, ho]
          cases cur.kind <;> rfl
        · rw [hlocals, List.length_map]
        · intro i var hi hty
          rw [hlocals, List.getElem?_map, hi, Option.map_some', if_pos hty]
    · subst hr
      refine ⟨cur, hmem, hsp, hk, h0, target, ht, ?_, ?_, ?_⟩
      · intro hnone
        rw [ho] at hnone
        simp at hnone
      · intro objects2 hobj
        rw [ho] at hobj
        simp only [Option.some.injEq] at hobj
        subst hobj
        obtain ⟨hlen, hvals⟩ := materializeVirtualObjects.refresh_spec _ _ _ hrf
        exact ⟨_, rfl, rfl, hlen, fun i var hi hty => (hvals i var hi).1 hty, rfl, rfl, rfl, rfl,
          rfl⟩
      · intro hnone
        rw [ho] at hnone
        simp at hnone

theorem materializeVirtualObjects_refreshes_witness :
    (materializeVirtualObjects 100 [Frame.sample_entry, Frame.sample_shared]
        (some HotSpotStackFrameReference.sample_shared) true
      = some { result := .ok ()
               hs_frame := some { HotSpotStackFrameReference.sample_shared with
                 localIsVirtual := none
                 locals := [some (.ref 3), some (.ref 100), some (.ref 101)] }
               effects := [.make_not_entrant 5000, .deoptimize 5000,
                 .realloc_objects 5000 [⟨true, 7⟩, ⟨true, 8⟩],
                 .reassign_fields 5000 [⟨true, 7⟩, ⟨true, 8⟩],
                 .update_local 5000 0 0 (some (.ref 100)),
                 .update_local 5000 1 1 (some (.ref 100)),
                 .update_local 5000 1 2 (some (.ref 101))] }
      ∧ (Except.ok () : Except Throwable Unit) = .ok ()
      ∧ ∃ cur ∈ [Frame.sample_entry, Frame.sample_shared],
        cur.sp = HotSpotStackFrameReference.sample_shared.stackPointer
        ∧ cur.kind = .compiled
        ∧ 0 ≤ HotSpotStackFrameReference.sample_shared.frameNumber
        ∧ ∃ target,
          (cur.first :: cur.senders)[HotSpotStackFrameReference.sample_shared.frameNumber.toNat]?
            = some target
          ∧ (target.scope_objects = none →
              some { HotSpotStackFrameReference.sample_shared with
                    localIsVirtual := none
                    locals := [some (.ref 3), some (.ref 100), some (.ref 101)] }
                = some HotSpotStackFrameReference.sample_shared)
          ∧ (∀ objects, target.scope_objects = some objects →
              ∃ after,
                some { HotSpotStackFrameReference.sample_shared with
                    localIsVirtual := none
                    locals := [some (.ref 3), some (.ref 100), some (.ref 101)] } = some after
                ∧ after.localIsVirtual = none
                ∧ after.locals.length = HotSpotStackFrameReference.sample_shared.locals.length
                ∧ (∀ (i : Nat) (var : StackValue),
                    (compiledVFrame.locals (Deoptimization.realloc_objects 100 objects)
                      target)[i]? = some var →
                    var.type = .T_OBJECT → after.locals[i]? = some var.obj)
                ∧ after.stackPointer = HotSpotStackFrameReference.sample_shared.stackPointer
                ∧ after.frameNumber = HotSpotStackFrameReference.sample_shared.frameNumber
                ∧ after.bci = HotSpotStackFrameReference.sample_shared.bci
                ∧ after.method = HotSpotStackFrameReference.sample_shared.method
                ∧ after.compilerToVM = HotSpotStackFrameReference.sample_shared.compilerToVM)
          ∧ (target.scope_objects = none →
              HotSpotStackFrameReference.sample_shared.localIsVirtual
                = LogicalFrame.localIsVirtual
                    { frame := cur
                      frame_number := HotSpotStackFrameReference.sample_shared.frameNumber
                      vf := target } →
              HotSpotStackFrameReference.sample_shared.locals
                = (target.locals.map fun var => if var.type = .T_OBJECT then var.obj else none) →
              ∃ after,
                some { HotSpotStackFrameReference.sample_shared with
                    localIsVirtual := none
                    locals := [some (.ref 3), some (.ref 100), some (.ref 101)] } = some after
                ∧ after.localIsVirtual = none
                ∧ after.locals.length = target.locals.length
                ∧ ∀ (i : Nat) (var : StackValue), target.locals[i]? = some var →
                    var.type = .T_OBJECT → after.locals[i]? = some var.obj))
    ∧ (getNextStackFrameImpl CompilerToVM.sample_fromMetaspace
          [Frame.sample_advanced, Frame.sample_interpreted, Frame.sample_entry] none none none 0
        = some (.ok (some HotSpotStackFrameReference.sample_current))
      ∧ materializeVirtualObjects 100
          [Frame.sample_advanced, Frame.sample_interpreted, Frame.sample_entry]
          (some HotSpotStackFrameReference.sample_current) false
        = some { result := .ok (), hs_frame := some HotSpotStackFrameReference.sample_current
                 effects := [.deoptimize 1000] }
      ∧ ∃ cur ∈ [Frame.sample_advanced, Frame.sample_interpreted, Frame.sample_entry],
        cur.sp = HotSpotStackFrameReference.sample_current.stackPointer
        ∧ cur.kind = .compiled
        ∧ 0 ≤ HotSpotStackFrameReference.sample_current.frameNumber
        ∧ ∃ target,
          (cur.first :: cur.senders)[HotSpotStackFrameReference.sample_current.frameNumber.toNat]?
            = some target
          ∧ (target.scope_objects = none →
              some HotSpotStackFrameReference.sample_current
                = some HotSpotStackFrameReference.sample_current)
          ∧ (∀ objects, target.scope_objects = some objects →
              ∃ after,
                some HotSpotStackFrameReference.sample_current = some after
                ∧ after.localIsVirtual = none
                ∧ after.locals.length = HotSpotStackFrameReference.sample_current.locals.length
                ∧ (∀ (i : Nat) (var : StackValue),
                    (compiledVFrame.locals (Deoptimization.realloc_objects 100 objects)
                      target)[i]? = some var →
                    var.type = .T_OBJECT → after.locals[i]? = some var.obj)
                ∧ after.stackPointer = HotSpotStackFrameReference.sample_current.stackPointer
                ∧ after.frameNumber = HotSpotStackFrameReference.sample_current.frameNumber
                ∧ after.bci = HotSpotStackFrameReference.sample_current.bci
                ∧ after.method = HotSpotStackFrameReference.sample_current.method
                ∧ after.compilerToVM = HotSpotStackFrameReference.sample_current.compilerToVM)
          ∧ (target.scope_objects = none →
              HotSpotStackFrameReference.sample_current.localIsVirtual
                = LogicalFrame.localIsVirtual
                    { frame := cur
                      frame_number := HotSpotStackFrameReference.sample_current.frameNumber
                      vf := target } →
              HotSpotStackFrameReference.sample_current.locals
                = (target.locals.map fun var => if var.type = .T_OBJECT then var.obj else none) →
              ∃ after,
                some HotSpotStackFrameReference.sample_current = some after
                ∧ after.localIsVirtual = none
                ∧ after.locals.length = target.locals.length
                ∧ ∀ (i : Nat) (var : StackValue), target.locals[i]? = some var →
                    var.type = .T_OBJECT → after.locals[i]? = some var.obj)) :=
  ⟨⟨rfl, rfl, materializeVirtualObjects_refreshes 100 [Frame.sample_entry, Frame.sample_shared]
      HotSpotStackFrameReference.sample_shared true _ rfl rfl⟩,
    ⟨rfl, rfl, materializeVirtualObjects_refreshes 100
      [Frame.sample_advanced, Frame.sample_interpreted, Frame.sample_entry]
      HotSpotStackFrameReference.sample_current false _ rfl rfl⟩⟩

theorem getLineNumberTable.count_eq (table : List (Int × Int)) :
    ∀ c : Nat, c < 2 ^ 16 → getLineNumberTable.count table c = (c + table.length) % 2 ^ 16 := by
  induction table with
  | nil =>
    intro c hc
    rw [getLineNumberTable.count, List.length_nil, Nat.add_zero, Nat.mod_eq_of_lt hc]
  | cons p rest ih =>
    intro c hc
    rw [getLineNumberTable.count, ih _ (Nat.mod_lt _ (by norm_num)), List.length_cons]
    omega

theorem getLineNumberTable.fill_append (table : List (Int × Int)) :
    ∀ (pre z : List Int), 2 * table.length ≤ z.length →
      getLineNumberTable.fill table pre.length (pre ++ z)
        = some (pre ++ getLineNumberTable.pairs table ++ z.drop (2 * table.length)) := by
  induction table with
  | nil => intro pre z _; simp [getLineNumberTable.fill, getLineNumberTable.pairs]
  | cons p rest ih =>
    intro pre z hz
    obtain ⟨bci, line⟩ := p
    match z, hz with
    | z0 :: z1 :: zs, hz =>
      rw [getLineNumberTable.fill, if_pos (by simp)]
      have hset : ((pre ++ z0 :: z1 :: zs).set pre.length bci).set (pre.length + 1) line
          = (pre ++ [bci, line]) ++ zs := by
        simp [List.set_append]
      have hlen : pre.length + 2 = (pre ++ [bci, line]).length := by simp
      rw [hset, hlen, ih (pre ++ [bci, line]) zs (by simp at hz; omega)]
      simp [getLineNumberTable.pairs, Nat.mul_add]
    | [], hz => exact absurd hz (by simp)
    | [_], hz => exact absurd hz (by simp; omega)

theorem getLineNumberTable.fill_short (table : List (Int × Int)) :
    ∀ (i : Nat) (result : List Int), i ≤ result.length → result.length < i + 2 * table.length →
      getLineNumberTable.fill table i result = none := by
  induction table with
  | nil => intro i result h1 h2; simp at h2; omega
  | cons p rest ih =>
    intro i result h1 h2
    obtain ⟨bci, line⟩ := p
    rw [getLineNumberTable.fill]
    by_cases hc : i + 1 < result.length
    · rw [if_pos hc]
      exact ih (i + 2) _ (by simp; omega) (by simp at h2 ⊢; omega)
    · rw [if_neg hc]

theorem getLineNumberTable.pairs_length (table : List (Int × Int)) :
    (getLineNumberTable.pairs table).length = 2 * table.length := by
  induction table with
  | nil => rfl
  | cons p rest ih =>
    obtain ⟨bci, line⟩ := p
    simp [getLineNumberTable.pairs, ih]
    omega

theorem getLineNumberTable.pairs_getElem (table : List (Int × Int)) :
    ∀ (k : Nat) (bci line : Int), table[k]? = some (bci, line) →
      (getLineNumberTable.pairs table)[2 * k]? = some bci
      ∧ (getLineNumberTable.pairs table)[2 * k + 1]? = some line := by
  induction table with
  | nil => intro k bci line h; simp at h
  | cons p rest ih =>
    intro k bci line h
    obtain ⟨b0, l0⟩ := p
    cases k with
    | zero =>
      simp only [List.getElem?_cons_zero, Option.some.injEq, Prod.mk.injEq] at h
      simp [getLineNumberTable.pairs, h.1, h.2]
    | succ j =>
      rw [List.getElem?_cons_succ] at h
      obtain ⟨h1, h2⟩ := ih j bci line h
      have e1 : 2 * (j + 1) = 2 * j + 1 + 1 := by omega
      have e2 : 2 * (j + 1) + 1 = 2 * j + 1 + 1 + 1 := by omega
      rw [e2, e1, getLineNumberTable.pairs]
      simp only [List.getElem?_cons_succ]
      exact ⟨h1, h2⟩

/-- C27, what the code does: for a method without line number table
`getLineNumberTable` returns null.  For a table of n pairs with n below 65536
it returns, unless the allocation fails, an array of length 2n whose elements
2k and 2k+1 are bci and line of the k-th pair.  For n at or above 65536 the
counter of the pairs, a 16-bit value, has wrapped: the array has 2 (n mod
65536) elements and the stores of the second loop run behind its end, as for a
table of 65536 pairs, where the array is empty. -/
theorem getLineNumberTable_counter_wraps :
    getLineNumberTable none none = some (.ok none)
    ∧ (∀ table : List (Int × Int), table.length < 65536 →
        getLineNumberTable none (some table)
          = some (.ok (some (getLineNumberTable.pairs table)))
        ∧ (getLineNumberTable.pairs table).length = 2 * table.length
        ∧ ∀ (k : Nat) (bci line : Int), table[k]? = some (bci, line) →
            (getLineNumberTable.pairs table)[2 * k]? = some bci
            ∧ (getLineNumberTable.pairs table)[2 * k + 1]? = some line)
    ∧ (∀ (table : List (Int × Int)) (ex : Throwable),
        getLineNumberTable (some ex) (some table) = some (.error ex))
    ∧ (∀ table : List (Int × Int), 65536 ≤ table.length →
        getLineNumberTable.count table 0 = table.length % 65536
        ∧ getLineNumberTable none (some table) = none)
    ∧ getLineNumberTable none (some (List.replicate 65536 (0, 1))) = none := by
  have hbig : ∀ table : List (Int × Int), 65536 ≤ table.length →
      getLineNumberTable.count table 0 = table.length % 65536
      ∧ getLineNumberTable none (some table) = none := by
    intro table hn
    have hc := getLineNumberTable.count_eq table 0 (by norm_num)
    rw [Nat.zero_add] at hc
    refine ⟨hc, ?_⟩
    have hmod : table.length % 2 ^ 16 < 2 ^ 16 := Nat.mod_lt _ (by norm_num)
    simp only [getLineNumberTable, hc]
    rw [getLineNumberTable.fill_short table 0 _ (Nat.zero_le _)
      (by rw [List.length_replicate]; norm_num at hmod ⊢; omega)]
  refine ⟨rfl, ?_, fun table ex => rfl, hbig, ?_⟩
  · intro table hn
    refine ⟨?_, getLineNumberTable.pairs_length table, getLineNumberTable.pairs_getElem table⟩
    have hc := getLineNumberTable.count_eq table 0 (by norm_num)
    rw [Nat.zero_add, Nat.mod_eq_of_lt (by norm_num; exact hn)] at hc
    have hf := getLineNumberTable.fill_append table [] (List.replicate (2 * table.length) 0)
      (by simp)
    simp only [List.length_nil, List.nil_append] at hf
    simp only [getLineNumberTable, hc, hf]
    simp
  · exact (hbig _ (by rw [List.length_replicate])).2

/-! ## Properties of writeDebugOutputImpl -/

theorem wrapSigned_32_of_range (x : Int) (hlo : -(2 ^ 31) ≤ x) (hhi : x < 2 ^ 31) :
    wrapSigned 32 x = x := by
  simp only [wrapSigned]
  omega

theorem wrapSigned_32_add (a b : Int) :
    wrapSigned 32 (wrapSigned 32 a + b) = wrapSigned 32 (a + b) := by
  simp only [wrapSigned]
  omega

theorem wrapSigned_32_range (x : Int) :
    -(2 ^ 31) ≤ wrapSigned 32 x ∧ wrapSigned 32 x < 2 ^ 31 := by
  simp only [wrapSigned]
  omega

theorem writeDebugOutputImpl.fuel_succ (O_BUFLEN : Int) (fuel : Nat) :
    ∀ (offset length : Int) (writes : List DebugWrite),
      writeDebugOutputImpl O_BUFLEN fuel offset length = some writes →
      writeDebugOutputImpl O_BUFLEN (fuel + 1) offset length = some writes := by
  induction fuel with
  | zero =>
    intro offset length writes h
    rw [writeDebugOutputImpl] at h
    by_cases hl : length > 0
    · rw [if_pos hl] at h; simp at h
    · rw [if_neg hl] at h
      rw [writeDebugOutputImpl, if_neg hl]
      exact h
  | succ n ih =>
    intro offset length writes h
    rw [writeDebugOutputImpl] at h
    rw [writeDebugOutputImpl]
    by_cases hl : length > 0
    · rw [if_pos hl] at h
      rw [if_pos hl]
      cases hr : writeDebugOutputImpl O_BUFLEN n (wrapSigned 32 (offset + O_BUFLEN))
          (wrapSigned 32 (length - O_BUFLEN)) with
      | none => rw [hr] at h; simp at h
      | some later =>
        rw [hr] at h
        rw [ih _ _ later hr]
        exact h
    · rw [if_neg hl] at h
      rw [if_neg hl]
      exact h

theorem writeDebugOutputImpl.fuel_add (O_BUFLEN : Int) (fuel : Nat) (offset length : Int)
    (writes : List DebugWrite) (h : writeDebugOutputImpl O_BUFLEN fuel offset length = some writes)
    (k : Nat) : writeDebugOutputImpl O_BUFLEN (fuel + k) offset length = some writes := by
  induction k with
  | zero => exact h
  | succ k ih => exact writeDebugOutputImpl.fuel_succ O_BUFLEN (fuel + k) offset length writes ih

/-- The loop of `writeDebugOutputImpl` ends, and its writes are the pieces of
`O_BUFLEN` bytes of the range, the last one shorter. -/
theorem writeDebugOutputImpl.rounds_spec (O_BUFLEN : Int) (hO : 0 < O_BUFLEN)
    (hO31 : O_BUFLEN < 2 ^ 31) (fuel : Nat) :
    ∀ (offset length : Int), -(2 ^ 31) ≤ offset → offset < 2 ^ 31 → length < 2 ^ 31 →
      length.toNat ≤ fuel →
      ∃ writes, writeDebugOutputImpl O_BUFLEN fuel offset length = some writes
        ∧ (length ≤ 0 → writes = [])
        ∧ (0 < length → ((writes.length : Int) - 1) * O_BUFLEN < length
            ∧ length ≤ (writes.length : Int) * O_BUFLEN)
        ∧ ∀ j : Nat, j < writes.length →
            writes[j]? = some { offset := wrapSigned 32 (offset + j * O_BUFLEN)
                                len := min (length - j * O_BUFLEN) O_BUFLEN } := by
  induction fuel with
  | zero =>
    intro offset length _ _ _ hfuel
    have hl : ¬ length > 0 := by omega
    refine ⟨[], by rw [writeDebugOutputImpl, if_neg hl], fun _ => rfl, fun h => absurd h hl, ?_⟩
    intro j hj
    simp at hj
  | succ n ih =>
    intro offset length hoff1 hoff2 hlen hfuel
    by_cases hl : length > 0
    · have hsub : wrapSigned 32 (length - O_BUFLEN) = length - O_BUFLEN :=
        wrapSigned_32_of_range _ (by omega) (by omega)
      obtain ⟨later, hlater, hnil, hcount, helem⟩ :=
        ih (wrapSigned 32 (offset + O_BUFLEN)) (length - O_BUFLEN)
          (wrapSigned_32_range _).1 (wrapSigned_32_range _).2 (by omega) (by omega)
      refine ⟨{ offset := offset, len := min length O_BUFLEN } :: later, ?_, ?_, ?_, ?_⟩
      · rw [writeDebugOutputImpl, if_pos hl, hsub, hlater]
      · intro h; omega
      · intro _
        rw [List.length_cons]
        push_cast
        by_cases hrest : 0 < length - O_BUFLEN
        · obtain ⟨h1, h2⟩ := hcount hrest
          constructor
          · linarith
          · linarith
        · have := hnil (by omega)
          subst this
          simp only [List.length_nil, Nat.cast_zero, zero_add, sub_self, zero_mul, one_mul]
          constructor <;> omega
      · intro j hj
        cases j with
        | zero =>
          simp only [List.getElem?_cons_zero, Nat.cast_zero, zero_mul, add_zero, sub_zero]
          rw [wrapSigned_32_of_range offset hoff1 hoff2]
        | succ k =>
          rw [List.getElem?_cons_succ, helem k (by simpa using hj), wrapSigned_32_add]
          congr 2
          · push_cast; ring_nf
          · push_cast; ring_nf
    · have hnil : writeDebugOutputImpl O_BUFLEN (n + 1) offset length = some [] := by
        rw [writeDebugOutputImpl, if_neg hl]
      refine ⟨[], hnil, fun _ => rfl, fun h => absurd h hl, ?_⟩
      intro j hj
      simp at hj

/-- The writes of a range that lies within the array carry the bytes of the
range. -/
theorem writeDebugOutputImpl.output_spec (O_BUFLEN : Int) (hO : 0 < O_BUFLEN)
    (hO31 : O_BUFLEN < 2 ^ 31) (array : List Int) (harray : (array.length : Int) < 2 ^ 31)
    (fuel : Nat) :
    ∀ (offset length : Int) (writes : List DebugWrite), 0 ≤ offset →
      offset + length ≤ array.length →
      writeDebugOutputImpl O_BUFLEN fuel offset length = some writes →
      writeDebugOutputImpl.output array writes
        = some ((array.drop offset.toNat).take length.toNat) := by
  induction fuel with
  | zero =>
    intro offset length writes _ _ h
    rw [writeDebugOutputImpl] at h
    by_cases hl : length > 0
    · rw [if_pos hl] at h; simp at h
    · rw [if_neg hl, Option.some.injEq] at h
      subst h
      have : length.toNat = 0 := by omega
      simp [writeDebugOutputImpl.output, this]
  | succ n ih =>
    intro offset length writes hoff hrange h
    rw [writeDebugOutputImpl] at h
    by_cases hl : length > 0
    · rw [if_pos hl] at h
      have hsub : wrapSigned 32 (length - O_BUFLEN) = length - O_BUFLEN :=
        wrapSigned_32_of_range _ (by omega) (by omega)
      rw [hsub] at h
      cases hr : writeDebugOutputImpl O_BUFLEN n (wrapSigned 32 (offset + O_BUFLEN))
          (length - O_BUFLEN) with
      | none => rw [hr] at h; simp at h
      | some later =>
        rw [hr] at h
        simp only [Option.some.injEq] at h
        subst h
        by_cases hrest : 0 < length - O_BUFLEN
        · have hwrap : wrapSigned 32 (offset + O_BUFLEN) = offset + O_BUFLEN :=
            wrapSigned_32_of_range _ (by omega) (by omega)
          rw [hwrap] at hr
          have hlater := ih (offset + O_BUFLEN) (length - O_BUFLEN) later (by omega) (by omega) hr
          have hmin : min length O_BUFLEN = O_BUFLEN := by omega
          have hb : DebugWrite.bytes array { offset := offset, len := min length O_BUFLEN }
              = some ((array.drop offset.toNat).take O_BUFLEN.toNat) := by
            simp only [DebugWrite.bytes, hmin]
            rw [if_pos ⟨hoff, by omega, by omega⟩]
          rw [writeDebugOutputImpl.output, hb, hlater]
          simp only [Option.some.injEq]
          have e1 : (offset + O_BUFLEN).toNat = offset.toNat + O_BUFLEN.toNat := by omega
          have e2 : length.toNat = O_BUFLEN.toNat + (length - O_BUFLEN).toNat := by omega
          rw [e1, e2, List.take_add, List.drop_drop]
        · have hnil : later = [] := by
            have hle : ¬ length - O_BUFLEN > 0 := by omega
            cases n with
            | zero => rw [writeDebugOutputImpl, if_neg hle] at hr; simpa using hr.symm
            | succ m => rw [writeDebugOutputImpl, if_neg hle] at hr; simpa using hr.symm
          subst hnil
          have hmin : min length O_BUFLEN = length := by omega
          have hb : DebugWrite.bytes array { offset := offset, len := min length O_BUFLEN }
              = some ((array.drop offset.toNat).take length.toNat) := by
            simp only [DebugWrite.bytes, hmin]
            rw [if_pos ⟨hoff, by omega, by omega⟩]
          rw [writeDebugOutputImpl.output, hb]
          simp [writeDebugOutputImpl.output]
    · rw [if_neg hl, Option.some.injEq] at h
      subst h
      have : length.toNat = 0 := by omega
      simp [writeDebugOutputImpl.output, this]

/-- C28: for every byte array, and every offset and length that are `jint`,
`writeDebugOutputImpl` terminates: with `length` rounds or more the loop ends,
always with the same writes.  For a length of 0 or less it writes nothing; for
a positive length it issues ceil(length / O_BUFLEN) writes, the j-th of which
starts at offset + j O_BUFLEN (in `jint` arithmetic, which is exact when offset
+ length is a `jint`) and carries min(length - j O_BUFLEN, O_BUFLEN) bytes, so
that for a range within the array the bytes written are, in order, those of
the array from offset to offset + length. -/
theorem writeDebugOutputImpl_chunks (O_BUFLEN : Int) (offset length : Int)
    (hO : 0 < O_BUFLEN ∧ O_BUFLEN < 2 ^ 31)
    (hoffset : -(2 ^ 31) ≤ offset ∧ offset < 2 ^ 31)
    (hlength : -(2 ^ 31) ≤ length ∧ length < 2 ^ 31) :
    ∃ writes,
      (∀ fuel, length.toNat ≤ fuel →
        writeDebugOutputImpl O_BUFLEN fuel offset length = some writes)
      ∧ (length ≤ 0 → writes = [])
      ∧ (0 < length → (writes.length : Int) = (length + O_BUFLEN - 1) / O_BUFLEN)
      ∧ (∀ j : Nat, j < writes.length →
          writes[j]? = some { offset := wrapSigned 32 (offset + j * O_BUFLEN)
                              len := min (length - j * O_BUFLEN) O_BUFLEN })
      ∧ (offset + length < 2 ^ 31 → ∀ j : Nat, j < writes.length →
          writes[j]? = some { offset := offset + j * O_BUFLEN
                              len := min (length - j * O_BUFLEN) O_BUFLEN })
      ∧ ∀ array : List Int, 0 ≤ offset → offset + length ≤ array.length →
          (array.length : Int) < 2 ^ 31 →
          writeDebugOutputImpl.output array writes
            = some ((array.drop offset.toNat).take length.toNat) := by
  obtain ⟨hO1, hO2⟩ := hO
  obtain ⟨hoff1, hoff2⟩ := hoffset
  obtain ⟨_, hlen2⟩ := hlength
  obtain ⟨writes, hw, hnil, hcount, helem⟩ :=
    writeDebugOutputImpl.rounds_spec O_BUFLEN hO1 hO2 length.toNat offset length hoff1 hoff2 hlen2
      (Nat.le_refl _)
  refine ⟨writes, ?_, hnil, ?_, helem, ?_, ?_⟩
  · intro fuel hfuel
    obtain ⟨k, hk⟩ := Nat.exists_eq_add_of_le hfuel
    rw [hk]
    exact writeDebugOutputImpl.fuel_add O_BUFLEN length.toNat offset length writes hw k
  · intro hl
    obtain ⟨h1, h2⟩ := hcount hl
    have hdiv := (Int.ediv_emod_unique (a := length + O_BUFLEN - 1) (b := O_BUFLEN)
      (q := (writes.length : Int))
      (r := length + O_BUFLEN - 1 - O_BUFLEN * (writes.length : Int)) hO1).mpr
      ⟨by ring, by nlinarith, by nlinarith⟩
    exact hdiv.1.symm
  · intro hsum j hj
    rw [helem j hj]
    congr 2
    by_cases hl : 0 < length
    · obtain ⟨h1, h2⟩ := hcount hl
      have hjlt : (j : Int) * O_BUFLEN < length := by
        have : (j : Int) ≤ (writes.length : Int) - 1 := by omega
        nlinarith
      have hj0 : 0 ≤ (j : Int) * O_BUFLEN := by positivity
      exact wrapSigned_32_of_range _ (by omega) (by omega)
    · have := hnil (by omega)
      subst this
      simp at hj
  · intro array hoff hrange harray
    exact writeDebugOutputImpl.output_spec O_BUFLEN hO1 hO2 array harray length.toNat offset
      length writes hoff hrange hw

theorem writeDebugOutputImpl_chunks_witness :
    ((0 : Int) < 4 ∧ (4 : Int) < 2 ^ 31)
    ∧ (-(2 ^ 31) ≤ (1 : Int) ∧ (1 : Int) < 2 ^ 31)
    ∧ (-(2 ^ 31) ≤ (10 : Int) ∧ (10 : Int) < 2 ^ 31)
    ∧ writeDebugOutputImpl 4 10 1 10 = some [⟨1, 4⟩, ⟨5, 4⟩, ⟨9, 2⟩]
    ∧ writeDebugOutputImpl.output [0, 11, 12, 13, 14, 15, 16, 17, 18, 19, 20, 21]
          [⟨1, 4⟩, ⟨5, 4⟩, ⟨9, 2⟩]
        = some [11, 12, 13, 14, 15, 16, 17, 18, 19, 20]
    ∧ ∃ writes,
        (∀ fuel, (10 : Int).toNat ≤ fuel → writeDebugOutputImpl 4 fuel 1 10 = some writes)
        ∧ ((10 : Int) ≤ 0 → writes = [])
        ∧ ((0 : Int) < 10 → (writes.length : Int) = (10 + 4 - 1) / 4)
        ∧ (∀ j : Nat, j < writes.length →
            writes[j]? = some { offset := wrapSigned 32 (1 + j * 4), len := min (10 - j * 4) 4 })
        ∧ ((1 : Int) + 10 < 2 ^ 31 → ∀ j : Nat, j < writes.length →
            writes[j]? = some { offset := 1 + j * 4, len := min (10 - j * 4) 4 })
        ∧ ∀ array : List Int, (0 : Int) ≤ 1 → (1 : Int) + 10 ≤ array.length →
            (array.length : Int) < 2 ^ 31 →
            writeDebugOutputImpl.output array writes
              = some ((array.drop (1 : Int).toNat).take (10 : Int).toNat) :=
  ⟨by decide, by decide, by decide, by decide, by decide,
    writeDebugOutputImpl_chunks 4 1 10 (by decide) (by decide) (by decide)⟩

/-! ## Properties of getMaxCallTargetOffsetImpl -/

/-- C29 fails as stated: with the code cache from 4096 to 8192 and the non-zero
address 4105 - 2^63 the result is 2^63 - 5, and the displacement from t + 4 to
the address for the target t = 4102 is -2^63 - 1, whose absolute value is
larger than the result, also when it is taken in 64-bit signed arithmetic
(2^63 - 1). -/
theorem getMaxCallTargetOffsetImpl_overflow :
    (4105 - 2 ^ 63 : Int) ≠ 0 ∧ -(2 ^ 63) ≤ (4105 - 2 ^ 63 : Int)
    ∧ (4096 : Int) ≤ 4102 ∧ (4102 : Int) ≤ 8192
    ∧ getMaxCallTargetOffsetImpl 4096 8192 (4105 - 2 ^ 63) = 2 ^ 63 - 5
    ∧ getMaxCallTargetOffsetImpl 4096 8192 (4105 - 2 ^ 63)
        < abs ((4105 - 2 ^ 63 : Int) - (4102 + 4))
    ∧ getMaxCallTargetOffsetImpl 4096 8192 (4105 - 2 ^ 63)
        < ABS (wrapSigned 64 ((4105 - 2 ^ 63 : Int) - (4102 + 4))) := by
  refine ⟨by decide, by decide, by decide, by decide, ?_, ?_, ?_⟩ <;>
    simp [getMaxCallTargetOffsetImpl, MAX2, ABS, wrapSigned, wrapUnsigned]

theorem getMaxCallTargetOffsetImpl.off_eq (bound addr : Int)
    (hlo : -(2 ^ 63) ≤ addr - (bound + 4)) (hhi : addr - (bound + 4) < 2 ^ 63) :
    wrapSigned 64 (wrapUnsigned 64 (addr - wrapUnsigned 64 (bound + 4))) = addr - (bound + 4) := by
  simp only [wrapSigned, wrapUnsigned]
  omega

theorem ABS_eq_abs (x : Int) (hlo : -(2 ^ 63) < x) (hhi : x < 2 ^ 63) : ABS x = abs x := by
  unfold ABS
  by_cases h : x > 0
  · rw [if_pos h, abs_of_pos h]
  · rw [if_neg h, abs_of_nonpos (by omega)]
    simp only [wrapSigned]
    omega

theorem MAX2_eq_max (a b : Int) : MAX2 a b = max a b := by
  unfold MAX2
  by_cases h : a > b
  · rw [if_pos h, max_eq_left (by omega)]
  · rw [if_neg h, max_eq_right (by omega)]

/-- C29, as amended: `getMaxCallTargetOffsetImpl` returns -1 for the address 0.
For a non-zero address such that the differences addr - (low + 4) and
addr - (high + 4) are 64-bit signed values other than the smallest one, and
low ≤ high, it returns max(|addr - (low + 4)|, |addr - (high + 4)|), which is
not negative and is at least |d| for the displacement d from t + 4 to the
address, for every target t with low ≤ t ≤ high. -/
theorem getMaxCallTargetOffsetImpl_bound (low_bound high_bound addr : Int)
    (hbounds : low_bound ≤ high_bound)
    (hhigh : -(2 ^ 63) < addr - (high_bound + 4))
    (hlow : addr - (low_bound + 4) < 2 ^ 63) :
    getMaxCallTargetOffsetImpl low_bound high_bound 0 = -1
    ∧ (addr ≠ 0 →
        getMaxCallTargetOffsetImpl low_bound high_bound addr
          = max (abs (addr - (low_bound + 4))) (abs (addr - (high_bound + 4)))
        ∧ 0 ≤ getMaxCallTargetOffsetImpl low_bound high_bound addr
        ∧ ∀ t : Int, low_bound ≤ t → t ≤ high_bound →
            abs (addr - (t + 4)) ≤ getMaxCallTargetOffsetImpl low_bound high_bound addr) := by
  refine ⟨rfl, ?_⟩
  intro haddr
  have hval : getMaxCallTargetOffsetImpl low_bound high_bound addr
      = max (abs (addr - (low_bound + 4))) (abs (addr - (high_bound + 4))) := by
    simp only [getMaxCallTargetOffsetImpl, haddr, ne_eq, not_false_eq_true, if_true]
    rw [getMaxCallTargetOffsetImpl.off_eq low_bound addr (by omega) hlow,
      getMaxCallTargetOffsetImpl.off_eq high_bound addr (by omega) (by omega),
      ABS_eq_abs _ (by omega) hlow, ABS_eq_abs _ hhigh (by omega), MAX2_eq_max]
  refine ⟨hval, ?_, ?_⟩
  · rw [hval]
    exact le_max_of_le_left (abs_nonneg _)
  · intro t ht1 ht2
    rw [hval, abs_le]
    constructor
    · have h1 : -(abs (addr - (high_bound + 4))) ≤ addr - (high_bound + 4) := neg_abs_le _
      have h2 : abs (addr - (high_bound + 4))
          ≤ max (abs (addr - (low_bound + 4))) (abs (addr - (high_bound + 4))) := le_max_right _ _
      omega
    · have h1 : addr - (low_bound + 4) ≤ abs (addr - (low_bound + 4)) := le_abs_self _
      have h2 : abs (addr - (low_bound + 4))
          ≤ max (abs (addr - (low_bound + 4))) (abs (addr - (high_bound + 4))) := le_max_left _ _
      omega

theorem getMaxCallTargetOffsetImpl_bound_witness :
    (4096 : Int) ≤ 8192
    ∧ -(2 ^ 63) < (5000 : Int) - (8192 + 4)
    ∧ (5000 : Int) - (4096 + 4) < 2 ^ 63
    ∧ getMaxCallTargetOffsetImpl 4096 8192 5000 = 3196
    ∧ getMaxCallTargetOffsetImpl 4096 8192 0 = -1
    ∧ ((5000 : Int) ≠ 0 →
        getMaxCallTargetOffsetImpl 4096 8192 5000
          = max (abs ((5000 : Int) - (4096 + 4))) (abs ((5000 : Int) - (8192 + 4)))
        ∧ 0 ≤ getMaxCallTargetOffsetImpl 4096 8192 5000
        ∧ ∀ t : Int, 4096 ≤ t → t ≤ 8192 →
            abs ((5000 : Int) - (t + 4)) ≤ getMaxCallTargetOffsetImpl 4096 8192 5000) :=
  ⟨by decide, by decide, by decide, by decide,
    getMaxCallTargetOffsetImpl_bound 4096 8192 5000 (by decide) (by decide) (by decide)⟩

/-! ## Properties of methodDataProfileDataSize -/

theorem methodDataProfileDataSize.search_first (position : Int) (before : List ProfileData)
    (entry : ProfileData) (after : List ProfileData)
    (hbefore : ∀ p ∈ before, p.di ≠ position) (hentry : entry.di = position) :
    methodDataProfileDataSize.search position (before ++ entry :: after)
      = some entry.size_in_bytes := by
  induction before with
  | nil => simp [methodDataProfileDataSize.search, hentry]
  | cons p rest ih =>
    rw [List.cons_append, methodDataProfileDataSize.search,
      if_neg (hbefore p (List.mem_cons_self _ _))]
    exact ih fun q hq => hbefore q (List.mem_cons_of_mem _ hq)

theorem methodDataProfileDataSize.search_none (position : Int) (extra : List ProfileData)
    (h : ∀ p ∈ extra, p.di ≠ position) :
    methodDataProfileDataSize.search position extra = none := by
  induction extra with
  | nil => rfl
  | cons p rest ih =>
    rw [methodDataProfileDataSize.search, if_neg (h p (List.mem_cons_self _ _))]
    exact ih fun q hq => h q (List.mem_cons_of_mem _ hq)

/-- C30, what the code does: `methodDataProfileDataSize` returns the size of
the regular entry at the position when that entry is valid, and otherwise the
size of the first entry of the extra data whose index is the position.  When
the position is that of no valid regular entry and of no entry of the extra
data, as position 8 is for the sample, the loop of lines 1141-1147 does not end
at the limit of the extra data but goes on behind it: no call ever fails with
IllegalArgumentException, the throw of line 1148 is not reached. -/
theorem methodDataProfileDataSize_no_exit (mdo : MethodData) (position : Int) :
    (∀ profile_data, mdo.data_at position = some profile_data →
        methodDataProfileDataSize mdo position = some (.ok profile_data.size_in_bytes))
    ∧ (∀ before entry after, mdo.data_at position = none →
        mdo.extra_data = before ++ entry :: after → (∀ p ∈ before, p.di ≠ position) →
        entry.di = position →
        methodDataProfileDataSize mdo position = some (.ok entry.size_in_bytes))
    ∧ (mdo.data_at position = none → (∀ p ∈ mdo.extra_data, p.di ≠ position) →
        methodDataProfileDataSize mdo position = none)
    ∧ (∀ ex, methodDataProfileDataSize mdo position ≠ some (.error ex))
    ∧ MethodData.sample.data_at 8 = none
    ∧ (∀ p ∈ MethodData.sample.extra_data, p.di ≠ 8)
    ∧ methodDataProfileDataSize MethodData.sample 8 = none := by
  refine ⟨?_, ?_, ?_, ?_, rfl, by decide, rfl⟩
  · intro profile_data h
    simp only [methodDataProfileDataSize, h]
  · intro before entry after h hextra hbefore hentry
    simp only [methodDataProfileDataSize, h, hextra,
      methodDataProfileDataSize.search_first position before entry after hbefore hentry]
  · intro h hnone
    simp only [methodDataProfileDataSize, h,
      methodDataProfileDataSize.search_none position mdo.extra_data hnone]
  · intro ex h
    unfold methodDataProfileDataSize at h
    cases hd : mdo.data_at position with
    | some profile_data => rw [hd] at h; simp at h
    | none =>
      rw [hd] at h
      cases hs : methodDataProfileDataSize.search position mdo.extra_data with
      | none => rw [hs] at h; simp at h
      | some size => rw [hs] at h; simp at h

end JVMCI
